import Mathlib

set_option linter.unusedVariables false

/-!
Verification development for the osu2sm core (src/simfile.rs, src/filter.rs,
src/node.rs, src/node/remap.rs, src/transform.rs).

Machine integers of the source (i32, usize) are modelled as Int and Nat;
the charts handled by the program stay far below any overflow boundary, and
no arithmetic in the verified paths wraps.  f64 quantities (seconds,
beat lengths, offsets) are modelled as exact rationals.  The two sources of
randomness (rand::seq::SliceRandom::choose_weighted seeded from a chart
fingerprint, and choose_multiple) are modelled as oracle parameters
constrained exactly by the guarantees of those library functions: a
weighted choice returns an element of the candidate slice or nothing, and
choose_multiple returns min(amount, len) distinct elements of the slice.
Every theorem about the randomised passes quantifies over all such oracles,
so it covers the behaviour of the concrete seeded generator.
-/

/-- Beat position as a fixed-point integer, denominator 48
(src/simfile.rs, struct BeatPos with frac: i32, FIXED_POINT = 48). -/
structure BeatPos where
  frac : Int
deriving DecidableEq

/-- FIXED_POINT constant of BeatPos (src/simfile.rs). -/
def BeatPos.fixedPoint : Int := 48

/-- EPSILON = BeatPos with frac 1 (src/simfile.rs). -/
def BeatPos.epsilon : BeatPos := ⟨1⟩

instance : LE BeatPos := ⟨fun a b => a.frac ≤ b.frac⟩

instance : LT BeatPos := ⟨fun a b => a.frac < b.frac⟩

instance (a b : BeatPos) : Decidable (a ≤ b) :=
  inferInstanceAs (Decidable (a.frac ≤ b.frac))

instance (a b : BeatPos) : Decidable (a < b) :=
  inferInstanceAs (Decidable (a.frac < b.frac))

instance : Sub BeatPos := ⟨fun a b => ⟨a.frac - b.frac⟩⟩

instance : Add BeatPos := ⟨fun a b => ⟨a.frac + b.frac⟩⟩

/-- as_num of a BeatPos, as an exact rational (src/simfile.rs: frac / 48). -/
def BeatPos.asNum (b : BeatPos) : ℚ := (b.frac : ℚ) / 48

/-- A note (src/simfile.rs, struct Note { kind: char, beat: BeatPos, key: i32 }). -/
structure Note where
  kind : Char
  beat : BeatPos
  key : Int
deriving DecidableEq

/-- Note::is_hit (kind '1'). -/
def Note.isHit (n : Note) : Bool := n.kind == '1'

/-- Note::is_head (kind '2'). -/
def Note.isHead (n : Note) : Bool := n.kind == '2'

/-- Note::is_tail (kind '3'). -/
def Note.isTail (n : Note) : Bool := n.kind == '3'

/-- Default note used for out-of-range list reads in the embedding; every
verified statement keeps indices in range, so the default never matters. -/
def noteZero : Note := ⟨'0', ⟨0⟩, 0⟩

/-- Indexed read of a note list. -/
def noteAt (l : List Note) (i : ℕ) : Note := l.getD i noteZero

/-- A timing control point (src/simfile.rs, struct ControlPoint
{ beat: BeatPos, beat_len: f64 }); the beat length is modelled exactly. -/
structure ControlPoint where
  beat : BeatPos
  beatLen : ℚ
deriving DecidableEq

/-- The 37 gamemodes (src/simfile.rs, enum Gamemode). -/
inductive Gamemode where
  | DanceSingle
  | DanceDouble
  | DanceCouple
  | DanceSolo
  | DanceThreepanel
  | DanceRoutine
  | PumpSingle
  | PumpHalfdouble
  | PumpDouble
  | PumpCouple
  | PumpRoutine
  | Kb7Single
  | Ez2Single
  | Ez2Double
  | Ez2Real
  | ParaSingle
  | Ds3ddxSingle
  | BmSingle5
  | BmVersus5
  | BmDouble5
  | BmSingle7
  | BmVersus7
  | BmDouble7
  | ManiaxSingle
  | ManiaxDouble
  | TechnoSingle4
  | TechnoSingle5
  | TechnoSingle8
  | TechnoDouble4
  | TechnoDouble5
  | TechnoDouble8
  | PnmFive
  | PnmNine
  | KickboxHuman
  | KickboxQuadarm
  | KickboxInsect
  | KickboxArachnid
deriving DecidableEq

/-- Gamemode::key_count (src/simfile.rs).  The source returns i32; every
value is positive, so the embedding uses Nat directly. -/
def Gamemode.keyCount : Gamemode → ℕ
  | .DanceSingle => 4
  | .DanceDouble => 8
  | .DanceCouple => 8
  | .DanceSolo => 6
  | .DanceThreepanel => 3
  | .DanceRoutine => 8
  | .PumpSingle => 5
  | .PumpHalfdouble => 6
  | .PumpDouble => 10
  | .PumpCouple => 10
  | .PumpRoutine => 10
  | .Kb7Single => 7
  | .Ez2Single => 5
  | .Ez2Double => 10
  | .Ez2Real => 7
  | .ParaSingle => 5
  | .Ds3ddxSingle => 8
  | .BmSingle5 => 6
  | .BmVersus5 => 6
  | .BmDouble5 => 12
  | .BmSingle7 => 8
  | .BmVersus7 => 8
  | .BmDouble7 => 16
  | .ManiaxSingle => 4
  | .ManiaxDouble => 8
  | .TechnoSingle4 => 4
  | .TechnoSingle5 => 5
  | .TechnoSingle8 => 8
  | .TechnoDouble4 => 8
  | .TechnoDouble5 => 10
  | .TechnoDouble8 => 16
  | .PnmFive => 5
  | .PnmNine => 9
  | .KickboxHuman => 4
  | .KickboxQuadarm => 4
  | .KickboxInsect => 6
  | .KickboxArachnid => 8

/-- enum Difficulty (src/simfile.rs). -/
inductive Difficulty where
  | Beginner
  | Easy
  | Medium
  | Hard
  | Challenge
  | Edit
deriving DecidableEq

/-- enum DisplayBpm (src/simfile.rs); f64 fields modelled as rationals. -/
inductive DisplayBpm where
  | Single (bpm : ℚ)
  | Range (lo hi : ℚ)
  | Random
deriving DecidableEq

/-- struct Simfile (src/simfile.rs).  PathBuf fields are modelled as
Option String (a present path is a string; non-UTF-8 paths are out of the
scope of the verified claims), f64 fields as rationals, and the radar
array as a list of five rationals. -/
structure Simfile where
  title : String
  subtitle : String
  artist : String
  titleTrans : String
  subtitleTrans : String
  artistTrans : String
  genre : String
  credit : String
  banner : Option String
  background : Option String
  lyrics : Option String
  cdtitle : Option String
  music : Option String
  offset : ℚ
  bpms : List ControlPoint
  stops : List (ℚ × ℚ)
  sampleStart : Option ℚ
  sampleLen : Option ℚ
  displayBpm : DisplayBpm
  gamemode : Gamemode
  desc : String
  difficulty : Difficulty
  difficultyNum : ℚ
  radar : List ℚ
  notes : List Note
deriving DecidableEq

/-! ## Remap conversion (src/node/remap.rs fn convert; src/filter.rs fn convert)

The two convert functions are identical in control flow and state: the
filter.rs variant differs only in how the weighted-choice weights are seeded
(last_active_times initialised to the time of beat 0 instead of negative
infinity).  Weights, the beat-to-time values fed to them, and the seeded RNG
influence only WHICH candidate the weighted pick returns (or whether it
returns none when the total weight is not positive), so they are abstracted
into a choice oracle: the oracle receives the candidate outkey list exactly as
built by the source (free outkeys in ascending order) plus a step counter
standing for the evolving RNG state.  ChoiceValid below is exactly the
guarantee of SliceRandom::choose_weighted: on success the result is an element
of the slice.  The two ensure! guards of the source (0-key source or target)
can never fire because Gamemode::key_count is positive for every gamemode
(lemma keyCount_pos below), so convert is total here.

Vec indexing: the source indexes unlock_by_tails[note.key as usize] and sets
vec entries in range; the embedding reads with List.getD (default 0, which for
unlock_by_tails coincides with the vec![0; n] initialisation) and writes with
List.set.  All verified statements keep keys in range, where getD/set agree
with Rust indexing. -/

/-- State of the remap conversion loop: locked_outkeys (none = free,
some none = locked open by a head, some (some b) = locked until beat b by a
hit) and unlock_by_tails. -/
structure RemapState where
  lockedOutkeys : List (Option (Option BeatPos))
  unlockByTails : List ℕ
deriving DecidableEq

/-- The auto-unlock pass at the top of the note loop (src/node/remap.rs
139-144): a LockedUntil(b) outkey is released once the current beat passes
b, every other lock state is kept. -/
def autoUnlock (beat : BeatPos) (l : Option (Option BeatPos)) :
    Option (Option BeatPos) :=
  match l with
  | some (some b) => if b < beat then none else some (some b)
  | x => x

/-- The candidate outkeys offered to choose_weighted (src/node/remap.rs
152-158): the indices whose lock entry is None. -/
def freeCands (outK : ℕ) (locked1 : List (Option (Option BeatPos))) : List ℕ :=
  (List.range outK).filter (fun o => (locked1.getD o (some none)).isNone)

/-- One iteration of the note loop of convert (src/node/remap.rs 136-179):
release every LockedUntil(b) outkey with note.beat > b; a tail reads
unlock_by_tails, unlocks that outkey and is emitted on it; any other note
draws a free outkey from the choice oracle, locking it (open for a head,
until the current beat for a hit), and gets the sentinel key -1 when the
oracle yields nothing (all outkeys locked, or zero total weight). -/
def convertStep (outK : ℕ) (choice : ℕ → List ℕ → Option ℕ) (n : ℕ)
    (st : RemapState) (note : Note) : Note × RemapState :=
  let locked1 : List (Option (Option BeatPos)) :=
    st.lockedOutkeys.map (autoUnlock note.beat)
  if note.isTail then
    let out := st.unlockByTails.getD note.key.toNat 0
    ({ note with key := (out : Int) }, ⟨locked1.set out none, st.unlockByTails⟩)
  else
    let cands := freeCands outK locked1
    match choice n cands with
    | some out =>
      if note.isHead then
        ({ note with key := (out : Int) },
          ⟨locked1.set out (some none), st.unlockByTails.set note.key.toNat out⟩)
      else
        ({ note with key := (out : Int) },
          ⟨locked1.set out (some (some note.beat)), st.unlockByTails⟩)
    | none => ({ note with key := -1 }, ⟨locked1, st.unlockByTails⟩)

/-- The note loop of convert: map every note through convertStep, threading
the state and the oracle step counter. -/
def convertGo (outK : ℕ) (choice : ℕ → List ℕ → Option ℕ) :
    ℕ → RemapState → List Note → List Note
  | _, _, [] => []
  | n, st, note :: rest =>
    let r := convertStep outK choice n st note
    r.1 :: convertGo outK choice (n + 1) r.2 rest

/-- fn convert (src/node/remap.rs 104-185): early return when avoid_shuffle
holds and the keycounts agree, otherwise run the note loop from the
all-free initial state and retain the notes with key >= 0. -/
def convert (choice : ℕ → List ℕ → Option ℕ) (targetGm : Gamemode)
    (avoidShuffle : Bool) (sm : Simfile) : Simfile :=
  let outK := targetGm.keyCount
  if avoidShuffle = true ∧ sm.gamemode.keyCount = outK then
    { sm with gamemode := targetGm }
  else
    let notes := convertGo outK choice 0
      ⟨List.replicate outK none, List.replicate sm.gamemode.keyCount 0⟩ sm.notes
    { sm with
      notes := notes.filter (fun nt => decide (0 ≤ nt.key))
      gamemode := targetGm }

/-- Guarantee of SliceRandom::choose_weighted: a successful pick is an
element of the candidate slice (it fails on an empty slice). -/
def ChoiceValid (choice : ℕ → List ℕ → Option ℕ) : Prop :=
  ∀ n cs k, choice n cs = some k → k ∈ cs

/-- A concrete valid choice oracle: always pick the first candidate. -/
def chooseFirst : ℕ → List ℕ → Option ℕ := fun _ cs => cs.head?

/-- Projection of a note to its beat and kind (everything convert may not
touch). -/
def projBK (nt : Note) : BeatPos × Char := (nt.beat, nt.kind)

/-! ## Timing mapper (src/simfile.rs, struct ToTime) -/

/-- struct ToTime: the cached bpm list, current control point index and
accumulated time. -/
structure ToTime where
  bpms : List ControlPoint
  curIdx : ℕ
  curTime : ℚ
deriving DecidableEq

/-- Indexed read of a control-point list (in-range in every verified
statement). -/
def cpAt (bpms : List ControlPoint) (i : ℕ) : ControlPoint := bpms.getD i ⟨⟨0⟩, 0⟩

/-- The control-point advance loop of ToTime::beat_to_time
(src/simfile.rs 914-928): while a next control point exists and beat has
reached it, accumulate the elapsed time of the current segment. -/
def advTT (bpms : List ControlPoint) (b : BeatPos) (idx : ℕ) (time : ℚ) : ℕ × ℚ :=
  if h : idx + 1 < bpms.length ∧ (cpAt bpms (idx + 1)).beat ≤ b then
    advTT bpms b (idx + 1)
      (time + ((cpAt bpms (idx + 1)).beat - (cpAt bpms idx).beat).asNum *
        (cpAt bpms idx).beatLen)
  else (idx, time)
termination_by bpms.length - idx
decreasing_by omega

/-- ToTime::beat_to_time: advance, then interpolate within the current
control point; returns the time and the updated mapper. -/
def beatToTime (t : ToTime) (b : BeatPos) : ℚ × ToTime :=
  let r := advTT t.bpms b t.curIdx t.curTime
  (r.2 + (b - (cpAt t.bpms r.1).beat).asNum * (cpAt t.bpms r.1).beatLen,
   ⟨t.bpms, r.1, r.2⟩)

/-- Successive beat_to_time calls on a single mapper value. -/
def timesOf (t : ToTime) : List BeatPos → List ℚ
  | [] => []
  | b :: rest =>
    let r := beatToTime t b
    r.1 :: timesOf r.2 rest

/-- ToTime::new / from_raw: start at control point 0 with time -offset. -/
def ToTime.fresh (bpms : List ControlPoint) (offset : ℚ) : ToTime := ⟨bpms, 0, -offset⟩

/-! ## Simultaneous-key limiting (src/filter.rs fn limit_simultaneous_keys)

choose_multiple is abstracted into a select oracle receiving the per-beat
pool of non-tail note positions, the amount to remove, and a step counter
standing for the RNG state; SelectValid is exactly the guarantee of
SliceRandom::choose_multiple (min(amount, len) distinct elements of the
slice).  The pool holds positions local to the current beat group, a
bijective reindexing of the global indices the source stores in beat_notes. -/

/-- Split a sorted note list into its runs of equal beat, with explicit
fuel: every iteration of the outer while loop consumes at least one note,
so fuel = length suffices. -/
def chunkBeatsGo : ℕ → List Note → List (List Note)
  | _, [] => []
  | 0, _ :: _ => []
  | fuel + 1, n :: rest =>
    (n :: rest.takeWhile (fun x => decide (x.beat = n.beat))) ::
      chunkBeatsGo fuel (rest.dropWhile (fun x => decide (x.beat = n.beat)))

/-- Split a sorted note list into its runs of equal beat (the two nested
while loops of limit_simultaneous_keys walk exactly these runs). -/
def chunkBeats (l : List Note) : List (List Note) := chunkBeatsGo l.length l

/-- The per-note scan of one beat: a tail clears its key from active_notes,
a head sets it, a hit leaves it. -/
def scanActive : List Bool → List Note → List Bool
  | a, [] => a
  | a, nt :: rest =>
    scanActive
      (if nt.isTail then a.set nt.key.toNat false
       else if nt.isHead then a.set nt.key.toNat true
       else a) rest

/-- Positions (within the beat group, starting at j) of the non-tail notes:
the beat_notes pool. -/
def nonTailIdxs : ℕ → List Note → List ℕ
  | _, [] => []
  | j, nt :: rest =>
    if nt.isTail then nonTailIdxs (j + 1) rest else j :: nonTailIdxs (j + 1) rest

/-- Mark the chosen positions with the sentinel key -1. -/
def markChosen (chosen : List ℕ) : ℕ → List Note → List Note
  | _, [] => []
  | j, nt :: rest =>
    (if j ∈ chosen then { nt with key := -1 } else nt) :: markChosen chosen (j + 1) rest

/-- For every chosen note that is a head, clear its key from active_notes. -/
def clearChosen (group : List Note) (chosen : List ℕ) (a : List Bool) : List Bool :=
  chosen.foldl
    (fun acc i =>
      let nt := noteAt group i
      if nt.isHead then acc.set nt.key.toNat false else acc)
    a

/-- Process one beat group (the body of the outer while loop,
src/filter.rs 181-214): scan the notes, count held keys plus new hits,
remove the excess via the select oracle, and clear removed heads. -/
def limitGroupStep (select : ℕ → List ℕ → ℕ → List ℕ) (n : ℕ) (maxSim : ℕ)
    (active : List Bool) (group : List Note) : List Note × List Bool :=
  let a1 := scanActive active group
  let pool := nonTailIdxs 0 group
  let tmp := group.countP (fun nt => !nt.isTail && !nt.isHead)
  let total := a1.count true + tmp
  let chosen := select n pool (total - maxSim)
  (markChosen chosen 0 group, clearChosen group chosen a1)

/-- Process all beat groups in order, threading active_notes and the oracle
step counter. -/
def limitGo (select : ℕ → List ℕ → ℕ → List ℕ) (maxSim : ℕ) :
    ℕ → List Bool → List (List Note) → List (List Note)
  | _, _, [] => []
  | n, act, g :: gs =>
    let r := limitGroupStep select n maxSim act g
    r.1 :: limitGo select maxSim (n + 1) r.2 gs

/-- The retain pass shared by the filters: keep the notes whose key is not
the sentinel -1 (src/filter.rs 163 and 216). -/
def filterOut (l : List Note) : List Note :=
  l.filter (fun nt => decide (0 ≤ nt.key))

/-- fn limit_simultaneous_keys (src/filter.rs 170-218): walk the beat
groups, then drop every sentinel note. -/
def limitSimultaneousKeys (select : ℕ → List ℕ → ℕ → List ℕ) (maxSim : ℕ)
    (sm : Simfile) : Simfile :=
  let kc := sm.gamemode.keyCount
  { sm with notes :=
      filterOut (limitGo select maxSim 0 (List.replicate kc false)
        (chunkBeats sm.notes)).flatten }

/-- Guarantee of SliceRandom::choose_multiple: min(amount, len) distinct
elements of the slice. -/
def SelectValid (select : ℕ → List ℕ → ℕ → List ℕ) : Prop :=
  ∀ n pool amt, pool.Nodup →
    (select n pool amt).Nodup ∧ (∀ x ∈ select n pool amt, x ∈ pool) ∧
      (select n pool amt).length = min amt pool.length

/-- A concrete valid select oracle: take the first amount elements. -/
def takeSel : ℕ → List ℕ → ℕ → List ℕ := fun _ pool amt => pool.take amt

/-- Last head-or-tail note on key k at a beat not after B (the output-side
notion of the hold state of key k when beat B starts being played). -/
def lastHT (l : List Note) (k : Int) (B : BeatPos) : Option Note :=
  (l.filter (fun nt =>
    decide (nt.key = k) && decide (nt.beat ≤ B) && (nt.isHead || nt.isTail))).getLast?

/-- Key k is held by an unfinished hold at beat B: the last head-or-tail
note on k at a beat not after B is a head (a hold whose tail lies exactly at
B has just been released, matching the source which clears tails before
counting). -/
def heldNow (l : List Note) (B : BeatPos) (k : Int) : Bool :=
  match lastHT l k B with
  | some nt => nt.isHead
  | none => false

/-- Number of keys (of the gamemode's kc keys) held at beat B.  A head at
beat B itself counts here (its hold is open at B), matching the source,
which counts heads through the active_notes bits and only plain hits through
tmp_active_notes. -/
def heldCount (l : List Note) (B : BeatPos) (kc : ℕ) : ℕ :=
  (List.range kc).countP (fun (k : ℕ) => heldNow l B (k : Int))

/-- Number of new plain (non-tail non-head) notes at beat B. -/
def newHits (l : List Note) (B : BeatPos) : ℕ :=
  l.countP (fun nt => decide (nt.beat = B) && !nt.isTail && !nt.isHead)

/-- A head-or-tail note on key k (the notes that drive the active_notes
bit of key k). -/
def isKHT (k : ℕ) (x : Note) : Bool :=
  decide (x.key = (k : Int)) && (x.isHead || x.isTail)

/-- Last head-or-tail note on key k of a list, beat-blind (within one beat
group this is the writer that determines the final active_notes bit). -/
def lastK (l : List Note) (k : ℕ) : Option Note :=
  (l.filter (isKHT k)).getLast?

/-- Hold state of key k at beat B judged from a note list suffix, with the
bit vector a supplying the answer when the suffix has no key-k event at or
before B. -/
def heldNowFrom (a : List Bool) (l : List Note) (B : BeatPos) (k : ℕ) : Bool :=
  match lastHT l (k : Int) B with
  | some nt => nt.isHead
  | none => a.getD k false

/-- Number of keys held at beat B judged from a suffix plus entry bits. -/
def heldCountFrom (a : List Bool) (l : List Note) (B : BeatPos) (kc : ℕ) : ℕ :=
  (List.range kc).countP (fun k => heldNowFrom a l B k)

/-- Count of the positions (offset j) of a note list that lie in chosen and
whose note satisfies P. -/
def posCount (chosen : List ℕ) (P : Note → Bool) : ℕ → List Note → ℕ
  | _, [] => 0
  | j, nt :: rest =>
    (if j ∈ chosen ∧ P nt = true then 1 else 0) + posCount chosen P (j + 1) rest

/-! ## Tail repair (src/simfile.rs, Simfile::fix_tails) -/

/-- One iteration of the fix_tails index loop (src/simfile.rs 178-195):
read the note at index i of the current buffer, advance the current-beat
tracking, and if the note is a tail sharing its key with a later note
inside the tracked beat, move it back by EPSILON and rotate the slice from
the first note of the beat through i one step right. -/
def fixStep (st : List Note × BeatPos × ℕ) (i : ℕ) : List Note × BeatPos × ℕ :=
  let notes := st.1
  let note := noteAt notes i
  let cb : BeatPos := if st.2.1 < note.beat then note.beat else st.2.1
  let fs : ℕ := if st.2.1 < note.beat then i else st.2.2
  if note.isTail &&
      ((notes.drop (i + 1)).takeWhile (fun x => decide (x.beat = cb))).any
        (fun x => decide (x.key = note.key)) then
    (notes.take fs ++
       { note with beat := note.beat - BeatPos.epsilon } ::
         ((notes.drop fs).take (i - fs)) ++ notes.drop (i + 1),
     cb, fs)
  else (notes, cb, fs)

/-- Simfile::fix_tails (src/simfile.rs 175-197): run fixStep for every
original index, starting from beat 0 and first-note index 0. -/
def fixTails (notes : List Note) : List Note :=
  ((List.range notes.length).foldl fixStep (notes, ⟨0⟩, 0)).1

/-! ## Bucket store (src/node.rs, struct Bucket and SimfileStore) -/

/-- struct Bucket (src/node.rs 28-32): a flat simfile list plus the
cumulative end index of every deposited list. -/
structure Bucket where
  simfiles : List Simfile
  lists : List ℕ
deriving DecidableEq

/-- The empty bucket (Bucket::default). -/
def Bucket.emptyBucket : Bucket := ⟨[], []⟩

/-- Bucket::put_list (src/node.rs 57-62): extend the flat list and record
its new length as the end of the deposited list. -/
def Bucket.putList (b : Bucket) (l : List Simfile) : Bucket :=
  ⟨b.simfiles ++ l, b.lists ++ [b.simfiles.length + l.length]⟩

/-- The loop of Bucket::take_lists (src/node.rs 48-53), which walks the end
indices in reverse, each time splitting off and visiting the trailing
segment, and finally visits what remains: returns the successive argument
lists handed to the consume closure. -/
def takeListsGo (flat : List Simfile) : List ℕ → List (List Simfile)
  | [] => [flat]
  | s :: rest => flat.drop s :: takeListsGo (flat.take s) rest

/-- Bucket::take_lists (src/node.rs 39-55): no visit at all when the list
index is empty, otherwise the visit sequence of the reversed-and-skipped
drain loop followed by the final consume.  SimfileStore::get
(src/node.rs 119-146) hands the visitor exactly this sequence, whether it
takes the bucket (take = true) or clones it. -/
def Bucket.takeListsVisits (b : Bucket) : List (List Simfile) :=
  if b.lists.isEmpty then [] else takeListsGo b.simfiles (b.lists.reverse.drop 1)

/-- A bucket built by depositing the given lists in order via put_list. -/
def bucketOfLists (ds : List (List Simfile)) : Bucket :=
  ds.foldl Bucket.putList Bucket.emptyBucket

/-! ## Graph resolver take-marking (src/node.rs, resolve_buckets 393-409) -/

/-- enum BucketKind (src/node.rs). -/
inductive BucketKind where
  | Generic
  | Input
  | Output
deriving DecidableEq

/-- A resolved bucket slot of a node: its kind and its
BucketId::Resolved(name, take) binding. -/
structure Slot where
  kind : BucketKind
  name : String
  take : Bool
deriving DecidableEq

/-- HashMap::insert semantics on an association list: replace the value of
an existing key, else append the entry. -/
def insertReplace (m : List (String × (ℕ × ℕ))) (k : String) (v : ℕ × ℕ) :
    List (String × (ℕ × ℕ)) :=
  match m with
  | [] => [(k, v)]
  | (k0, v0) :: rest =>
    if k0 = k then (k, v) :: rest else (k0, v0) :: insertReplace rest k v

/-- The input slots of one node, with their (node, slot) positions, in slot
order (buckets_mut yields slots in declaration order). -/
def inputEntriesSlots (i : ℕ) : ℕ → List Slot → List ((ℕ × ℕ) × String)
  | _, [] => []
  | j, s :: rest =>
    if s.kind = BucketKind.Input then
      ((i, j), s.name) :: inputEntriesSlots i (j + 1) rest
    else inputEntriesSlots i (j + 1) rest

/-- All input slots of the schedule, in schedule order. -/
def inputEntries : ℕ → List (List Slot) → List ((ℕ × ℕ) × String)
  | _, [] => []
  | i, slots :: rest => inputEntriesSlots i 0 slots ++ inputEntries (i + 1) rest

/-- The last_reads map of resolve_buckets (src/node.rs 394-401): walk every
input slot in schedule order and insert its position under its bucket name,
later insertions replacing earlier ones. -/
def lastReadsMap (nodes : List (List Slot)) : List (String × (ℕ × ℕ)) :=
  (inputEntries 0 nodes).foldl (fun m e => insertReplace m e.2 e.1) []

/-- Set take := true on the slot whose position the map stores for its name
(src/node.rs 402-409: the map holds mutable references to exactly those
slots, and each gets take = true). -/
def markSlots (m : List (String × (ℕ × ℕ))) (i : ℕ) : ℕ → List Slot → List Slot
  | _, [] => []
  | j, s :: rest =>
    (if m.lookup s.name = some (i, j) then { s with take := true } else s) ::
      markSlots m i (j + 1) rest

/-- Apply markSlots across the schedule. -/
def markNodes (m : List (String × (ℕ × ℕ))) : ℕ → List (List Slot) → List (List Slot)
  | _, [] => []
  | i, slots :: rest => markSlots m i 0 slots :: markNodes m (i + 1) rest

/-- The last-read take-marking pass of resolve_buckets
(src/node.rs 393-409). -/
def markLastReads (nodes : List (List Slot)) : List (List Slot) :=
  markNodes (lastReadsMap nodes) 0 nodes

/-- Position (i, j) is an input slot of the schedule with the given name. -/
def IsReader (nodes : List (List Slot)) (i j : ℕ) (nm : String) : Prop :=
  i < nodes.length ∧ j < (nodes.getD i []).length ∧
    ((nodes.getD i []).getD j ⟨BucketKind.Generic, "", false⟩).kind = BucketKind.Input ∧
    ((nodes.getD i []).getD j ⟨BucketKind.Generic, "", false⟩).name = nm

/-- Position (i, j) is the schedule-order last input slot with the given
name. -/
def IsLastReader (nodes : List (List Slot)) (i j : ℕ) (nm : String) : Prop :=
  IsReader nodes i j nm ∧
    ∀ i2 j2, IsReader nodes i2 j2 nm →
      i2 < i ∨ (i2 = i ∧ j2 ≤ j) ∨ (i2 = i ∧ j2 = j)

/-! ## Measure encoder (src/simfile.rs, fn write_measure 342-423)

The source writes the measure as key_count-byte rows into a growable byte
buffer and then streams them; the embedding returns the same rows as a list
of key_count-cell character rows (the measure body, without the textual
",", newline and "// Measure N" decoration, which no claim concerns). -/

/-- The inner while of get_denom for one factor: divide num and den by the
factor while both are divisible, counting the steps.  The extra guards
(factor at least 2, den positive) only serve termination; at every call
site factor is 2 or 3 and den is positive. -/
def factorOut (factor : ℕ) (num den : ℕ) : ℕ × ℕ × ℕ :=
  if h : 2 ≤ factor ∧ 0 < den ∧ num % factor = 0 ∧ den % factor = 0 then
    let r := factorOut factor (num / factor) (den / factor)
    (r.1, r.2.1, r.2.2 + 1)
  else (num, den, 0)
termination_by den
decreasing_by exact Nat.div_lt_self h.2.1 (by omega)

/-- fn get_denom (src/simfile.rs 351-362): factor 2 then factor 3 out of
(num, FIXED_POINT); returns the two exponents. -/
def getDenomExps (num : ℕ) : ℕ × ℕ :=
  let r2 := factorOut 2 num 48
  let r3 := factorOut 3 r2.1 r2.2.1
  (r2.2.2, r3.2.2)

/-- The first loop of write_measure over the notes (src/simfile.rs 366-379):
reject notes before the measure start and fold the componentwise minimum of
the get_denom exponents, starting from u32::MAX. -/
def measureExps (measureStart : BeatPos) : List Note → Except String (ℕ × ℕ)
  | [] => Except.ok (4294967295, 4294967295)
  | nt :: rest =>
    let rel := nt.beat.frac - measureStart.frac
    if rel < 0 then Except.error "handed a note that starts before the measure start"
    else
      match measureExps measureStart rest with
      | Except.error e => Except.error e
      | Except.ok acc =>
        let e := getDenomExps rel.toNat
        Except.ok (min acc.1 e.1, min acc.2 e.2)

/-- The second loop of write_measure (src/simfile.rs 386-409): place every
note into its row, with the residue, row-bound and key-range guards. -/
def placeNotes (simplifyBy : ℕ) (rowsTotal : ℕ) (keyCount : Int)
    (measureStart : BeatPos) :
    List Note → List (List Char) → Except String (List (List Char))
  | [], grid => Except.ok grid
  | nt :: rest, grid =>
    let rel := nt.beat.frac - measureStart.frac
    if rel % (simplifyBy : Int) ≠ 0 then Except.error "incorrect simplify_by"
    else
      let idx := (rel / (simplifyBy : Int)).toNat
      if rowsTotal ≤ idx then
        Except.error "called flush_measure with more than one measure in buffer"
      else if ¬ (0 ≤ nt.key ∧ nt.key < keyCount) then
        Except.error "note key outside range"
      else
        placeNotes simplifyBy rowsTotal keyCount measureStart rest
          (grid.set idx ((grid.getD idx []).set nt.key.toNat nt.kind))

/-- fn write_measure (src/simfile.rs 342-423): an empty measure simplifies
by FIXED_POINT itself; otherwise simplify_by = 2^a * 3^b from the folded
minimum exponents.  rows_per_beat = FIXED_POINT / simplify_by and the body
has BEATS_IN_MEASURE * rows_per_beat rows of key_count cells, all zero
except the placed note kinds. -/
def writeMeasure (keyCount : Int) (measureStart : BeatPos) (notes : List Note) :
    Except String (List (List Char)) :=
  let simplifyE : Except String ℕ :=
    if notes.isEmpty then Except.ok 48
    else
      match measureExps measureStart notes with
      | Except.error e => Except.error e
      | Except.ok acc => Except.ok (2 ^ acc.1 * 3 ^ acc.2)
  match simplifyE with
  | Except.error e => Except.error e
  | Except.ok simplifyBy =>
    let rowsPerBeat := 48 / simplifyBy
    let rowsTotal := 4 * rowsPerBeat
    let grid := List.replicate rowsTotal (List.replicate keyCount.toNat '0')
    placeNotes simplifyBy rowsTotal keyCount measureStart notes grid

/-! ## Saving (src/simfile.rs, Simfile::save 37-136)

Only the order of file-system effects is modelled: the header and chart
blocks are huge formatted strings (including f64 Display output) whose
exact text no claim concerns; each write is represented by a constructor
carrying the simfile it is rendered from. -/

/-- A file-system effect of Simfile::save. -/
inductive FsOp where
  | create (path : String)
  | writeHeader (sm : Simfile)
  | writeChart (sm : Simfile)
deriving DecidableEq

/-- Simfile::save: take the first simfile (error before anything else when
there is none), then create the file, write the header from the first
simfile, and write one chart block per simfile (the first included).
Returns the performed file-system effects alongside the result. -/
def save (path : String) (simfiles : List Simfile) :
    List FsOp × Except String Unit :=
  match simfiles with
  | [] => ([], Except.error "zero simfiles supplied")
  | main :: rest =>
    ([FsOp.create path, FsOp.writeHeader main] ++
       (main :: rest).map FsOp.writeChart,
     Except.ok ())

/-! ## Validity predicates (the parts of Simfile::check the claims rely on) -/

/-- Notes sorted by non-decreasing beat (Simfile::check 266-271). -/
def SortedBeats (l : List Note) : Prop :=
  List.Pairwise (fun a b => a.beat ≤ b.beat) l

/-- All note keys non-negative (Simfile::check 277). -/
def KeysNonneg (l : List Note) : Prop := ∀ nt ∈ l, 0 ≤ nt.key

/-- All note keys below the keycount (Simfile::check 278-284). -/
def KeysBelow (kc : ℕ) (l : List Note) : Prop := ∀ nt ∈ l, nt.key < (kc : Int)

/-- Every head is matched by the next same-key note: a tail at a strictly
greater beat with no same-key note in between (Simfile::check 291-315). -/
def HeadsPaired (l : List Note) : Prop :=
  ∀ i ∈ List.range l.length, (noteAt l i).isHead = true →
    ∃ j ∈ List.range l.length, i < j ∧ (noteAt l j).key = (noteAt l i).key ∧
      (noteAt l j).isTail = true ∧ (noteAt l i).beat < (noteAt l j).beat ∧
      ∀ m ∈ List.range j, i < m → (noteAt l m).key ≠ (noteAt l i).key

/-- Within one beat there is at most one non-tail note per key
(the beat_notes check of Simfile::check 248-256). -/
def NontailsDistinct (l : List Note) : Prop :=
  ∀ i ∈ List.range l.length, ∀ j ∈ List.range i,
    (noteAt l i).beat = (noteAt l j).beat → (noteAt l i).isTail = false →
    (noteAt l j).isTail = false → (noteAt l i).key ≠ (noteAt l j).key

/-! ## Claim-statement predicates -/

/-- Claim C1, head half, as stated: every head is followed on its (output)
key by a tail at a strictly greater beat with no other note on that key in
between. -/
def ClaimC1Heads (l : List Note) : Prop :=
  ∀ i ∈ List.range l.length, (noteAt l i).isHead = true →
    ∃ j ∈ List.range l.length, i < j ∧ (noteAt l j).key = (noteAt l i).key ∧
      (noteAt l j).isTail = true ∧ (noteAt l i).beat < (noteAt l j).beat ∧
      ∀ m ∈ List.range j, i < m → (noteAt l m).key ≠ (noteAt l i).key

/-- Claim C1, tail half, as stated (atomic drops): every surviving tail is
preceded on its key by a head with no other note on that key in between. -/
def ClaimC1Tails (l : List Note) : Prop :=
  ∀ i ∈ List.range l.length, (noteAt l i).isTail = true →
    ∃ j ∈ List.range i, (noteAt l j).key = (noteAt l i).key ∧
      (noteAt l j).isHead = true ∧
      ∀ m ∈ List.range i, j < m → (noteAt l m).key ≠ (noteAt l i).key

/-- Claim C1 as stated: both halves. -/
def ClaimC1 (l : List Note) : Prop := ClaimC1Heads l ∧ ClaimC1Tails l

/-- The amended head property: the matching tail may share the beat of the
head (greater-or-equal instead of strictly greater). -/
def HeadsClosedGe (l : List Note) : Prop :=
  ∀ i ∈ List.range l.length, (noteAt l i).isHead = true →
    ∃ j ∈ List.range l.length, i < j ∧ (noteAt l j).key = (noteAt l i).key ∧
      (noteAt l j).isTail = true ∧ (noteAt l i).beat ≤ (noteAt l j).beat ∧
      ∀ m ∈ List.range j, i < m → (noteAt l m).key ≠ (noteAt l i).key

/-- All beats non-negative (true of every chart the converter produces;
needed so that the initial cur_beat = 0 of fix_tails tracks the beat of the
note under scrutiny). -/
def BeatsNonneg (l : List Note) : Prop := ∀ nt ∈ l, (⟨0⟩ : BeatPos) ≤ nt.beat

/-- No note triggers the fix_tails rewrite: no tail is followed, within its
beat, by a note of the same key (this is exactly the conflict test of
src/simfile.rs 185-189 evaluated on an unmodified buffer). -/
def NoTailConflicts (l : List Note) : Prop :=
  ∀ i ∈ List.range l.length, (noteAt l i).isTail = true →
    ((l.drop (i + 1)).takeWhile (fun x => decide (x.beat = (noteAt l i).beat))).any
      (fun x => decide (x.key = (noteAt l i).key)) = false

instance (l : List Note) : Decidable (SortedBeats l) := by
  unfold SortedBeats; infer_instance

instance (l : List Note) : Decidable (KeysNonneg l) := by
  unfold KeysNonneg; infer_instance

instance (kc : ℕ) (l : List Note) : Decidable (KeysBelow kc l) := by
  unfold KeysBelow; infer_instance

instance (l : List Note) : Decidable (HeadsPaired l) := by
  unfold HeadsPaired; infer_instance

instance (l : List Note) : Decidable (NontailsDistinct l) := by
  unfold NontailsDistinct; infer_instance

instance (l : List Note) : Decidable (ClaimC1Heads l) := by
  unfold ClaimC1Heads; infer_instance

instance (l : List Note) : Decidable (ClaimC1Tails l) := by
  unfold ClaimC1Tails; infer_instance

instance (l : List Note) : Decidable (ClaimC1 l) := by
  unfold ClaimC1; infer_instance

instance (l : List Note) : Decidable (HeadsClosedGe l) := by
  unfold HeadsClosedGe; infer_instance

instance (l : List Note) : Decidable (BeatsNonneg l) := by
  unfold BeatsNonneg; infer_instance

instance (l : List Note) : Decidable (NoTailConflicts l) := by
  unfold NoTailConflicts; infer_instance

/-! ## Concrete inputs for counterexamples and witnesses -/

/-- Shorthand note constructor (kind, beat in 1/48 units, key). -/
def mkN (kind : Char) (beatFrac : Int) (key : Int) : Note := ⟨kind, ⟨beatFrac⟩, key⟩

/-- A concrete base simfile. -/
def smBase : Simfile :=
  ⟨"title", "", "artist", "title", "", "", "", "", none, none, none, none,
   some "audio.ogg", 0, [⟨⟨0⟩, 1/2⟩], [], none, none, DisplayBpm.Random,
   Gamemode.DanceSingle, "osu2sm", Difficulty.Hard, 5, [0, 0, 0, 0, 0], []⟩

/-- Valid 4-key chart: three holds open all three outkeys of a 3-key
target, a fourth hold is dropped whole, but its tail survives via the stale
unlock_by_tails entry. -/
def smEx1 : Simfile :=
  { smBase with notes :=
      [mkN '2' 0 0, mkN '2' 0 1, mkN '2' 0 2, mkN '2' 1 3,
       mkN '3' 2 3, mkN '3' 3 0, mkN '3' 3 1, mkN '3' 3 2] }

/-- Valid 5-key chart: two holds are dropped; the first stale tail frees
outkey 0, a new head is then forced onto outkey 0 and the second stale tail
lands on outkey 0 at the very same beat. -/
def smEx2 : Simfile :=
  { smBase with
    gamemode := Gamemode.PumpSingle
    notes :=
      [mkN '2' 0 0, mkN '2' 0 1, mkN '2' 0 2, mkN '2' 1 3, mkN '2' 1 4,
       mkN '3' 2 3, mkN '2' 3 3, mkN '3' 3 4, mkN '3' 4 3,
       mkN '3' 5 0, mkN '3' 5 1, mkN '3' 5 2] }

/-- Scenario S3: five simultaneous hits on a 5-key chart. -/
def smEx3 : Simfile :=
  { smBase with
    gamemode := Gamemode.PumpSingle
    notes := [mkN '1' 0 0, mkN '1' 0 1, mkN '1' 0 2, mkN '1' 0 3, mkN '1' 0 4] }

/-- Small hold-preservation chart for the amended-claim witness. -/
def smEx4 : Simfile :=
  { smBase with notes := [mkN '2' 0 0, mkN '3' 48 0, mkN '1' 96 1] }

/-- Sorted note list on which fix_tails is not idempotent and creates a
two-tails collision: the moved tail lands on the beat of an earlier
same-key tail. -/
def ex8 : List Note := [mkN '3' 5 0, mkN '3' 6 0, mkN '1' 6 0]

/-- Two distinguishable simfiles for the bucket-order counterexample. -/
def smA : Simfile := { smBase with title := "A" }

/-- Second distinguishable simfile. -/
def smB : Simfile := { smBase with title := "B" }

/-- A three-node schedule (scenario S6 shape): bucket mid is read by nodes
1 and 2, so only node 2 may take it. -/
def nodes6 : List (List Slot) :=
  [[⟨BucketKind.Input, "in", false⟩, ⟨BucketKind.Output, "mid", false⟩],
   [⟨BucketKind.Input, "mid", false⟩, ⟨BucketKind.Output, "out", false⟩],
   [⟨BucketKind.Input, "mid", false⟩, ⟨BucketKind.Output, "fin", false⟩]]

/-- Concrete control points for the timing witness: 120 BPM for one beat,
then 240 BPM. -/
def bpms7 : List ControlPoint := [⟨⟨0⟩, 1/2⟩, ⟨⟨48⟩, 1/4⟩]

/-- Strictly increasing query beats crossing the control-point change. -/
def beats7 : List BeatPos := [⟨0⟩, ⟨24⟩, ⟨96⟩]

/-- The cumulative end indices recorded by successive put_list calls,
starting from a flat length of acc. -/
def endsOf : List (List Simfile) → ℕ → List ℕ
  | [], _ => []
  | l :: rest, acc => (acc + l.length) :: endsOf rest (acc + l.length)

/-! ## Basic lemmas -/

theorem keyCount_pos (gm : Gamemode) : 0 < gm.keyCount := by
  cases gm <;> decide

theorem noteAt_cons_zero (nt : Note) (l : List Note) : noteAt (nt :: l) 0 = nt := rfl

theorem noteAt_cons_succ (nt : Note) (l : List Note) (i : ℕ) :
    noteAt (nt :: l) (i + 1) = noteAt l i := rfl

theorem noteAt_append_left (s t : List Note) (i : ℕ) (h : i < s.length) :
    noteAt (s ++ t) i = noteAt s i := by
  induction s generalizing i with
  | nil => simp at h
  | cons a s ih =>
    cases i with
    | zero => rfl
    | succ i =>
      simp only [List.cons_append, noteAt_cons_succ]
      exact ih i (by simpa using h)

theorem noteAt_append_right (s t : List Note) (i : ℕ) :
    noteAt (s ++ t) (s.length + i) = noteAt t i := by
  induction s with
  | nil => simp
  | cons a s ih =>
    simpa [List.cons_append, Nat.succ_add, noteAt_cons_succ] using ih

/-! ## Claim C10: save with no simfiles fails before touching the file
system -/

/-- C10: Simfile::save called with an empty simfile collection returns the
zero-simfiles error, and the list of performed file-system operations is
empty: the error is raised before the output file is created or written. -/
theorem c10_save_empty (path : String) :
    save path [] = ([], Except.error "zero simfiles supplied") := rfl

/-! ## Claim C4: the body of an empty measure -/

/-- C4 counterexample: for a 4-key empty measure the encoder emits a body
of exactly 4 all-zero rows, not the 48 rows the claim states. -/
theorem c4_counterexample :
    writeMeasure 4 ⟨0⟩ [] = Except.ok (List.replicate 4 (List.replicate 4 '0')) ∧
      (List.replicate 4 (List.replicate 4 '0') : List (List Char)).length ≠ 48 :=
  ⟨rfl, by decide⟩

/-- C4 amended: for every measure containing no notes the encoder emits a
body of exactly 4 rows (simplify_by defaults to FIXED_POINT, so
rows_per_beat = 1 and the measure has BEATS_IN_MEASURE = 4 rows), all of
whose cells are the character zero. -/
theorem c4_empty_measure_amended (keyCount : Int) (measureStart : BeatPos)
    (hkc : 0 ≤ keyCount) :
    writeMeasure keyCount measureStart [] =
      Except.ok (List.replicate 4 (List.replicate keyCount.toNat '0')) := rfl

theorem c4_witness :
    (0 : Int) ≤ 4 ∧
      writeMeasure 4 ⟨0⟩ [] = Except.ok (List.replicate 4 (List.replicate 4 '0')) :=
  ⟨by decide, c4_empty_measure_amended 4 ⟨0⟩ (by decide)⟩

/-! ## Claim C5: shuffle avoidance -/

/-- C5: when avoid_shuffle is set and the source keycount equals the target
keycount, convert rewrites only the gamemode field: every note keeps its
kind, beat and key in the same order, and every other chart field is
unchanged. -/
theorem c5_avoid_shuffle (choice : ℕ → List ℕ → Option ℕ) (targetGm : Gamemode)
    (sm : Simfile) (hkc : sm.gamemode.keyCount = targetGm.keyCount) :
    convert choice targetGm true sm = { sm with gamemode := targetGm } := by
  unfold convert
  rw [if_pos ⟨rfl, hkc⟩]

theorem c5_witness :
    Gamemode.DanceSingle.keyCount = Gamemode.ManiaxSingle.keyCount ∧
      convert chooseFirst Gamemode.ManiaxSingle true smBase =
        { smBase with gamemode := Gamemode.ManiaxSingle } :=
  ⟨by decide, c5_avoid_shuffle chooseFirst Gamemode.ManiaxSingle smBase (by decide)⟩

/-! ## Claim C3: bucket visit order -/

/-- Folding put_list appends the flat simfiles and records cumulative end
indices. -/
theorem foldl_putList_eq (ds : List (List Simfile)) (b0 : Bucket) :
    ds.foldl Bucket.putList b0 =
      ⟨b0.simfiles ++ ds.flatten, b0.lists ++ endsOf ds b0.simfiles.length⟩ := by
  induction ds generalizing b0 with
  | nil => simp [endsOf]
  | cons l rest ih =>
    simp only [List.foldl_cons, ih, Bucket.putList, endsOf, List.flatten_cons]
    simp [List.append_assoc]

/-- endsOf distributes over append, shifting the accumulator by the flat
length of the first part. -/
theorem endsOf_append (xs ys : List (List Simfile)) (acc : ℕ) :
    endsOf (xs ++ ys) acc = endsOf xs acc ++ endsOf ys (acc + xs.flatten.length) := by
  induction xs generalizing acc with
  | nil => simp [endsOf]
  | cons x xs ih =>
    simp only [List.cons_append, endsOf, List.flatten_cons, List.length_append,
      List.append_eq]
    rw [ih, Nat.add_assoc]

/-- The take_lists loop visits the deposited lists in reverse order: the
trailing segment is split off at each recorded end index. -/
theorem takeListsGo_rev (D : List (List Simfile)) (last : List Simfile) :
    takeListsGo (D.flatten ++ last) ((endsOf D 0).reverse) = last :: D.reverse := by
  induction D using List.reverseRecOn generalizing last with
  | nil => simp [takeListsGo, endsOf]
  | append_singleton D d ih =>
    rw [endsOf_append]
    simp only [endsOf, Nat.zero_add, List.reverse_append, List.reverse_cons,
      List.reverse_nil, List.nil_append, List.cons_append, List.flatten_append,
      List.flatten_cons, List.flatten_nil, List.append_nil]
    rw [takeListsGo]
    have hlen : D.flatten.length + d.length = (D.flatten ++ d).length := by simp
    rw [hlen, List.drop_left, List.take_left, ih]

/-- C3 counterexample: a bucket holding two deposited lists hands the
visitor the most recently deposited list first, not the first-deposited
one. -/
theorem c3_counterexample :
    (bucketOfLists [[smA], [smB]]).takeListsVisits = [[smB], [smA]] ∧
      ([[smB], [smA]] : List (List Simfile)) ≠ [[smA], [smB]] :=
  ⟨rfl, by decide⟩

/-- C3 amended: get invokes the visitor exactly once per stored list, in
REVERSE insertion order (most recently deposited list first), each list
preserving the within-list order of its charts. -/
theorem bucketOfLists_eq (ds : List (List Simfile)) :
    bucketOfLists ds = ⟨ds.flatten, endsOf ds 0⟩ := by
  unfold bucketOfLists Bucket.emptyBucket
  rw [foldl_putList_eq]
  simp

theorem c3_visit_order_amended (ds : List (List Simfile)) :
    (bucketOfLists ds).takeListsVisits = ds.reverse := by
  cases hd : ds.reverse with
  | nil =>
    have : ds = [] := by simpa using congrArg List.reverse hd
    subst this
    rfl
  | cons d Drev =>
    have hds : ds = Drev.reverse ++ [d] := by
      have := congrArg List.reverse hd
      simpa using this
    subst hds
    rw [bucketOfLists_eq]
    unfold Bucket.takeListsVisits
    rw [endsOf_append]
    rw [if_neg (by simp [endsOf])]
    simp only [endsOf, Nat.zero_add, List.reverse_append, List.reverse_cons,
      List.reverse_nil, List.nil_append, List.cons_append, List.drop_succ_cons,
      List.drop_zero, List.flatten_append, List.flatten_cons, List.flatten_nil,
      List.append_nil]
    rw [takeListsGo_rev]
    simp [hd]

/-! ## Claim C9: remap only deletes or rekeys notes -/

/-- convertStep only rewrites the key of the processed note: its beat and
kind survive unchanged. -/
theorem convertStep_projBK (outK : ℕ) (choice : ℕ → List ℕ → Option ℕ) (n : ℕ)
    (st : RemapState) (nt : Note) :
    projBK (convertStep outK choice n st nt).1 = projBK nt := by
  unfold convertStep
  dsimp only
  split
  · rfl
  · split
    · split <;> rfl
    · rfl

/-- The note loop preserves the (beat, kind) projection pointwise. -/
theorem convertGo_projBK (outK : ℕ) (choice : ℕ → List ℕ → Option ℕ) :
    ∀ (l : List Note) (n : ℕ) (st : RemapState),
      (convertGo outK choice n st l).map projBK = l.map projBK := by
  intro l
  induction l with
  | nil => intro n st; rfl
  | cons nt rest ih =>
    intro n st
    simp only [convertGo, List.map_cons, convertStep_projBK, ih]

/-- C9: projecting the output notes of remap convert to (beat, kind) pairs
yields a sublist (order-preserving selection) of the input projection:
convert never retimes, re-kinds or reorders a note, it only deletes
sentinel-marked notes or rewrites keys. -/
theorem c9_remap_projection (choice : ℕ → List ℕ → Option ℕ)
    (targetGm : Gamemode) (avoidShuffle : Bool) (sm : Simfile) :
    List.Sublist ((convert choice targetGm avoidShuffle sm).notes.map projBK)
      (sm.notes.map projBK) := by
  unfold convert
  by_cases h : avoidShuffle = true ∧ sm.gamemode.keyCount = targetGm.keyCount
  · rw [if_pos h]
  · rw [if_neg h]
    have h1 := (List.filter_sublist (p := fun nt => decide (0 ≤ nt.key))
      (convertGo targetGm.keyCount choice 0
        ⟨List.replicate targetGm.keyCount none,
         List.replicate sm.gamemode.keyCount 0⟩ sm.notes)).map projBK
    rwa [convertGo_projBK] at h1

/-! ## Claim C8: fix_tails idempotence -/

theorem BeatPos.le_def (a b : BeatPos) : a ≤ b ↔ a.frac ≤ b.frac := Iff.rfl

theorem BeatPos.lt_def (a b : BeatPos) : a < b ↔ a.frac < b.frac := Iff.rfl

theorem BeatPos.eq_of_frac (a b : BeatPos) (h : a.frac = b.frac) : a = b := by
  cases a; cases b; simpa using h

theorem noteAt_eq_get (l : List Note) (i : ℕ) (h : i < l.length) :
    noteAt l i = l.get ⟨i, h⟩ := by
  induction l generalizing i with
  | nil => simp at h
  | cons a t ih =>
    cases i with
    | zero => rfl
    | succ i => exact ih i (by simpa using h)

theorem noteAt_mem (l : List Note) (i : ℕ) (h : i < l.length) : noteAt l i ∈ l := by
  rw [noteAt_eq_get l i h]
  exact List.get_mem l i h

theorem sortedBeats_le {l : List Note} (hs : SortedBeats l) {i k : ℕ}
    (hik : i < k) (hk : k < l.length) :
    (noteAt l i).beat ≤ (noteAt l k).beat := by
  have h := List.pairwise_iff_get.1 hs ⟨i, lt_trans hik hk⟩ ⟨k, hk⟩ hik
  rwa [noteAt_eq_get l i (lt_trans hik hk), noteAt_eq_get l k hk]

/-- C8 counterexample: on the sorted list ex8 one fix_tails pass moves the
second tail onto the beat and key of the first, creating a new
same-(beat, key) collision (two tails at beat 5/48, key 0), and a second
pass changes the list again: fix_tails is not idempotent after one pass. -/
theorem c8_counterexample :
    SortedBeats ex8 ∧
      fixTails ex8 = [mkN '3' 5 0, mkN '3' 5 0, mkN '1' 6 0] ∧
      fixTails (fixTails ex8) ≠ fixTails ex8 := by
  refine ⟨by decide, by decide, by decide⟩

/-- While no note triggers the conflict test, every fixStep only moves the
beat tracking forward and leaves the buffer untouched. -/
theorem fixTails_noop_invariant (l : List Note) (hs : SortedBeats l)
    (hb : BeatsNonneg l) (hnc : NoTailConflicts l) :
    ∀ i, i ≤ l.length →
      ∃ cb fs, (List.range i).foldl fixStep (l, ⟨0⟩, 0) = (l, cb, fs) ∧
        ∀ k, i ≤ k → k < l.length → cb ≤ (noteAt l k).beat := by
  intro i
  induction i with
  | zero =>
    intro _
    exact ⟨(⟨0⟩ : BeatPos), 0, rfl, fun k _ hk => hb _ (noteAt_mem l k hk)⟩
  | succ i ih =>
    intro hi
    obtain ⟨cb, fs, heq, hcb⟩ := ih (Nat.le_of_succ_le hi)
    have hilen : i < l.length := hi
    have hble : cb ≤ (noteAt l i).beat := hcb i (le_refl i) hilen
    rw [List.range_succ, List.foldl_append, heq, List.foldl_cons, List.foldl_nil]
    unfold fixStep
    dsimp only
    have hcbnew : (if cb < (noteAt l i).beat then (noteAt l i).beat else cb) =
        (noteAt l i).beat := by
      split
      · rfl
      · next hnlt =>
        exact BeatPos.eq_of_frac _ _
          (le_antisymm ((BeatPos.le_def _ _).1 hble)
            (not_lt.1 fun hc => hnlt ((BeatPos.lt_def _ _).2 hc)))
    rw [hcbnew]
    split
    · next hcondT =>
      exfalso
      rw [Bool.and_eq_true] at hcondT
      have hfalse := hnc i (List.mem_range.2 hilen) hcondT.1
      rw [hfalse] at hcondT
      exact Bool.false_ne_true hcondT.2
    · refine ⟨(noteAt l i).beat, _, rfl, fun k hk hklen => ?_⟩
      exact sortedBeats_le hs (Nat.lt_of_succ_le hk) hklen

/-- C8 amended: fix_tails is the identity on a sorted, nonnegative-beat
note list that contains NO conflict (no tail followed within its beat by a
same-key note).  In general a single application need not reach this
conflict-free state, and the EPSILON back-shift can create a new
same-(beat, key) collision, as c8_counterexample shows. -/
theorem c8_fix_tails_amended (l : List Note) (hs : SortedBeats l)
    (hb : BeatsNonneg l) (hnc : NoTailConflicts l) : fixTails l = l := by
  obtain ⟨cb, fs, heq, _⟩ := fixTails_noop_invariant l hs hb hnc l.length (le_refl _)
  unfold fixTails
  rw [heq]

theorem c8_witness :
    NoTailConflicts [mkN '2' 0 0, mkN '3' 48 0] ∧
      fixTails [mkN '2' 0 0, mkN '3' 48 0] = [mkN '2' 0 0, mkN '3' 48 0] :=
  ⟨by decide, c8_fix_tails_amended _ (by decide) (by decide) (by decide)⟩

/-! ## Claim C6: last-read take marking -/

theorem getD_mem_of_lt {α : Type} (l : List α) (d : α) (i : ℕ) (h : i < l.length) :
    l.getD i d ∈ l := by
  induction l generalizing i with
  | nil => simp at h
  | cons a t ih =>
    cases i with
    | zero => exact List.mem_cons_self a t
    | succ i => exact List.mem_cons_of_mem a (ih i (by simpa using h))

theorem lookup_cons_self (k : String) (v : ℕ × ℕ) (rest : List (String × (ℕ × ℕ))) :
    List.lookup k ((k, v) :: rest) = some v := by
  simp [List.lookup]

theorem lookup_cons_ne (k k0 : String) (v0 : ℕ × ℕ) (rest : List (String × (ℕ × ℕ)))
    (h : k ≠ k0) : List.lookup k ((k0, v0) :: rest) = List.lookup k rest := by
  simp [List.lookup, beq_false_of_ne h]

theorem lookup_insertReplace_self (m : List (String × (ℕ × ℕ))) (k : String)
    (v : ℕ × ℕ) : List.lookup k (insertReplace m k v) = some v := by
  induction m with
  | nil => simp [insertReplace, List.lookup]
  | cons e rest ih =>
    obtain ⟨k0, v0⟩ := e
    by_cases h : k0 = k
    · simp [insertReplace, h, List.lookup]
    · rw [insertReplace, if_neg h, lookup_cons_ne _ _ _ _ (fun hc => h hc.symm), ih]

theorem lookup_insertReplace_ne (m : List (String × (ℕ × ℕ))) (k : String)
    (v : ℕ × ℕ) (k2 : String) (h : k2 ≠ k) :
    List.lookup k2 (insertReplace m k v) = List.lookup k2 m := by
  induction m with
  | nil => simp [insertReplace, List.lookup, beq_false_of_ne h]
  | cons e rest ih =>
    obtain ⟨k0, v0⟩ := e
    by_cases h0 : k0 = k
    · subst h0
      rw [insertReplace, if_pos rfl, lookup_cons_ne _ _ _ _ h, lookup_cons_ne _ _ _ _ h]
    · rw [insertReplace, if_neg h0]
      by_cases h2 : k2 = k0
      · subst h2
        rw [lookup_cons_self, lookup_cons_self]
      · rw [lookup_cons_ne _ _ _ _ h2, lookup_cons_ne _ _ _ _ h2, ih]

/-- The insert-replace fold looks up to the position of the last entry
carrying the name, falling back to the initial map. -/
theorem foldl_ir_lookup (es : List ((ℕ × ℕ) × String))
    (m0 : List (String × (ℕ × ℕ))) (nm : String) :
    List.lookup nm (es.foldl (fun m e => insertReplace m e.2 e.1) m0) =
      ((es.filter (fun e => decide (e.2 = nm))).getLast?).elim
        (List.lookup nm m0) (fun e => some e.1) := by
  induction es using List.reverseRecOn with
  | nil => simp
  | append_singleton es e ih =>
    rw [List.foldl_append, List.foldl_cons, List.foldl_nil, List.filter_append]
    by_cases h : e.2 = nm
    · rw [show e.2 = nm from h, lookup_insertReplace_self]
      simp [h]
    · rw [lookup_insertReplace_ne _ _ _ _ (fun hc => h hc.symm)]
      simp [h, ih]

/-- In a pairwise-ordered list every element is the last one or relates to
it. -/
theorem pairwise_getLast {α : Type} {R : α → α → Prop} (l : List α) (e : α)
    (hp : l.Pairwise R) (hl : l.getLast? = some e) :
    ∀ x ∈ l, x = e ∨ R x e := by
  induction l using List.reverseRecOn with
  | nil => simp at hl
  | append_singleton l a ih =>
    intro x hx
    rw [List.getLast?_concat] at hl
    have hae : a = e := by simpa using hl
    subst hae
    rcases List.mem_append.1 hx with hx | hx
    · exact Or.inr ((List.pairwise_append.1 hp).2.2 x hx a (by simp))
    · simp at hx
      exact Or.inl hx

/-- Membership in the entries of one node: exactly the input slots, with
positions offset by the running slot index. -/
theorem mem_inputEntriesSlots (i : ℕ) (slots : List Slot) :
    ∀ (j0 pi pj : ℕ) (nm : String),
      (((pi, pj), nm) ∈ inputEntriesSlots i j0 slots ↔
        ∃ dj, dj < slots.length ∧ pi = i ∧ pj = j0 + dj ∧
          (slots.getD dj ⟨BucketKind.Generic, "", false⟩).kind = BucketKind.Input ∧
          (slots.getD dj ⟨BucketKind.Generic, "", false⟩).name = nm) := by
  induction slots with
  | nil =>
    intro j0 pi pj nm
    simp [inputEntriesSlots]
  | cons s rest ih =>
    intro j0 pi pj nm
    by_cases hk : s.kind = BucketKind.Input
    · rw [inputEntriesSlots, if_pos hk]
      constructor
      · intro hmem
        rcases List.mem_cons.1 hmem with heq | hmem2
        · have h1 : pi = i ∧ pj = j0 ∧ nm = s.name := by
            simpa [Prod.mk.injEq, and_assoc] using heq
          exact ⟨0, by simp, h1.1, by omega, hk, h1.2.2.symm⟩
        · obtain ⟨dj, hdj, hpi, hpj, hki, hnm⟩ := (ih (j0 + 1) pi pj nm).1 hmem2
          exact ⟨dj + 1, by simpa using Nat.succ_lt_succ hdj, hpi, by omega, hki, hnm⟩
      · rintro ⟨dj, hdj, hpi, hpj, hki, hnm⟩
        cases dj with
        | zero =>
          exact List.mem_cons.2 (Or.inl (by simp [hpi, hpj, ← hnm]))
        | succ dj =>
          exact List.mem_cons.2 (Or.inr ((ih (j0 + 1) pi pj nm).2
            ⟨dj, by simpa using hdj, hpi, by omega, hki, hnm⟩))
    · rw [inputEntriesSlots, if_neg hk]
      constructor
      · intro hmem
        obtain ⟨dj, hdj, hpi, hpj, hki, hnm⟩ := (ih (j0 + 1) pi pj nm).1 hmem
        exact ⟨dj + 1, by simpa using Nat.succ_lt_succ hdj, hpi, by omega, hki, hnm⟩
      · rintro ⟨dj, hdj, hpi, hpj, hki, hnm⟩
        cases dj with
        | zero => exact absurd hki hk
        | succ dj =>
          exact (ih (j0 + 1) pi pj nm).2 ⟨dj, by simpa using hdj, hpi, by omega, hki, hnm⟩

/-- Membership in the full entries list: exactly the IsReader positions,
offset by the running node index. -/
theorem mem_inputEntries (nodes : List (List Slot)) :
    ∀ (i0 pi pj : ℕ) (nm : String),
      (((pi, pj), nm) ∈ inputEntries i0 nodes ↔
        ∃ di, di < nodes.length ∧ pi = i0 + di ∧
          pj < (nodes.getD di []).length ∧
          ((nodes.getD di []).getD pj ⟨BucketKind.Generic, "", false⟩).kind =
            BucketKind.Input ∧
          ((nodes.getD di []).getD pj ⟨BucketKind.Generic, "", false⟩).name = nm) := by
  induction nodes with
  | nil =>
    intro i0 pi pj nm
    simp [inputEntries]
  | cons slots rest ih =>
    intro i0 pi pj nm
    rw [inputEntries, List.mem_append]
    constructor
    · intro hmem
      rcases hmem with hmem | hmem
      · obtain ⟨dj, hdj, hpi, hpj, hki, hnm⟩ :=
          (mem_inputEntriesSlots i0 slots 0 pi pj nm).1 hmem
        refine ⟨0, by simp, by omega, ?_, ?_, ?_⟩ <;> simp_all
      · obtain ⟨di, hdi, hpi, hpj, hki, hnm⟩ := (ih (i0 + 1) pi pj nm).1 hmem
        exact ⟨di + 1, by simpa using Nat.succ_lt_succ hdi, by omega, hpj, hki, hnm⟩
    · rintro ⟨di, hdi, hpi, hpj, hki, hnm⟩
      cases di with
      | zero =>
        exact Or.inl ((mem_inputEntriesSlots i0 slots 0 pi pj nm).2
          ⟨pj, by simpa using hpj, by omega, by omega, hki, hnm⟩)
      | succ di =>
        exact Or.inr ((ih (i0 + 1) pi pj nm).2
          ⟨di, by simpa using hdi, by omega, hpj, hki, hnm⟩)

/-- Entries of one node are strictly increasing in slot position (and share
the node index). -/
theorem inputEntriesSlots_pairwise (i : ℕ) (slots : List Slot) :
    ∀ j0, (inputEntriesSlots i j0 slots).Pairwise
      (fun a b => a.1.1 < b.1.1 ∨ (a.1.1 = b.1.1 ∧ a.1.2 < b.1.2)) := by
  induction slots with
  | nil => intro j0; simp [inputEntriesSlots]
  | cons s rest ih =>
    intro j0
    by_cases hk : s.kind = BucketKind.Input
    · rw [inputEntriesSlots, if_pos hk]
      refine List.Pairwise.cons ?_ (ih (j0 + 1))
      rintro ⟨⟨qi, qj⟩, qnm⟩ hq
      obtain ⟨dj, _, hqi, hqj, _, _⟩ :=
        (mem_inputEntriesSlots i rest (j0 + 1) qi qj qnm).1 hq
      right
      exact ⟨hqi.symm, show j0 < qj by omega⟩
    · rw [inputEntriesSlots, if_neg hk]
      exact ih (j0 + 1)

/-- The full entries list is strictly increasing in schedule-lexicographic
position order. -/
theorem inputEntries_pairwise (nodes : List (List Slot)) :
    ∀ i0, (inputEntries i0 nodes).Pairwise
      (fun a b => a.1.1 < b.1.1 ∨ (a.1.1 = b.1.1 ∧ a.1.2 < b.1.2)) := by
  induction nodes with
  | nil => intro i0; simp [inputEntries]
  | cons slots rest ih =>
    intro i0
    rw [inputEntries]
    refine List.pairwise_append.2 ⟨inputEntriesSlots_pairwise i0 slots 0, ih (i0 + 1), ?_⟩
    rintro ⟨⟨ai, aj⟩, anm⟩ ha ⟨⟨bi, bj⟩, bnm⟩ hb
    obtain ⟨dj, _, hai, _, _, _⟩ :=
      (mem_inputEntriesSlots i0 slots 0 ai aj anm).1 ha
    obtain ⟨di, _, hbi, _, _, _⟩ := (mem_inputEntries rest (i0 + 1) bi bj bnm).1 hb
    left
    show ai < bi
    omega

/-- The last_reads map of resolve_buckets holds exactly the position of the
schedule-order last input slot of each read bucket name. -/
theorem lastReadsMap_lookup (nodes : List (List Slot)) (nm : String) (i j : ℕ) :
    List.lookup nm (lastReadsMap nodes) = some (i, j) ↔ IsLastReader nodes i j nm := by
  unfold lastReadsMap
  rw [foldl_ir_lookup]
  constructor
  · intro h
    cases hL : ((inputEntries 0 nodes).filter (fun e => decide (e.2 = nm))).getLast? with
    | none => rw [hL] at h; simp at h
    | some e =>
      rw [hL] at h
      have he1 : e.1 = (i, j) := by simpa using h
      have hmem : e ∈ (inputEntries 0 nodes).filter (fun e => decide (e.2 = nm)) := by
        obtain ⟨hne, hx⟩ := List.mem_getLast?_eq_getLast (show e ∈ _ from hL)
        rw [hx]
        exact List.getLast_mem hne
      have hment := List.mem_of_mem_filter hmem
      have hpe : e.2 = nm := by simpa using List.of_mem_filter hmem
      have he : e = ((e.1.1, e.1.2), nm) := by rw [← hpe]
      have hi1 : e.1.1 = i := by rw [he1]
      have hj1 : e.1.2 = j := by rw [he1]
      rw [he] at hment
      obtain ⟨di, hdi, hpi, hpj, hki, hnm2⟩ :=
        (mem_inputEntries nodes 0 e.1.1 e.1.2 nm).1 hment
      have hdii : di = i := by omega
      subst hdii
      rw [hj1] at hpj hki hnm2
      refine ⟨⟨hdi, hpj, hki, hnm2⟩, ?_⟩
      rintro i2 j2 ⟨hi2, hj2, hk2, hn2⟩
      have hm2 : ((i2, j2), nm) ∈ inputEntries 0 nodes :=
        (mem_inputEntries nodes 0 i2 j2 nm).2 ⟨i2, hi2, by omega, hj2, hk2, hn2⟩
      have hmf2 : ((i2, j2), nm) ∈
          (inputEntries 0 nodes).filter (fun e => decide (e.2 = nm)) :=
        List.mem_filter.2 ⟨hm2, by simp⟩
      have hcomp := pairwise_getLast _ _
        ((inputEntries_pairwise nodes 0).filter _) hL _ hmf2
      rw [he] at hcomp
      rcases hcomp with heq | hlt
      · have h3 : (i2, j2) = e.1 := by simpa [Prod.mk.injEq] using heq
        have h4 : i2 = e.1.1 := by rw [← h3]
        have h5 : j2 = e.1.2 := by rw [← h3]
        omega
      · rcases hlt with hlt | ⟨heq2, hlt2⟩
        · have h3 : i2 < e.1.1 := hlt
          omega
        · have h3 : i2 = e.1.1 := heq2
          have h4 : j2 < e.1.2 := hlt2
          omega
  · intro hlast
    obtain ⟨⟨hi, hj, hki, hnm⟩, hmax⟩ := hlast
    have hm : ((i, j), nm) ∈ inputEntries 0 nodes :=
      (mem_inputEntries nodes 0 i j nm).2 ⟨i, hi, by omega, hj, hki, hnm⟩
    have hmf : ((i, j), nm) ∈
        (inputEntries 0 nodes).filter (fun e => decide (e.2 = nm)) :=
      List.mem_filter.2 ⟨hm, by simp⟩
    cases hL : ((inputEntries 0 nodes).filter (fun e => decide (e.2 = nm))).getLast? with
    | none =>
      rw [List.getLast?_eq_none_iff] at hL
      rw [hL] at hmf
      simp at hmf
    | some e =>
      have hmeme : e ∈ (inputEntries 0 nodes).filter (fun e => decide (e.2 = nm)) := by
        obtain ⟨hne, hx⟩ := List.mem_getLast?_eq_getLast (show e ∈ _ from hL)
        rw [hx]
        exact List.getLast_mem hne
      have hmente := List.mem_of_mem_filter hmeme
      have hpee : e.2 = nm := by simpa using List.of_mem_filter hmeme
      have he : e = ((e.1.1, e.1.2), nm) := by rw [← hpee]
      rw [he] at hmente
      obtain ⟨di, hdi, hpi, hpj, hki2, hnm2⟩ :=
        (mem_inputEntries nodes 0 e.1.1 e.1.2 nm).1 hmente
      have hdie : di = e.1.1 := by omega
      subst hdie
      have hcomp := pairwise_getLast _ _
        ((inputEntries_pairwise nodes 0).filter _) hL _ hmf
      rw [he] at hcomp
      have hmax2 := hmax e.1.1 e.1.2 ⟨hdi, hpj, hki2, hnm2⟩
      have hei : e.1.1 = i ∧ e.1.2 = j := by
        rcases hcomp with heq | hlt
        · have h3 : (i, j) = e.1 := by simpa [Prod.mk.injEq] using heq
          have h4 : i = e.1.1 := by rw [← h3]
          have h5 : j = e.1.2 := by rw [← h3]
          omega
        · rcases hlt with hlt | ⟨heq2, hlt2⟩
          · have h3 : i < e.1.1 := hlt
            omega
          · have h3 : i = e.1.1 := heq2
            have h4 : j < e.1.2 := hlt2
            omega
      simp only [Option.elim]
      have hfin : e.1 = (i, j) := by rw [← hei.1, ← hei.2]
      rw [hfin]

/-- markSlots rewrites exactly the slot whose position the map stores for
its name. -/
theorem markSlots_getD (m : List (String × (ℕ × ℕ))) (i : ℕ) (slots : List Slot) :
    ∀ (j0 dj : ℕ), dj < slots.length →
      (markSlots m i j0 slots).getD dj ⟨BucketKind.Generic, "", false⟩ =
        (if List.lookup (slots.getD dj ⟨BucketKind.Generic, "", false⟩).name m
            = some (i, j0 + dj)
         then { slots.getD dj ⟨BucketKind.Generic, "", false⟩ with take := true }
         else slots.getD dj ⟨BucketKind.Generic, "", false⟩) := by
  induction slots with
  | nil => intro j0 dj h; simp at h
  | cons s rest ih =>
    intro j0 dj h
    cases dj with
    | zero => simp [markSlots]
    | succ dj =>
      have harith : j0 + 1 + dj = j0 + (dj + 1) := by omega
      have h2 := ih (j0 + 1) dj (by simpa using h)
      rw [harith] at h2
      simpa [markSlots] using h2

/-- markNodes rewrites node di with the node index i0 + di. -/
theorem markNodes_getD (m : List (String × (ℕ × ℕ))) (nodes : List (List Slot)) :
    ∀ (i0 di : ℕ), di < nodes.length →
      (markNodes m i0 nodes).getD di [] = markSlots m (i0 + di) 0 (nodes.getD di []) := by
  induction nodes with
  | nil => intro i0 di h; simp at h
  | cons slots rest ih =>
    intro i0 di h
    cases di with
    | zero => simp [markNodes]
    | succ di =>
      have harith : i0 + 1 + di = i0 + (di + 1) := by omega
      have h2 := ih (i0 + 1) di (by simpa using h)
      rw [harith] at h2
      simpa [markNodes] using h2

/-- C6: after the take-marking pass of resolve_buckets on a schedule whose
slots all start with take = false, a slot carries take = true exactly when
it is an input slot and is the schedule-order last input slot bound to its
bucket name; in particular, for each read bucket name exactly one slot (the
last reader) has take = true and every earlier reader keeps take = false. -/
theorem c6_last_read_take (nodes : List (List Slot))
    (hfalse : ∀ ns ∈ nodes, ∀ s ∈ ns, s.take = false)
    (i j : ℕ) (hi : i < nodes.length) (hj : j < (nodes.getD i []).length) :
    ((((markLastReads nodes).getD i []).getD j
        ⟨BucketKind.Generic, "", false⟩).take = true)
      ↔ IsLastReader nodes i j
          ((nodes.getD i []).getD j ⟨BucketKind.Generic, "", false⟩).name := by
  unfold markLastReads
  rw [markNodes_getD _ nodes 0 i hi, markSlots_getD _ _ (nodes.getD i []) 0 j hj]
  simp only [Nat.zero_add]
  split
  · next hcond =>
    exact iff_of_true rfl ((lastReadsMap_lookup nodes _ i j).1 hcond)
  · next hcond =>
    have hTakeFalse :
        ((nodes.getD i []).getD j ⟨BucketKind.Generic, "", false⟩).take = false :=
      hfalse _ (getD_mem_of_lt nodes [] i hi) _
        (getD_mem_of_lt (nodes.getD i []) _ j hj)
    refine iff_of_false
      (fun h => Bool.false_ne_true (hTakeFalse.symm.trans h)) ?_
    intro hlast
    exact hcond ((lastReadsMap_lookup nodes _ i j).2 hlast)

theorem c6_witness :
    (∀ ns ∈ nodes6, ∀ s ∈ ns, s.take = false) ∧
      (((((markLastReads nodes6).getD 2 []).getD 0
          ⟨BucketKind.Generic, "", false⟩).take = true)
        ↔ IsLastReader nodes6 2 0
            ((nodes6.getD 2 []).getD 0 ⟨BucketKind.Generic, "", false⟩).name) :=
  ⟨by decide, c6_last_read_take nodes6 (by decide) 2 0 (by decide) (by decide)⟩

/-! ## Claim C7: timing monotonicity -/

theorem BeatPos.sub_frac (a b : BeatPos) : (a - b).frac = a.frac - b.frac := rfl

theorem asNum_sub_nonneg (p b : BeatPos) (h : p ≤ b) : 0 ≤ (b - p).asNum := by
  unfold BeatPos.asNum
  rw [BeatPos.sub_frac]
  have h2 : (p.frac : ℚ) ≤ b.frac := by exact_mod_cast (BeatPos.le_def p b).1 h
  push_cast
  linarith

theorem asNum_sub_lt (p b1 b2 : BeatPos) (h : b1 < b2) :
    (b1 - p).asNum < (b2 - p).asNum := by
  unfold BeatPos.asNum
  rw [BeatPos.sub_frac, BeatPos.sub_frac]
  have h2 : (b1.frac : ℚ) < b2.frac := by exact_mod_cast (BeatPos.lt_def b1 b2).1 h
  push_cast
  linarith

theorem BeatPos.le_of_lt2 (a b : BeatPos) (h : a < b) : a ≤ b :=
  (BeatPos.le_def a b).2 (le_of_lt ((BeatPos.lt_def a b).1 h))

theorem cpAt_eq_get (bpms : List ControlPoint) (i : ℕ) (h : i < bpms.length) :
    cpAt bpms i = bpms.get ⟨i, h⟩ := by
  induction bpms generalizing i with
  | nil => simp at h
  | cons a t ih =>
    cases i with
    | zero => rfl
    | succ i => exact ih i (by simpa using h)

theorem sortedCP_lt {bpms : List ControlPoint}
    (hs : List.Pairwise (fun a b => a.beat < b.beat) bpms) {i k : ℕ}
    (hik : i < k) (hk : k < bpms.length) :
    (cpAt bpms i).beat < (cpAt bpms k).beat := by
  have h := List.pairwise_iff_get.1 hs ⟨i, lt_trans hik hk⟩ ⟨k, hk⟩ hik
  rwa [cpAt_eq_get bpms i (lt_trans hik hk), cpAt_eq_get bpms k hk]

/-- The advance loop never leaves the control-point list and stops exactly
when the next control point (if any) is strictly beyond the queried beat. -/
theorem advTT_stop (bpms : List ControlPoint) (b : BeatPos) :
    ∀ (fuel idx : ℕ) (time : ℚ), bpms.length - idx ≤ fuel → idx < bpms.length →
      idx ≤ (advTT bpms b idx time).1 ∧ (advTT bpms b idx time).1 < bpms.length ∧
        ((advTT bpms b idx time).1 + 1 < bpms.length →
          b < (cpAt bpms ((advTT bpms b idx time).1 + 1)).beat) := by
  intro fuel
  induction fuel with
  | zero => intro idx time hf hidx; omega
  | succ fuel ih =>
    intro idx time hf hidx
    rw [advTT]
    split
    · next h =>
      have h2 := ih (idx + 1)
        (time + ((cpAt bpms (idx + 1)).beat - (cpAt bpms idx).beat).asNum *
          (cpAt bpms idx).beatLen) (by omega) h.1
      exact ⟨by omega, h2.2.1, h2.2.2⟩
    · next h =>
      dsimp only
      refine ⟨le_refl idx, hidx, fun hlt => ?_⟩
      have h2 : ¬((cpAt bpms (idx + 1)).beat.frac ≤ b.frac) :=
        fun hc => h ⟨hlt, (BeatPos.le_def _ _).2 hc⟩
      exact (BeatPos.lt_def _ _).2 (by omega)

/-- The value returned for a beat not before the current control point is
at least the accumulated time. -/
theorem advTT_val_ge (bpms : List ControlPoint)
    (hsorted : List.Pairwise (fun a b => a.beat < b.beat) bpms)
    (hlenpos : ∀ cp ∈ bpms, 0 < cp.beatLen) (b : BeatPos) :
    ∀ (fuel idx : ℕ) (time : ℚ), bpms.length - idx ≤ fuel → idx < bpms.length →
      (cpAt bpms idx).beat ≤ b →
      time ≤ (advTT bpms b idx time).2 +
        (b - (cpAt bpms (advTT bpms b idx time).1).beat).asNum *
          (cpAt bpms (advTT bpms b idx time).1).beatLen := by
  intro fuel
  induction fuel with
  | zero => intro idx time hf hidx; omega
  | succ fuel ih =>
    intro idx time hf hidx hble
    rw [advTT]
    split
    · next h =>
      have hbb : (cpAt bpms idx).beat < (cpAt bpms (idx + 1)).beat :=
        sortedCP_lt hsorted (by omega) h.1
      have hl : 0 < (cpAt bpms idx).beatLen :=
        hlenpos _ (getD_mem_of_lt bpms ⟨⟨0⟩, 0⟩ idx hidx)
      have hnn : 0 ≤ ((cpAt bpms (idx + 1)).beat - (cpAt bpms idx).beat).asNum :=
        asNum_sub_nonneg _ _ (BeatPos.le_of_lt2 _ _ hbb)
      have hstep : time ≤ time +
          ((cpAt bpms (idx + 1)).beat - (cpAt bpms idx).beat).asNum *
            (cpAt bpms idx).beatLen := by
        have := mul_nonneg hnn (le_of_lt hl)
        linarith
      exact le_trans hstep (ih (idx + 1) _ (by omega) h.1 h.2)
    · next h =>
      have hl : 0 < (cpAt bpms idx).beatLen :=
        hlenpos _ (getD_mem_of_lt bpms ⟨⟨0⟩, 0⟩ idx hidx)
      have hnn : 0 ≤ (b - (cpAt bpms idx).beat).asNum := asNum_sub_nonneg _ _ hble
      have := mul_nonneg hnn (le_of_lt hl)
      dsimp only
      linarith

/-- Core monotonicity: from a state whose index satisfies the stop condition
for the earlier beat b1, the value the loop computes for a later beat b2 is
strictly greater than the value computed for b1. -/
theorem advTT_mono (bpms : List ControlPoint)
    (hsorted : List.Pairwise (fun a b => a.beat < b.beat) bpms)
    (hlenpos : ∀ cp ∈ bpms, 0 < cp.beatLen) (b1 b2 : BeatPos) (hb : b1 < b2) :
    ∀ (fuel idx : ℕ) (time : ℚ), bpms.length - idx ≤ fuel → idx < bpms.length →
      (idx + 1 < bpms.length → b1 < (cpAt bpms (idx + 1)).beat) →
      time + (b1 - (cpAt bpms idx).beat).asNum * (cpAt bpms idx).beatLen <
        (advTT bpms b2 idx time).2 +
          (b2 - (cpAt bpms (advTT bpms b2 idx time).1).beat).asNum *
            (cpAt bpms (advTT bpms b2 idx time).1).beatLen := by
  intro fuel
  induction fuel with
  | zero => intro idx time hf hidx; omega
  | succ fuel ih =>
    intro idx time hf hidx hstop
    rw [advTT]
    split
    · next h =>
      have hb1b : b1 < (cpAt bpms (idx + 1)).beat := hstop h.1
      have hl : 0 < (cpAt bpms idx).beatLen :=
        hlenpos _ (getD_mem_of_lt bpms ⟨⟨0⟩, 0⟩ idx hidx)
      have h1 : time + (b1 - (cpAt bpms idx).beat).asNum * (cpAt bpms idx).beatLen <
          time + ((cpAt bpms (idx + 1)).beat - (cpAt bpms idx).beat).asNum *
            (cpAt bpms idx).beatLen := by
        have := mul_lt_mul_of_pos_right (asNum_sub_lt (cpAt bpms idx).beat _ _ hb1b) hl
        linarith
      have h2 := advTT_val_ge bpms hsorted hlenpos b2 fuel (idx + 1)
        (time + ((cpAt bpms (idx + 1)).beat - (cpAt bpms idx).beat).asNum *
          (cpAt bpms idx).beatLen) (by omega) h.1 h.2
      exact lt_of_lt_of_le h1 h2
    · next h =>
      have hl : 0 < (cpAt bpms idx).beatLen :=
        hlenpos _ (getD_mem_of_lt bpms ⟨⟨0⟩, 0⟩ idx hidx)
      dsimp only
      have := mul_lt_mul_of_pos_right (asNum_sub_lt (cpAt bpms idx).beat _ _ hb) hl
      linarith

/-- Chaining beat_to_time calls: if the mapper state satisfies the stop
condition for the beat b0 it last answered, and every remaining query beat
exceeds b0, the answers stay strictly increasing. -/
theorem timesOf_chain (bpms : List ControlPoint)
    (hsorted : List.Pairwise (fun a b => a.beat < b.beat) bpms)
    (hlenpos : ∀ cp ∈ bpms, 0 < cp.beatLen) :
    ∀ (beats : List BeatPos) (idx : ℕ) (time : ℚ) (b0 : BeatPos),
      idx < bpms.length →
      (idx + 1 < bpms.length → b0 < (cpAt bpms (idx + 1)).beat) →
      (∀ b ∈ beats, b0 < b) → List.Pairwise (fun a b => a < b) beats →
      List.Chain' (fun a b => a < b)
        ((time + (b0 - (cpAt bpms idx).beat).asNum * (cpAt bpms idx).beatLen) ::
          timesOf ⟨bpms, idx, time⟩ beats) := by
  intro beats
  induction beats with
  | nil =>
    intro idx time b0 _ _ _ _
    simp [timesOf]
  | cons b rest ih =>
    intro idx time b0 hidx hstop hgt hpair
    simp only [timesOf, beatToTime]
    rw [List.chain'_cons]
    constructor
    · exact advTT_mono bpms hsorted hlenpos b0 b (hgt b (List.mem_cons_self b rest))
        bpms.length idx time (by omega) hidx hstop
    · have hstp := advTT_stop bpms b bpms.length idx time (by omega) hidx
      exact ih (advTT bpms b idx time).1 (advTT bpms b idx time).2 b hstp.2.1 hstp.2.2
        (fun b2 hb2 => List.rel_of_pairwise_cons hpair hb2) hpair.of_cons

/-- C7: for a non-empty control-point list with strictly increasing beats
and positive beat lengths, successive beat_to_time calls on one freshly
created ToTime value map a strictly increasing beat list to a strictly
increasing time list. -/
theorem c7_timing_monotone (bpms : List ControlPoint) (offset : ℚ)
    (hne : bpms ≠ [])
    (hsorted : List.Pairwise (fun a b => a.beat < b.beat) bpms)
    (hlenpos : ∀ cp ∈ bpms, 0 < cp.beatLen)
    (beats : List BeatPos) (hbeats : List.Pairwise (fun a b => a < b) beats) :
    List.Pairwise (fun a b => a < b) (timesOf (ToTime.fresh bpms offset) beats) := by
  rw [← List.chain'_iff_pairwise]
  cases beats with
  | nil => simp [timesOf]
  | cons b1 rest =>
    have hlen0 : 0 < bpms.length := List.length_pos.2 hne
    simp only [timesOf, ToTime.fresh, beatToTime]
    have hstp := advTT_stop bpms b1 bpms.length 0 (-offset) (by omega) hlen0
    exact timesOf_chain bpms hsorted hlenpos rest (advTT bpms b1 0 (-offset)).1
      (advTT bpms b1 0 (-offset)).2 b1 hstp.2.1 hstp.2.2
      (fun b2 hb2 => List.rel_of_pairwise_cons hbeats hb2) hbeats.of_cons

theorem c7_witness :
    bpms7 ≠ [] ∧
      List.Pairwise (fun a b => a < b) (timesOf (ToTime.fresh bpms7 0) beats7) :=
  ⟨by simp [bpms7], c7_timing_monotone bpms7 0 (by simp [bpms7])
    (by decide) (by norm_num [bpms7]) beats7 (by decide)⟩

/-! ## Claim C1: hold integrity after remap -/

theorem chooseFirst_valid : ChoiceValid chooseFirst := by
  intro n cs k h
  cases cs with
  | nil => simp [chooseFirst] at h
  | cons a t =>
    have ha : a = k := by simpa [chooseFirst] using h
    rw [← ha]
    exact List.mem_cons_self a t

/-- C1 counterexample.  On the valid chart smEx1 converted 4K to 3K with the
first-candidate oracle, the fourth hold is dropped whole but its tail
survives through the stale unlock_by_tails entry: the output violates the
atomic-drop half of the claim.  On smEx2 the claim's head half itself fails:
a surviving head is followed by a same-outkey tail at the SAME beat (a
second stale tail lands on the outkey that the head had just reacquired),
so the strictly-greater-beat requirement is false as well. -/
theorem c1_counterexample :
    (SortedBeats smEx1.notes ∧ KeysNonneg smEx1.notes ∧ HeadsPaired smEx1.notes ∧
      ¬ ClaimC1 (convert chooseFirst Gamemode.DanceThreepanel true smEx1).notes) ∧
    (SortedBeats smEx2.notes ∧ KeysNonneg smEx2.notes ∧ HeadsPaired smEx2.notes ∧
      ¬ ClaimC1Heads (convert chooseFirst Gamemode.DanceThreepanel true smEx2).notes) := by
  refine ⟨⟨by decide, by decide, by decide, by decide⟩,
    ⟨by decide, by decide, by decide, by decide⟩⟩

theorem getD_set_ne {α : Type} (l : List α) (i j : ℕ) (x d : α) (h : i ≠ j) :
    (l.set i x).getD j d = l.getD j d := by
  induction l generalizing i j with
  | nil => simp
  | cons a t ih =>
    cases i with
    | zero =>
      cases j with
      | zero => exact absurd rfl h
      | succ j => simp [List.set]
    | succ i =>
      cases j with
      | zero => simp [List.set]
      | succ j => simpa [List.set] using ih i j (by omega)

theorem getD_set_self {α : Type} (l : List α) (i : ℕ) (x d : α) (h : i < l.length) :
    (l.set i x).getD i d = x := by
  induction l generalizing i with
  | nil => simp at h
  | cons a t ih =>
    cases i with
    | zero => simp [List.set]
    | succ i => simpa [List.set] using ih i (by simpa using h)

theorem getD_map_lt {α β : Type} (f : α → β) (l : List α) (d : α) (d2 : β) (i : ℕ)
    (h : i < l.length) : (l.map f).getD i d2 = f (l.getD i d) := by
  induction l generalizing i with
  | nil => simp at h
  | cons a t ih =>
    cases i with
    | zero => rfl
    | succ i => simpa using ih i (by simpa using h)

theorem noteAt_cons_drop (t : List Note) (dj : ℕ) (h : dj < t.length) :
    t = t.take dj ++ noteAt t dj :: t.drop (dj + 1) := by
  induction t generalizing dj with
  | nil => simp at h
  | cons a r ih =>
    cases dj with
    | zero => simp [noteAt]
    | succ dj =>
      have := ih dj (by simpa using h)
      simpa [noteAt] using congrArg (List.cons a) this

theorem mem_take_noteAt (t : List Note) (dj : ℕ) (x : Note) (hx : x ∈ t.take dj) :
    ∃ k, k < dj ∧ k < t.length ∧ noteAt t k = x := by
  induction t generalizing dj with
  | nil => simp at hx
  | cons a r ih =>
    cases dj with
    | zero => simp at hx
    | succ dj =>
      rcases List.mem_cons.1 (by simpa using hx) with heq | hmem
      · exact ⟨0, by omega, by simp, heq.symm⟩
      · obtain ⟨k, hk1, hk2, hk3⟩ := ih dj hmem
        exact ⟨k + 1, by omega, by simpa using hk2, hk3⟩

/-- convertStep preserves the locked-vector length. -/
theorem convertStep_locked_length (outK : ℕ) (choice : ℕ → List ℕ → Option ℕ)
    (n : ℕ) (st : RemapState) (nt : Note) :
    (convertStep outK choice n st nt).2.lockedOutkeys.length =
      st.lockedOutkeys.length := by
  unfold convertStep
  dsimp only
  split
  · simp
  · split
    · split <;> simp
    · simp

/-- convertStep preserves the unlock_by_tails length. -/
theorem convertStep_ubt_length (outK : ℕ) (choice : ℕ → List ℕ → Option ℕ)
    (n : ℕ) (st : RemapState) (nt : Note) :
    (convertStep outK choice n st nt).2.unlockByTails.length =
      st.unlockByTails.length := by
  unfold convertStep
  dsimp only
  split
  · rfl
  · split
    · split <;> simp
    · rfl

theorem convertStep_beat (outK : ℕ) (choice : ℕ → List ℕ → Option ℕ) (n : ℕ)
    (st : RemapState) (nt : Note) :
    (convertStep outK choice n st nt).1.beat = nt.beat := by
  have := convertStep_projBK outK choice n st nt
  exact congrArg Prod.fst this

theorem convertStep_kind (outK : ℕ) (choice : ℕ → List ℕ → Option ℕ) (n : ℕ)
    (st : RemapState) (nt : Note) :
    (convertStep outK choice n st nt).1.kind = nt.kind := by
  have := convertStep_projBK outK choice n st nt
  exact congrArg Prod.snd this

/-- The auto-unlock pass keeps an open (Some(None)) lock open. -/
theorem locked1_open (L : List (Option (Option BeatPos))) (b : BeatPos) (o : ℕ)
    (h : o < L.length) (hopen : L.getD o (some none) = some none) :
    (L.map (autoUnlock b)).getD o (some none) = some none := by
  rw [getD_map_lt (autoUnlock b) L (some none) (some none) o h, hopen]
  rfl

/-- Membership in the candidate list means the index is free and in range. -/
theorem mem_freeCands (outK : ℕ) (L1 : List (Option (Option BeatPos))) (out : ℕ)
    (hmem : out ∈ freeCands outK L1) :
    (L1.getD out (some none)).isNone = true ∧ out < outK := by
  unfold freeCands at hmem
  have h := List.mem_filter.1 hmem
  exact ⟨h.2, List.mem_range.1 h.1⟩

/-- A tail is emitted on the outkey recorded in unlock_by_tails. -/
theorem convertStep_tail_emits (outK : ℕ) (choice : ℕ → List ℕ → Option ℕ)
    (n : ℕ) (st : RemapState) (nt : Note) (hT : nt.isTail = true) :
    (convertStep outK choice n st nt).1 =
      { nt with key := ((st.unlockByTails.getD nt.key.toNat 0 : ℕ) : Int) } := by
  unfold convertStep
  dsimp only
  rw [if_pos hT]

/-- Explicit form of convertStep on a head for which the oracle succeeds. -/
theorem convertStep_head_eq (outK : ℕ) (choice : ℕ → List ℕ → Option ℕ)
    (n : ℕ) (st : RemapState) (nt : Note) (out : ℕ)
    (hH : nt.isHead = true) (hT : nt.isTail = false)
    (hc : choice n (freeCands outK (st.lockedOutkeys.map (autoUnlock nt.beat))) =
      some out) :
    convertStep outK choice n st nt =
      ({ nt with key := (out : Int) },
        ⟨(st.lockedOutkeys.map (autoUnlock nt.beat)).set out (some none),
          st.unlockByTails.set nt.key.toNat out⟩) := by
  unfold convertStep
  dsimp only
  rw [if_neg (by simp [hT]), hc]
  dsimp only
  rw [if_pos hH]

/-- Core preservation step: while an outkey o is held open (Some(None)) and
unlock_by_tails maps the inkey a to o, any note that is neither the
matching a-tail nor an a-head is emitted on a different outkey, and both
state facts survive the step. -/
theorem convertStep_preserve (outK : ℕ) (choice : ℕ → List ℕ → Option ℕ)
    (hch : ChoiceValid choice) (o a n : ℕ) (st : RemapState) (nt : Note)
    (ho : o < outK) (hlen : st.lockedOutkeys.length = outK)
    (hopen : st.lockedOutkeys.getD o (some none) = some none)
    (hubt : st.unlockByTails.getD a 0 = o)
    (hside : nt.isTail = true → st.unlockByTails.getD nt.key.toNat 0 ≠ o)
    (hka : nt.isHead = true → nt.key.toNat ≠ a) :
    (convertStep outK choice n st nt).1.key ≠ (o : Int) ∧
    (convertStep outK choice n st nt).2.lockedOutkeys.getD o (some none) =
      some none ∧
    (convertStep outK choice n st nt).2.unlockByTails.getD a 0 = o := by
  have hoL : o < st.lockedOutkeys.length := by rw [hlen]; exact ho
  have hopen1 : (st.lockedOutkeys.map (autoUnlock nt.beat)).getD o (some none) =
      some none := locked1_open _ _ _ hoL hopen
  unfold convertStep
  dsimp only
  by_cases hT : nt.isTail = true
  · rw [if_pos hT]
    have hne : st.unlockByTails.getD nt.key.toNat 0 ≠ o := hside hT
    refine ⟨?_, ?_, hubt⟩
    · dsimp only
      intro h
      exact hne (by exact_mod_cast h)
    · dsimp only
      rw [getD_set_ne _ _ _ _ _ hne]
      exact hopen1
  · rw [if_neg hT]
    cases hcc : choice n
        (freeCands outK (st.lockedOutkeys.map (autoUnlock nt.beat))) with
    | none =>
      dsimp only
      refine ⟨?_, hopen1, hubt⟩
      intro h
      omega
    | some out =>
      have hfc := mem_freeCands outK _ out (hch n _ out hcc)
      have hno : out ≠ o := by
        intro he
        have h1 := hfc.1
        rw [he, hopen1] at h1
        simp at h1
      dsimp only
      by_cases hH : nt.isHead = true
      · rw [if_pos hH]
        refine ⟨?_, ?_, ?_⟩
        · dsimp only
          intro h
          exact hno (by exact_mod_cast h)
        · dsimp only
          rw [getD_set_ne _ _ _ _ _ hno]
          exact hopen1
        · dsimp only
          rw [getD_set_ne _ _ _ _ _ (hka hH)]
          exact hubt
      · rw [if_neg hH]
        refine ⟨?_, ?_, hubt⟩
        · dsimp only
          intro h
          exact hno (by exact_mod_cast h)
        · dsimp only
          rw [getD_set_ne _ _ _ _ _ hno]
          exact hopen1

/-- While outkey o is open and unlock_by_tails maps inkey a to o, the note
loop eventually emits a tail on outkey o (at the latest when the first
a-keyed tail of the suffix arrives), with no earlier output note on o; the
emitted beat is the beat of some note of the suffix. -/
theorem convertGo_first_tail (outK : ℕ) (choice : ℕ → List ℕ → Option ℕ)
    (hch : ChoiceValid choice) (o a : ℕ) (ho : o < outK) :
    ∀ (rest : List Note) (n : ℕ) (st : RemapState) (p : List Note) (t : Note)
      (q : List Note),
      st.lockedOutkeys.length = outK →
      st.lockedOutkeys.getD o (some none) = some none →
      st.unlockByTails.getD a 0 = o →
      KeysNonneg rest →
      rest = p ++ t :: q →
      (∀ x ∈ p, x.key ≠ (a : Int)) →
      t.key = (a : Int) → t.isTail = true →
      ∃ p2 m q2, convertGo outK choice n st rest = p2 ++ m :: q2 ∧
        (∀ x ∈ p2, x.key ≠ (o : Int)) ∧ m.key = (o : Int) ∧ m.isTail = true ∧
        ∃ x ∈ rest, x.beat = m.beat := by
  intro rest
  induction rest with
  | nil =>
    intro n st p t q _ _ _ _ hdec _ _ _
    exact absurd hdec (by cases p <;> simp)
  | cons note rest2 ih =>
    intro n st p t q hlen hopen hubt hkn hdec hp htk htt
    cases p with
    | nil =>
      rw [List.nil_append] at hdec
      injection hdec with h1 h2
      subst h1
      subst h2
      have hkeynat : note.key.toNat = a := by rw [htk]; rfl
      have hout : st.unlockByTails.getD note.key.toNat 0 = o := by
        rw [hkeynat]; exact hubt
      refine ⟨[], (convertStep outK choice n st note).1,
        convertGo outK choice (n + 1) (convertStep outK choice n st note).2 rest2,
        rfl, by simp, ?_, ?_, ⟨note, List.mem_cons_self _ _,
          (convertStep_beat outK choice n st note).symm⟩⟩
      · rw [convertStep_tail_emits outK choice n st note htt]
        dsimp only
        rw [hout]
      · have hk := convertStep_kind outK choice n st note
        simp only [Note.isTail] at htt ⊢
        rw [hk]
        exact htt
    | cons x p' =>
      rw [List.cons_append] at hdec
      injection hdec with h1 h2
      subst h1
      have hxa : note.key ≠ (a : Int) := hp note (List.mem_cons_self _ _)
      have hp' : ∀ y ∈ p', y.key ≠ (a : Int) :=
        fun y hy => hp y (List.mem_cons_of_mem _ hy)
      have hknn : 0 ≤ note.key := hkn note (List.mem_cons_self _ _)
      have hkn2 : KeysNonneg rest2 :=
        fun y hy => hkn y (List.mem_cons_of_mem _ hy)
      by_cases hTo : note.isTail = true ∧ st.unlockByTails.getD note.key.toNat 0 = o
      · obtain ⟨hT, hO⟩ := hTo
        refine ⟨[], (convertStep outK choice n st note).1,
          convertGo outK choice (n + 1) (convertStep outK choice n st note).2 rest2,
          rfl, by simp, ?_, ?_, ⟨note, List.mem_cons_self _ _,
            (convertStep_beat outK choice n st note).symm⟩⟩
        · rw [convertStep_tail_emits outK choice n st note hT]
          dsimp only
          rw [hO]
        · have hk := convertStep_kind outK choice n st note
          simp only [Note.isTail] at hT ⊢
          rw [hk]
          exact hT
      · have hside : note.isTail = true →
            st.unlockByTails.getD note.key.toNat 0 ≠ o :=
          fun hw1 hw2 => hTo ⟨hw1, hw2⟩
        have hka : note.isHead = true → note.key.toNat ≠ a := by
          intro _ hEq
          apply hxa
          rw [← hEq, Int.toNat_of_nonneg hknn]
        obtain ⟨hek, hopen2, hubt2⟩ :=
          convertStep_preserve outK choice hch o a n st note ho hlen hopen hubt
            hside hka
        have hlen2 : (convertStep outK choice n st note).2.lockedOutkeys.length =
            outK := by
          rw [convertStep_locked_length]; exact hlen
        obtain ⟨p2, m, q2, heq, hnp2, hmk, hmt, hmb⟩ :=
          ih (n + 1) (convertStep outK choice n st note).2 p' t q hlen2 hopen2
            hubt2 hkn2 h2 hp' htk htt
        refine ⟨(convertStep outK choice n st note).1 :: p2, m, q2, ?_, ?_, hmk,
          hmt, ?_⟩
        · show convertGo outK choice n st (note :: rest2) = _
          simp only [convertGo]
          rw [List.cons_append, heq]
        · intro y hy
          rcases List.mem_cons.1 hy with hy1 | hy2
          · rw [hy1]; exact hek
          · exact hnp2 y hy2
        · obtain ⟨z, hz, hbz⟩ := hmb
          exact ⟨z, List.mem_cons_of_mem _ hz, hbz⟩

/-- Every head that the note loop emits with a real (nonnegative) outkey is
followed by a tail on the same outkey, with no intervening output note on
that outkey, at a greater-or-equal beat. -/
theorem convertGo_heads (outK : ℕ) (choice : ℕ → List ℕ → Option ℕ)
    (hch : ChoiceValid choice) (inK : ℕ) :
    ∀ (l : List Note) (n : ℕ) (st : RemapState),
      st.lockedOutkeys.length = outK →
      st.unlockByTails.length = inK →
      SortedBeats l → KeysNonneg l → KeysBelow inK l →
      (∀ s h t, l = s ++ h :: t → h.isHead = true →
        ∃ p m q, t = p ++ m :: q ∧ (∀ y ∈ p, y.key ≠ h.key) ∧
          m.key = h.key ∧ m.isTail = true) →
      ∀ s h t, convertGo outK choice n st l = s ++ h :: t →
        h.isHead = true → 0 ≤ h.key →
        ∃ p m q, t = p ++ m :: q ∧ (∀ y ∈ p, y.key ≠ h.key) ∧
          m.key = h.key ∧ m.isTail = true ∧ h.beat ≤ m.beat := by
  intro l
  induction l with
  | nil =>
    intro n st _ _ _ _ _ _ s h t heq _ _
    simp only [convertGo] at heq
    exact absurd heq (by cases s <;> simp)
  | cons note rest ihl =>
    intro n st hlenL hlenU hsort hknn hkb hpair s h t heq hhead hkey0
    simp only [convertGo] at heq
    cases s with
    | nil =>
      rw [List.nil_append] at heq
      injection heq with h1 h2
      have hnoteHead : note.isHead = true := by
        have hk := convertStep_kind outK choice n st note
        rw [h1] at hk
        simp only [Note.isHead] at hhead ⊢
        rw [← hk]
        exact hhead
      have hnoteT : note.isTail = false := by
        have hk2 : note.kind = '2' := eq_of_beq hnoteHead
        simp only [Note.isTail, hk2]
        decide
      cases hcc : choice n
          (freeCands outK (st.lockedOutkeys.map (autoUnlock note.beat))) with
      | none =>
        exfalso
        have hm1 : (convertStep outK choice n st note).1.key = -1 := by
          unfold convertStep
          dsimp only
          rw [if_neg (by simp [hnoteT]), hcc]
        rw [h1] at hm1
        rw [hm1] at hkey0
        omega
      | some out =>
        have hstep := convertStep_head_eq outK choice n st note out hnoteHead
          hnoteT hcc
        have hfc := mem_freeCands outK _ out (hch n _ out hcc)
        have hout_lt : out < outK := hfc.2
        have hnnN : 0 ≤ note.key := hknn note (List.mem_cons_self _ _)
        have hkbN : note.key < (inK : Int) := hkb note (List.mem_cons_self _ _)
        have hopen2 : (convertStep outK choice n st note).2.lockedOutkeys.getD
            out (some none) = some none := by
          rw [hstep]
          dsimp only
          exact getD_set_self _ _ _ _
            (by rw [List.length_map, hlenL]; exact hout_lt)
        have hubt2 : (convertStep outK choice n st note).2.unlockByTails.getD
            note.key.toNat 0 = out := by
          rw [hstep]
          dsimp only
          exact getD_set_self _ _ _ _ (by rw [hlenU]; omega)
        have hlen2 : (convertStep outK choice n st note).2.lockedOutkeys.length =
            outK := by
          rw [convertStep_locked_length]; exact hlenL
        have hknn2 : KeysNonneg rest :=
          fun y hy => hknn y (List.mem_cons_of_mem _ hy)
        obtain ⟨p, tt, q, hdecr, hpP, htkP, httP⟩ :=
          hpair [] note rest rfl hnoteHead
        have hcast : ((note.key.toNat : ℕ) : Int) = note.key :=
          Int.toNat_of_nonneg hnnN
        have hp2 : ∀ y ∈ p, y.key ≠ ((note.key.toNat : ℕ) : Int) := by
          intro y hy
          rw [hcast]
          exact hpP y hy
        have htk2 : tt.key = ((note.key.toNat : ℕ) : Int) := by
          rw [hcast]
          exact htkP
        obtain ⟨p2, m, q2, hgo, hnp2, hmk, hmt, hmb⟩ :=
          convertGo_first_tail outK choice hch out note.key.toNat hout_lt rest
            (n + 1) (convertStep outK choice n st note).2 p tt q hlen2 hopen2
            hubt2 hknn2 hdecr hp2 htk2 httP
        have hkh : h.key = (out : Int) := by
          rw [← h1, hstep]
        refine ⟨p2, m, q2, by rw [← h2, hgo], ?_, by rw [hmk, hkh], hmt, ?_⟩
        · intro y hy
          rw [hkh]
          exact hnp2 y hy
        · obtain ⟨z, hz, hbz⟩ := hmb
          have hb1 : h.beat = note.beat := by
            rw [← h1]
            exact convertStep_beat outK choice n st note
          have hle : note.beat ≤ z.beat := (List.pairwise_cons.1 hsort).1 z hz
          rw [hb1, ← hbz]
          exact hle
    | cons s0 s' =>
      rw [List.cons_append] at heq
      injection heq with h1 h2
      have hlen2 : (convertStep outK choice n st note).2.lockedOutkeys.length =
          outK := by
        rw [convertStep_locked_length]; exact hlenL
      have hlenU2 : (convertStep outK choice n st note).2.unlockByTails.length =
          inK := by
        rw [convertStep_ubt_length]; exact hlenU
      have hsort2 : SortedBeats rest := (List.pairwise_cons.1 hsort).2
      have hknn2 : KeysNonneg rest :=
        fun y hy => hknn y (List.mem_cons_of_mem _ hy)
      have hkb2 : KeysBelow inK rest :=
        fun y hy => hkb y (List.mem_cons_of_mem _ hy)
      have hpair2 : ∀ s2 hh t2, rest = s2 ++ hh :: t2 → hh.isHead = true →
          ∃ p m q, t2 = p ++ m :: q ∧ (∀ y ∈ p, y.key ≠ hh.key) ∧
            m.key = hh.key ∧ m.isTail = true := by
        intro s2 hh t2 hdec hhh
        exact hpair (note :: s2) hh t2 (by rw [hdec, List.cons_append]) hhh
      exact ihl (n + 1) (convertStep outK choice n st note).2 hlen2 hlenU2
        hsort2 hknn2 hkb2 hpair2 s' h t h2 hhead hkey0

/-- Index of the middle element of an append-cons-append decomposition. -/
theorem noteAt_mid (A : List Note) (hh : Note) (p : List Note) (m : Note)
    (q : List Note) :
    noteAt (A ++ hh :: (p ++ m :: q)) (A.length + (1 + p.length)) = m := by
  rw [noteAt_append_right, Nat.add_comm 1 p.length, noteAt_cons_succ]
  have h := noteAt_append_right p (m :: q) 0
  simpa [noteAt_cons_zero] using h

/-- Index of an element strictly between the head and the middle element. -/
theorem noteAt_mid_left (A : List Note) (hh : Note) (p rest2 : List Note)
    (dk : ℕ) (hdk : dk < p.length) :
    noteAt (A ++ hh :: (p ++ rest2)) (A.length + (1 + dk)) = noteAt p dk := by
  rw [noteAt_append_right, Nat.add_comm 1 dk, noteAt_cons_succ,
    noteAt_append_left _ _ _ hdk]

/-- The index form of HeadsPaired yields, for every decomposition exposing
a head, a decomposition of its suffix at the matching tail. -/
theorem headsPaired_decomp (l : List Note) (hhp : HeadsPaired l) :
    ∀ s h t, l = s ++ h :: t → h.isHead = true →
      ∃ p m q, t = p ++ m :: q ∧ (∀ y ∈ p, y.key ≠ h.key) ∧
        m.key = h.key ∧ m.isTail = true := by
  intro s h t hdec hh
  have hlens : l.length = s.length + (t.length + 1) := by
    rw [hdec]
    simp [List.length_append]
  have hi : s.length < l.length := by omega
  have hAts : noteAt l s.length = h := by
    rw [hdec]
    have h0 := noteAt_append_right s (h :: t) 0
    simpa [noteAt_cons_zero] using h0
  obtain ⟨j, hjr, hij, hjk, hjt, _, hint⟩ :=
    hhp s.length (List.mem_range.2 hi) (by rw [hAts]; exact hh)
  rw [List.mem_range] at hjr
  have hjeq : j = s.length + (1 + (j - s.length - 1)) := by omega
  have hdjlt : j - s.length - 1 < t.length := by omega
  have hAtj : noteAt l j = noteAt t (j - s.length - 1) := by
    rw [hdec, hjeq, noteAt_append_right, Nat.add_comm 1 (j - s.length - 1),
      noteAt_cons_succ]
    congr 1
    omega
  refine ⟨t.take (j - s.length - 1), noteAt t (j - s.length - 1),
    t.drop (j - s.length - 1 + 1), noteAt_cons_drop t _ hdjlt, ?_, ?_, ?_⟩
  · intro y hy
    obtain ⟨k, hk1, hk2, hk3⟩ := mem_take_noteAt t (j - s.length - 1) y hy
    have hm := hint (s.length + (1 + k))
      (List.mem_range.2 (by omega)) (by omega)
    rw [hdec, noteAt_append_right, Nat.add_comm 1 k, noteAt_cons_succ] at hm
    rw [hdec] at hAts
    rw [hk3, hAts] at hm
    rw [← hdec] at hAts
    intro hcontra
    exact hm hcontra
  · rw [← hAtj, hjk, hAts]
  · rw [← hAtj]
    exact hjt
/-- A list all of whose head-exposing decompositions admit a same-key
closing tail satisfies the index form HeadsClosedGe. -/
theorem decomp_headsClosedGe (L : List Note)
    (hdc : ∀ s h t, L = s ++ h :: t → h.isHead = true →
      ∃ p m q, t = p ++ m :: q ∧ (∀ y ∈ p, y.key ≠ h.key) ∧
        m.key = h.key ∧ m.isTail = true ∧ h.beat ≤ m.beat) :
    HeadsClosedGe L := by
  intro i hir hh
  rw [List.mem_range] at hir
  have hdecL := noteAt_cons_drop L i hir
  obtain ⟨p, m, q, hteq, hpk, hmk, hmt, hmb⟩ :=
    hdc (L.take i) (noteAt L i) (L.drop (i + 1)) hdecL hh
  have hlt : (L.take i).length = i := by
    rw [List.length_take]
    omega
  have hLdec : L = L.take i ++ noteAt L i :: (p ++ m :: q) := by
    rw [hteq] at hdecL
    exact hdecL
  have hLlen : L.length = i + (1 + (p.length + (1 + q.length))) := by
    have hc := congrArg List.length hLdec
    simp [List.length_append, hlt] at hc
    omega
  have hAtm : noteAt L (i + 1 + p.length) = m := by
    have hidx : i + 1 + p.length = (L.take i).length + (1 + p.length) := by
      omega
    conv_lhs => rw [hLdec, hidx]
    exact noteAt_mid (L.take i) (noteAt L i) p m q
  refine ⟨i + 1 + p.length, List.mem_range.2 (by omega), by omega, ?_, ?_, ?_, ?_⟩
  · rw [hAtm]
    exact hmk
  · rw [hAtm]
    exact hmt
  · rw [hAtm]
    exact hmb
  · intro mm hmr hmlt
    rw [List.mem_range] at hmr
    have hdklt : mm - i - 1 < p.length := by omega
    have hAtmm : noteAt L mm = noteAt p (mm - i - 1) := by
      have hidx2 : mm = (L.take i).length + (1 + (mm - i - 1)) := by
        omega
      conv_lhs => rw [hLdec, hidx2]
      exact noteAt_mid_left (L.take i) (noteAt L i) p (m :: q) _ hdklt
    rw [hAtmm]
    exact hpk _ (noteAt_mem p _ hdklt)

/-- Splitting a filtered list at an element locates that element in the
original list, with the filtered tail coming from the original tail. -/
theorem filter_eq_append_cons (P : Note → Bool) :
    ∀ (ms s : List Note) (h : Note) (t : List Note),
      ms.filter P = s ++ h :: t →
      ∃ s0 t0, ms = s0 ++ h :: t0 ∧ t0.filter P = t := by
  intro ms
  induction ms with
  | nil =>
    intro s h t heq
    simp only [List.filter_nil] at heq
    exact absurd heq (by cases s <;> simp)
  | cons y ms2 ih =>
    intro s h t heq
    cases hPy : P y with
    | true =>
      rw [List.filter_cons, if_pos hPy] at heq
      cases s with
      | nil =>
        rw [List.nil_append] at heq
        injection heq with h1 h2
        subst h1
        exact ⟨[], ms2, rfl, h2⟩
      | cons s1 s' =>
        rw [List.cons_append] at heq
        injection heq with h1 h2
        obtain ⟨s0, t0, hms, hft⟩ := ih s' h t h2
        exact ⟨y :: s0, t0, by rw [hms, List.cons_append], hft⟩
    | false =>
      rw [List.filter_cons, if_neg (by simp [hPy])] at heq
      obtain ⟨s0, t0, hms, hft⟩ := ih s h t heq
      exact ⟨y :: s0, t0, by rw [hms, List.cons_append], hft⟩

/-- C1, amended.  For every valid choice oracle and every input chart that
passes the relevant Simfile::check invariants (sorted beats, keys
nonnegative and below the keycount, heads strictly paired), every HEAD in
the converted output is followed by a TAIL on the same output key at a
greater-or-equal beat, with no other note on that output key in between.
The strictly-greater-beat and atomic-drop parts of the spec sentence are
false (c1_counterexample): a dropped hold leaves a stale unlock_by_tails
entry, so its tail can survive alone and can land on an open outkey at the
very beat of the head holding it. -/
theorem c1_hold_heads_amended (choice : ℕ → List ℕ → Option ℕ)
    (hch : ChoiceValid choice) (targetGm : Gamemode) (avoidShuffle : Bool)
    (sm : Simfile) (hs : SortedBeats sm.notes) (hnn : KeysNonneg sm.notes)
    (hkb : KeysBelow sm.gamemode.keyCount sm.notes)
    (hhp : HeadsPaired sm.notes) :
    HeadsClosedGe (convert choice targetGm avoidShuffle sm).notes := by
  unfold convert
  by_cases hcond : avoidShuffle = true ∧
      sm.gamemode.keyCount = targetGm.keyCount
  · rw [if_pos hcond]
    intro i hir hh
    obtain ⟨j, hjr, hij, hjk, hjt, hjb, hint⟩ := hhp i hir hh
    exact ⟨j, hjr, hij, hjk, hjt, BeatPos.le_of_lt2 _ _ hjb, hint⟩
  · rw [if_neg hcond]
    dsimp only
    apply decomp_headsClosedGe
    intro s h t heq hh
    obtain ⟨s0, t0, hms, hft⟩ :=
      filter_eq_append_cons (fun nt => decide (0 ≤ nt.key)) _ s h t heq
    have hkey0 : 0 ≤ h.key := by
      have hmemf : h ∈ List.filter (fun nt => decide (0 ≤ nt.key))
          (convertGo targetGm.keyCount choice 0
            ⟨List.replicate targetGm.keyCount none,
             List.replicate sm.gamemode.keyCount 0⟩ sm.notes) := by
        rw [heq]
        simp
      have hdec := (List.mem_filter.1 hmemf).2
      simpa using hdec
    obtain ⟨p, m, q, ht0, hpk, hmk, hmt, hmb⟩ :=
      convertGo_heads targetGm.keyCount choice hch sm.gamemode.keyCount
        sm.notes 0
        ⟨List.replicate targetGm.keyCount none,
         List.replicate sm.gamemode.keyCount 0⟩
        (by simp) (by simp) hs hnn hkb (headsPaired_decomp sm.notes hhp)
        s0 h t0 hms hh hkey0
    have hPm : (fun nt => decide (0 ≤ nt.key)) m = true := by
      show decide (0 ≤ m.key) = true
      rw [hmk]
      exact decide_eq_true hkey0
    refine ⟨p.filter (fun nt => decide (0 ≤ nt.key)), m,
      q.filter (fun nt => decide (0 ≤ nt.key)), ?_, ?_, hmk, hmt, hmb⟩
    · rw [← hft, ht0, List.filter_append, List.filter_cons, if_pos hPm]
    · intro y hy
      exact hpk y (List.mem_of_mem_filter hy)

/-- Witness for the amended C1 theorem: the 4K chart smEx4 converted to 3K
with the first-candidate oracle. -/
theorem c1_witness :
    ChoiceValid chooseFirst ∧ SortedBeats smEx4.notes ∧
    KeysNonneg smEx4.notes ∧
    KeysBelow smEx4.gamemode.keyCount smEx4.notes ∧ HeadsPaired smEx4.notes ∧
    HeadsClosedGe (convert chooseFirst Gamemode.DanceThreepanel false
      smEx4).notes :=
  ⟨chooseFirst_valid, by decide, by decide, by decide, by decide,
    c1_hold_heads_amended chooseFirst chooseFirst_valid
      Gamemode.DanceThreepanel false smEx4 (by decide) (by decide) (by decide)
      (by decide)⟩

/-! ## Claim C2: simultaneous-keys bound -/

theorem head_not_tail (nt : Note) (h : nt.isHead = true) : nt.isTail = false := by
  have hk : nt.kind = '2' := eq_of_beq h
  simp only [Note.isTail, hk]
  decide

theorem tail_not_head (nt : Note) (h : nt.isTail = true) : nt.isHead = false := by
  have hk : nt.kind = '3' := eq_of_beq h
  simp only [Note.isHead, hk]
  decide

theorem getD_replicate_false (kc i : ℕ) :
    (List.replicate kc false).getD i false = false := by
  induction kc generalizing i with
  | zero => simp
  | succ kc ih =>
    cases i with
    | zero => simp [List.replicate]
    | succ i => simp [List.replicate, ih i]

theorem scanActive_length (l : List Note) :
    ∀ a : List Bool, (scanActive a l).length = a.length := by
  induction l with
  | nil => intro a; rfl
  | cons x rest ih =>
    intro a
    simp only [scanActive]
    rw [ih]
    split
    · simp
    · split <;> simp

theorem clearChosen_length (g : List Note) (chosen : List ℕ) :
    ∀ a : List Bool, (clearChosen g chosen a).length = a.length := by
  induction chosen with
  | nil => intro a; rfl
  | cons c cs ih =>
    intro a
    simp only [clearChosen, List.foldl_cons] at ih ⊢
    rw [ih]
    split <;> simp

theorem count_true_set_false_le (a : List Bool) :
    ∀ i : ℕ, (a.set i false).count true ≤ a.count true := by
  induction a with
  | nil => intro i; simp
  | cons x rest ih =>
    intro i
    cases i with
    | zero =>
      simp only [List.set, List.count_cons]
      have := ih 0
      cases x <;> simp
    | succ i =>
      simp only [List.set, List.count_cons]
      have := ih i
      omega

theorem count_true_set_true_le (a : List Bool) :
    ∀ i : ℕ, (a.set i true).count true ≤ a.count true + 1 := by
  induction a with
  | nil => intro i; simp
  | cons x rest ih =>
    intro i
    cases i with
    | zero =>
      simp only [List.set, List.count_cons]
      cases x <;> simp
    | succ i =>
      simp only [List.set, List.count_cons]
      have := ih i
      omega

theorem count_true_set_false_exact (a : List Bool) :
    ∀ i : ℕ, i < a.length → a.getD i false = true →
      (a.set i false).count true + 1 = a.count true := by
  induction a with
  | nil => intro i h; simp at h
  | cons x rest ih =>
    intro i hlt hget
    cases i with
    | zero =>
      have hx : x = true := hget
      simp only [List.set, List.count_cons, hx]
      simp
    | succ i =>
      have := ih i (by simpa using hlt) hget
      simp only [List.set, List.count_cons]
      omega

theorem countP_range_getD (a : List Bool) :
    (List.range a.length).countP (fun k => a.getD k false) = a.count true := by
  induction a with
  | nil => simp
  | cons x rest ih =>
    have h1 : (List.range (rest.length + 1)).countP
        (fun k => (x :: rest).getD k false)
        = (List.range rest.length).countP (fun k => rest.getD k false)
          + (if x = true then 1 else 0) := by
      rw [List.range_succ_eq_map, List.countP_cons, List.countP_map]
      have h2 : List.countP ((fun k => (x :: rest).getD k false) ∘ Nat.succ)
          (List.range rest.length)
          = (List.range rest.length).countP (fun k => rest.getD k false) := rfl
      rw [h2]
      cases x <;> simp
    rw [List.length_cons, h1, ih, List.count_cons]
    cases x <;> simp

theorem mem_nonTailIdxs (g : List Note) :
    ∀ (j i : ℕ), i ∈ nonTailIdxs j g ↔
      (j ≤ i ∧ i - j < g.length ∧ (noteAt g (i - j)).isTail = false) := by
  induction g with
  | nil => intro j i; simp [nonTailIdxs]
  | cons x rest ih =>
    intro j i
    simp only [nonTailIdxs]
    by_cases hT : x.isTail = true
    · rw [if_pos hT, ih (j + 1) i]
      constructor
      · rintro ⟨h1, h2, h3⟩
        refine ⟨by omega, by simp only [List.length_cons]; omega, ?_⟩
        have hidx : i - j = (i - (j + 1)) + 1 := by omega
        rw [hidx, noteAt_cons_succ]
        exact h3
      · rintro ⟨h1, h2, h3⟩
        have hne : i ≠ j := by
          intro he
          subst he
          have hz : i - i = 0 := by omega
          rw [hz, noteAt_cons_zero] at h3
          exact Bool.false_ne_true (h3.symm.trans hT)
        refine ⟨by omega, by simp only [List.length_cons] at h2; omega, ?_⟩
        have hidx : i - j = (i - (j + 1)) + 1 := by omega
        rw [hidx, noteAt_cons_succ] at h3
        exact h3
    · rw [if_neg hT, List.mem_cons, ih (j + 1) i]
      constructor
      · rintro (rfl | ⟨h1, h2, h3⟩)
        · refine ⟨le_refl i, by simp, ?_⟩
          have hz : i - i = 0 := by omega
          rw [hz, noteAt_cons_zero]
          exact Bool.eq_false_iff.2 hT
        · refine ⟨by omega, by simp only [List.length_cons]; omega, ?_⟩
          have hidx : i - j = (i - (j + 1)) + 1 := by omega
          rw [hidx, noteAt_cons_succ]
          exact h3
      · rintro ⟨h1, h2, h3⟩
        by_cases he : i = j
        · exact Or.inl he
        · refine Or.inr ⟨by omega, by simp only [List.length_cons] at h2; omega, ?_⟩
          have hidx : i - j = (i - (j + 1)) + 1 := by omega
          rw [hidx, noteAt_cons_succ] at h3
          exact h3

theorem nonTailIdxs_nodup (g : List Note) :
    ∀ j : ℕ, (nonTailIdxs j g).Nodup := by
  induction g with
  | nil => intro j; simp [nonTailIdxs]
  | cons x rest ih =>
    intro j
    simp only [nonTailIdxs]
    by_cases hT : x.isTail = true
    · rw [if_pos hT]
      exact ih (j + 1)
    · rw [if_neg hT]
      refine List.Nodup.cons ?_ (ih (j + 1))
      intro hmem
      have := (mem_nonTailIdxs rest (j + 1) j).1 hmem
      omega

theorem nonTailIdxs_length (g : List Note) :
    ∀ j : ℕ, (nonTailIdxs j g).length = g.countP (fun nt => !nt.isTail) := by
  induction g with
  | nil => intro j; simp [nonTailIdxs]
  | cons x rest ih =>
    intro j
    simp only [nonTailIdxs, List.countP_cons]
    by_cases hT : x.isTail = true
    · rw [if_pos hT, ih (j + 1)]
      simp [hT]
    · rw [if_neg hT, List.length_cons, ih (j + 1)]
      have hx : x.isTail = false := Bool.eq_false_iff.2 hT
      simp [hx]

theorem countP_nontail_split (g : List Note) :
    g.countP (fun nt => !nt.isTail) = g.countP (fun nt => nt.isHead)
      + g.countP (fun nt => !nt.isTail && !nt.isHead) := by
  induction g with
  | nil => simp
  | cons x rest ih =>
    simp only [List.countP_cons]
    by_cases hH : x.isHead = true
    · have hT := head_not_tail x hH
      simp only [hH, hT]
      simp
      omega
    · have hH2 : x.isHead = false := Bool.eq_false_iff.2 hH
      by_cases hT : x.isTail = true
      · simp only [hH2, hT]
        simp
        omega
      · have hT2 : x.isTail = false := Bool.eq_false_iff.2 hT
        simp only [hH2, hT2]
        simp
        omega

theorem countP_split_neg (l : List ℕ) (p : ℕ → Bool) :
    l.length = l.countP p + l.countP (fun i => !p i) := by
  induction l with
  | nil => simp
  | cons x rest ih =>
    simp only [List.countP_cons, List.length_cons]
    by_cases hp : p x = true
    · simp only [hp]
      simp
      omega
    · have hp2 : p x = false := Bool.eq_false_iff.2 hp
      simp only [hp2]
      simp
      omega

theorem lastK_cons_neg (x : Note) (xs : List Note) (k : ℕ)
    (hx : isKHT k x = false) : lastK (x :: xs) k = lastK xs k := by
  unfold lastK
  rw [List.filter_cons, if_neg (by simp [hx])]

theorem lastK_cons_pos_some (x : Note) (xs : List Note) (k : ℕ) (e : Note)
    (hx : isKHT k x = true) (h2 : lastK xs k = some e) :
    lastK (x :: xs) k = some e := by
  unfold lastK at h2 ⊢
  rw [List.filter_cons, if_pos hx]
  cases hfl : xs.filter (isKHT k) with
  | nil => rw [hfl] at h2; simp at h2
  | cons y ys =>
    rw [hfl] at h2
    rw [List.getLast?_cons_cons]
    exact h2

theorem lastK_cons_pos_none (x : Note) (xs : List Note) (k : ℕ)
    (hx : isKHT k x = true) (h2 : lastK xs k = none) :
    lastK (x :: xs) k = some x := by
  unfold lastK at h2 ⊢
  rw [List.getLast?_eq_none_iff] at h2
  rw [List.filter_cons, if_pos hx, h2]
  rfl

theorem lastK_none_iff (l : List Note) (k : ℕ) :
    lastK l k = none ↔ ∀ y ∈ l, isKHT k y = false := by
  unfold lastK
  rw [List.getLast?_eq_none_iff, List.filter_eq_nil_iff]
  constructor
  · intro h y hy
    exact Bool.eq_false_iff.2 (h y hy)
  · intro h y hy
    rw [h y hy]
    simp

theorem lastK_mem (l : List Note) (k : ℕ) (e : Note) (h : lastK l k = some e) :
    isKHT k e = true ∧ e ∈ l := by
  unfold lastK at h
  have hm := List.mem_of_mem_getLast? h
  have h2 := List.mem_filter.1 hm
  exact ⟨h2.2, h2.1⟩

theorem lastK_append_nopred (l1 l2 : List Note) (k : ℕ)
    (h : ∀ y ∈ l2, isKHT k y = false) : lastK (l1 ++ l2) k = lastK l1 k := by
  unfold lastK
  rw [List.filter_append]
  have h2 : l2.filter (isKHT k) = [] :=
    List.filter_eq_nil_iff.2 (fun a ha => by rw [h a ha]; simp)
  rw [h2, List.append_nil]

theorem getLast?_append_some {α : Type} (l1 l2 : List α) (e : α)
    (h : l2.getLast? = some e) : (l1 ++ l2).getLast? = some e := by
  induction l1 with
  | nil => simpa using h
  | cons x l1 ih =>
    rw [List.cons_append]
    cases hl : l1 ++ l2 with
    | nil =>
      have h2 : l2 = [] := (List.append_eq_nil.1 hl).2
      rw [h2] at h
      simp at h
    | cons y ys =>
      rw [hl] at ih
      rw [List.getLast?_cons_cons]
      exact ih

theorem lastK_of_decomp (u : List Note) (h : Note) (v : List Note) (k : ℕ)
    (hp : isKHT k h = true) (hv : ∀ y ∈ v, isKHT k y = false) :
    lastK (u ++ h :: v) k = some h := by
  have h1 : lastK (u ++ h :: v) k = lastK (u ++ [h]) k := by
    have h0 : u ++ h :: v = (u ++ [h]) ++ v := by simp
    rw [h0]
    exact lastK_append_nopred _ _ _ hv
  rw [h1]
  unfold lastK
  rw [List.filter_append, List.filter_cons, if_pos hp]
  simp only [List.filter_nil]
  exact List.getLast?_concat _

theorem lastK_decomp_exists (l : List Note) (k : ℕ) :
    ∀ nt : Note, lastK l k = some nt →
      ∃ u v, l = u ++ nt :: v ∧ isKHT k nt = true ∧
        ∀ y ∈ v, isKHT k y = false := by
  induction l with
  | nil => intro nt h; simp [lastK] at h
  | cons x xs ih =>
    intro nt h
    cases hx : isKHT k x with
    | false =>
      rw [lastK_cons_neg x xs k hx] at h
      obtain ⟨u, v, h1, h2, h3⟩ := ih nt h
      exact ⟨x :: u, v, by rw [h1, List.cons_append], h2, h3⟩
    | true =>
      cases h2 : lastK xs k with
      | some e =>
        rw [lastK_cons_pos_some x xs k e hx h2] at h
        injection h with he
        subst he
        obtain ⟨u, v, h1, h2b, h3⟩ := ih e h2
        exact ⟨x :: u, v, by rw [h1, List.cons_append], h2b, h3⟩
      | none =>
        rw [lastK_cons_pos_none x xs k hx h2] at h
        injection h with he
        subst he
        exact ⟨[], xs, rfl, hx, (lastK_none_iff xs k).1 h2⟩

theorem firstP_unique (P : Note → Bool) :
    ∀ (p : List Note) (m : Note) (q s : List Note) (x : Note) (t : List Note),
      p ++ m :: q = s ++ x :: t →
      (∀ y ∈ p, P y = false) → P m = true →
      P x = true → (∀ y ∈ s, P y = false) → x = m := by
  intro p
  induction p with
  | nil =>
    intro m q s x t heq hp hm hx hs
    cases s with
    | nil =>
      rw [List.nil_append, List.nil_append] at heq
      injection heq with h1 _
      exact h1.symm
    | cons w s2 =>
      rw [List.nil_append, List.cons_append] at heq
      injection heq with h1 _
      exfalso
      have hw := hs w (List.mem_cons_self _ _)
      rw [← h1] at hw
      rw [hw] at hm
      exact Bool.false_ne_true hm
  | cons z p2 ih =>
    intro m q s x t heq hp hm hx hs
    cases s with
    | nil =>
      rw [List.nil_append, List.cons_append] at heq
      injection heq with h1 _
      exfalso
      have hz := hp z (List.mem_cons_self _ _)
      rw [h1] at hz
      rw [hz] at hx
      exact Bool.false_ne_true hx
    | cons w s2 =>
      rw [List.cons_append, List.cons_append] at heq
      injection heq with _ h2
      exact ih m q s2 x t h2 (fun y hy => hp y (List.mem_cons_of_mem _ hy)) hm hx
        (fun y hy => hs y (List.mem_cons_of_mem _ hy))

theorem append_cancel_decomp {α : Type} :
    ∀ (v p A B : List α), v ++ A = p ++ B → v.length ≤ p.length →
      ∃ p2, p = v ++ p2 ∧ A = p2 ++ B := by
  intro v
  induction v with
  | nil =>
    intro p A B heq _
    exact ⟨p, rfl, heq⟩
  | cons x v2 ih =>
    intro p A B heq hlen
    cases p with
    | nil => simp at hlen
    | cons w p2 =>
      rw [List.cons_append, List.cons_append] at heq
      injection heq with h1 h2
      obtain ⟨p3, hp3, hA⟩ := ih p2 A B h2 (by simpa using hlen)
      exact ⟨p3, by rw [hp3, ← h1, List.cons_append], hA⟩

theorem drop_append_cons {α : Type} :
    ∀ (u : List α) (x : α) (v : List α), (u ++ x :: v).drop (u.length + 1) = v := by
  intro u
  induction u with
  | nil => intro x v; simp
  | cons w u2 ih =>
    intro x v
    simp only [List.cons_append, List.length_cons, List.drop_succ_cons]
    exact ih x v

theorem mem_noteAt (l : List Note) (y : Note) (hy : y ∈ l) :
    ∃ idx, idx < l.length ∧ noteAt l idx = y := by
  obtain ⟨n, hn⟩ := List.mem_iff_get.1 hy
  exact ⟨n.1, n.2, by rw [noteAt_eq_get l n.1 n.2]; exact hn⟩

/-- The active_notes bit of key k after scanning a note list equals the
verdict of its last key-k head-or-tail event (head sets, tail clears), the
entry bit when there is none. -/
theorem scanActive_getD (k : ℕ) :
    ∀ (l : List Note) (a : List Bool), (∀ x ∈ l, 0 ≤ x.key) → k < a.length →
      (scanActive a l).getD k false =
        (match lastK l k with
         | some nt => nt.isHead
         | none => a.getD k false) := by
  intro l
  induction l with
  | nil => intro a _ _; rfl
  | cons x xs ih =>
    intro a hkeys hk
    simp only [scanActive]
    by_cases hT : x.isTail = true
    · rw [if_pos hT]
      have hlen2 : k < (a.set x.key.toNat false).length := by simpa using hk
      rw [ih (a.set x.key.toNat false)
        (fun y hy => hkeys y (List.mem_cons_of_mem _ hy)) hlen2]
      by_cases hkey : x.key = (k : Int)
      · have hkx : isKHT k x = true := by simp [isKHT, hkey, hT]
        have htn : x.key.toNat = k := by rw [hkey]; rfl
        cases hlx : lastK xs k with
        | some e => rw [lastK_cons_pos_some x xs k e hkx hlx]
        | none =>
          rw [lastK_cons_pos_none x xs k hkx hlx]
          dsimp only
          rw [htn, getD_set_self a k false false hk, tail_not_head x hT]
      · have hkx : isKHT k x = false := by simp [isKHT, hkey]
        rw [lastK_cons_neg x xs k hkx]
        cases hlx : lastK xs k with
        | some e => rfl
        | none =>
          dsimp only
          have hxnn : 0 ≤ x.key := hkeys x (List.mem_cons_self _ _)
          have htn : x.key.toNat ≠ k := by
            intro he
            apply hkey
            rw [← he, Int.toNat_of_nonneg hxnn]
          rw [getD_set_ne a x.key.toNat k false false htn]
    · rw [if_neg hT]
      have hT2 : x.isTail = false := Bool.eq_false_iff.2 hT
      by_cases hH : x.isHead = true
      · rw [if_pos hH]
        have hlen2 : k < (a.set x.key.toNat true).length := by simpa using hk
        rw [ih (a.set x.key.toNat true)
          (fun y hy => hkeys y (List.mem_cons_of_mem _ hy)) hlen2]
        by_cases hkey : x.key = (k : Int)
        · have hkx : isKHT k x = true := by simp [isKHT, hkey, hH]
          have htn : x.key.toNat = k := by rw [hkey]; rfl
          cases hlx : lastK xs k with
          | some e => rw [lastK_cons_pos_some x xs k e hkx hlx]
          | none =>
            rw [lastK_cons_pos_none x xs k hkx hlx]
            dsimp only
            rw [htn, getD_set_self a k true false hk, hH]
        · have hkx : isKHT k x = false := by simp [isKHT, hkey]
          rw [lastK_cons_neg x xs k hkx]
          cases hlx : lastK xs k with
          | some e => rfl
          | none =>
            dsimp only
            have hxnn : 0 ≤ x.key := hkeys x (List.mem_cons_self _ _)
            have htn : x.key.toNat ≠ k := by
              intro he
              apply hkey
              rw [← he, Int.toNat_of_nonneg hxnn]
            rw [getD_set_ne a x.key.toNat k true false htn]
      · rw [if_neg hH]
        have hH2 : x.isHead = false := Bool.eq_false_iff.2 hH
        rw [ih a (fun y hy => hkeys y (List.mem_cons_of_mem _ hy)) hk]
        have hkx : isKHT k x = false := by simp [isKHT, hH2, hT2]
        rw [lastK_cons_neg x xs k hkx]

/-- On notes at or before B, the beat-aware last head-or-tail agrees with
the beat-blind one. -/
theorem lastHT_eq_lastK (l : List Note) (k : ℕ) (B : BeatPos)
    (hb : ∀ x ∈ l, x.beat ≤ B) :
    lastHT l (k : Int) B = lastK l k := by
  unfold lastHT lastK
  congr 1
  apply List.filter_congr
  intro x hx
  simp [isKHT, hb x hx]

theorem lastHT_append_right_some (l1 l2 : List Note) (k : Int) (B : BeatPos)
    (e : Note) (h : lastHT l2 k B = some e) :
    lastHT (l1 ++ l2) k B = some e := by
  unfold lastHT at h ⊢
  rw [List.filter_append]
  exact getLast?_append_some _ _ _ h

theorem lastHT_append_right_none (l1 l2 : List Note) (k : Int) (B : BeatPos)
    (h : lastHT l2 k B = none) : lastHT (l1 ++ l2) k B = lastHT l1 k B := by
  unfold lastHT at h ⊢
  rw [List.filter_append, List.getLast?_eq_none_iff.1 h, List.append_nil]

theorem lastHT_none_of_gt (l : List Note) (k : Int) (B : BeatPos)
    (h : ∀ x ∈ l, B < x.beat) : lastHT l k B = none := by
  unfold lastHT
  rw [List.getLast?_eq_none_iff]
  apply List.filter_eq_nil_iff.2
  intro x hx
  have hlt := h x hx
  have h2 : decide (x.beat ≤ B) = false := by
    simp only [decide_eq_false_iff_not]
    intro hle
    rw [BeatPos.le_def] at hle
    rw [BeatPos.lt_def] at hlt
    omega
  simp [h2]

theorem newHits_append (l1 l2 : List Note) (B : BeatPos) :
    newHits (l1 ++ l2) B = newHits l1 B + newHits l2 B := by
  unfold newHits
  exact List.countP_append _ _ _

theorem newHits_zero_of_ne (l : List Note) (B : BeatPos)
    (h : ∀ x ∈ l, x.beat ≠ B) : newHits l B = 0 := by
  unfold newHits
  apply List.countP_eq_zero.2
  intro x hx
  simp [h x hx]

theorem markChosen_append (chosen : List ℕ) :
    ∀ (u w : List Note) (j : ℕ),
      markChosen chosen j (u ++ w) =
        markChosen chosen j u ++ markChosen chosen (j + u.length) w := by
  intro u
  induction u with
  | nil => intro w j; simp [markChosen]
  | cons x u2 ih =>
    intro w j
    simp only [List.cons_append, markChosen, List.length_cons, List.append_eq]
    rw [ih w (j + 1)]
    have harith : j + 1 + u2.length = j + (u2.length + 1) := by omega
    rw [harith]

theorem mem_markChosen (chosen : List ℕ) :
    ∀ (g : List Note) (j : ℕ) (y : Note), y ∈ markChosen chosen j g →
      ∃ z ∈ g, y.beat = z.beat ∧ y.kind = z.kind ∧ (y = z ∨ y.key = -1) := by
  intro g
  induction g with
  | nil => intro j y h; simp [markChosen] at h
  | cons x g2 ih =>
    intro j y h
    simp only [markChosen] at h
    rcases List.mem_cons.1 h with h1 | h2
    · by_cases hj : j ∈ chosen
      · rw [if_pos hj] at h1
        subst h1
        exact ⟨x, List.mem_cons_self _ _, rfl, rfl, Or.inr rfl⟩
      · rw [if_neg hj] at h1
        exact ⟨x, List.mem_cons_self _ _, by rw [h1], by rw [h1],
          Or.inl h1⟩
    · obtain ⟨z, hz, hb, hk2, hor⟩ := ih (j + 1) y h2
      exact ⟨z, List.mem_cons_of_mem _ hz, hb, hk2, hor⟩

theorem filterOut_markChosen_nokht (chosen : List ℕ) (v : List Note) (j k : ℕ)
    (hv : ∀ y ∈ v, isKHT k y = false) :
    ∀ y ∈ filterOut (markChosen chosen j v), isKHT k y = false := by
  intro y hy
  unfold filterOut at hy
  have h1 := List.mem_filter.1 hy
  obtain ⟨z, hz, hb, hk2, hor⟩ := mem_markChosen chosen v j y h1.1
  rcases hor with rfl | hkey
  · exact hv _ hz
  · exfalso
    have h3 := of_decide_eq_true h1.2
    omega

theorem kht_survivor_orig (chosen : List ℕ) (g : List Note) (j k : ℕ) (y : Note)
    (hy : y ∈ filterOut (markChosen chosen j g)) (hk : isKHT k y = true) :
    ∃ z ∈ g, isKHT k z = true := by
  unfold filterOut at hy
  have h1 := List.mem_filter.1 hy
  obtain ⟨z, hz, hb, hk2, hor⟩ := mem_markChosen chosen g j y h1.1
  rcases hor with rfl | hkey
  · exact ⟨_, hz, hk⟩
  · exfalso
    have h3 := of_decide_eq_true h1.2
    omega

theorem filterOut_markChosen_countP (chosen : List ℕ) (P : Note → Bool) :
    ∀ (g : List Note) (j : ℕ), (∀ x ∈ g, 0 ≤ x.key) →
      (filterOut (markChosen chosen j g)).countP P + posCount chosen P j g =
        g.countP P := by
  intro g
  induction g with
  | nil => intro j _; simp [markChosen, posCount, filterOut]
  | cons x g2 ih =>
    intro j hkeys
    have hx := hkeys x (List.mem_cons_self _ _)
    have hrec := ih (j + 1) (fun y hy => hkeys y (List.mem_cons_of_mem _ hy))
    unfold filterOut at hrec ⊢
    simp only [markChosen, posCount, List.countP_cons]
    by_cases hj : j ∈ chosen
    · have e1 : (if j ∈ chosen ∧ P x = true then 1 else 0)
          = (if P x = true then 1 else 0) := by
        by_cases hP : P x = true
        · rw [if_pos ⟨hj, hP⟩, if_pos hP]
        · rw [if_neg (fun hc => hP hc.2), if_neg hP]
      have e2 : List.filter (fun nt => decide (0 ≤ nt.key))
          ({ x with key := -1 } :: markChosen chosen (j + 1) g2)
          = List.filter (fun nt => decide (0 ≤ nt.key))
            (markChosen chosen (j + 1) g2) := by
        rw [List.filter_cons, if_neg (by simp)]
      rw [if_pos hj, e2, e1]
      omega
    · have e1 : (if j ∈ chosen ∧ P x = true then 1 else 0) = 0 :=
        if_neg (fun hc => hj hc.1)
      have e2 : List.filter (fun nt => decide (0 ≤ nt.key))
          (x :: markChosen chosen (j + 1) g2)
          = x :: List.filter (fun nt => decide (0 ≤ nt.key))
            (markChosen chosen (j + 1) g2) := by
        rw [List.filter_cons, if_pos (decide_eq_true hx)]
      rw [if_neg hj, e2, List.countP_cons, e1]
      omega

theorem posCount_congr_mem (P : Note → Bool) (c1 c2 : List ℕ) :
    ∀ (g : List Note) (j : ℕ), (∀ i, j ≤ i → (i ∈ c1 ↔ i ∈ c2)) →
      posCount c1 P j g = posCount c2 P j g := by
  intro g
  induction g with
  | nil => intro j _; rfl
  | cons x g2 ih =>
    intro j hmem
    simp only [posCount]
    rw [ih (j + 1) (fun i hi => hmem i (by omega))]
    have e1 : (if j ∈ c1 ∧ P x = true then 1 else 0)
        = (if j ∈ c2 ∧ P x = true then 1 else 0) := by
      by_cases h1 : j ∈ c1 ∧ P x = true
      · rw [if_pos h1, if_pos ⟨(hmem j (le_refl j)).1 h1.1, h1.2⟩]
      · rw [if_neg h1, if_neg (fun h2 => h1 ⟨(hmem j (le_refl j)).2 h2.1, h2.2⟩)]
    rw [e1]

theorem countP_guard_mem (f : ℕ → Bool) (j : ℕ) :
    ∀ (c : List ℕ), c.Nodup →
      c.countP (fun i => f i && decide (i = j)) =
        if j ∈ c ∧ f j = true then 1 else 0 := by
  intro c
  induction c with
  | nil => intro _; simp
  | cons x cs ih =>
    intro hnd
    rw [List.nodup_cons] at hnd
    simp only [List.countP_cons]
    rw [ih hnd.2]
    by_cases hx : x = j
    · subst hx
      have e1 : (if x ∈ cs ∧ f x = true then 1 else 0) = 0 :=
        if_neg (fun hc => hnd.1 hc.1)
      rw [e1]
      by_cases hf : f x = true
      · have e2 : (if x ∈ x :: cs ∧ f x = true then 1 else 0) = 1 :=
          if_pos ⟨List.mem_cons_self _ _, hf⟩
        rw [e2]
        simp [hf]
      · have hf2 : f x = false := Bool.eq_false_iff.2 hf
        have e2 : (if x ∈ x :: cs ∧ f x = true then 1 else 0) = 0 :=
          if_neg (fun hc => hf hc.2)
        rw [e2]
        simp [hf2]
    · have hg : (f x && decide (x = j)) = false := by
        simp [hx]
      rw [hg]
      have e1 : (if j ∈ x :: cs ∧ f j = true then 1 else 0)
          = (if j ∈ cs ∧ f j = true then 1 else 0) := by
        by_cases hj : j ∈ cs ∧ f j = true
        · rw [if_pos hj, if_pos ⟨List.mem_cons_of_mem _ hj.1, hj.2⟩]
        · rw [if_neg hj, if_neg ?hneg]
          case hneg =>
            rintro ⟨h1, h2⟩
            rcases List.mem_cons.1 h1 with h3 | h3
            · exact hx h3.symm
            · exact hj ⟨h3, h2⟩
      rw [e1]
      simp

theorem countP_split_guard (f : ℕ → Bool) (j : ℕ) (c : List ℕ) :
    c.countP f = c.countP (fun i => f i && decide (i = j))
      + c.countP (fun i => f i && !decide (i = j)) := by
  induction c with
  | nil => simp
  | cons x cs ih =>
    simp only [List.countP_cons]
    by_cases hx : x = j
    · subst hx
      by_cases hf : f x = true
      · simp only [hf]
        simp
        omega
      · have hf2 : f x = false := Bool.eq_false_iff.2 hf
        simp only [hf2]
        simp
        omega
    · have hd : decide (x = j) = false := by simp [hx]
      by_cases hf : f x = true
      · simp only [hf, hd]
        simp
        omega
      · have hf2 : f x = false := Bool.eq_false_iff.2 hf
        simp only [hf2, hd]
        simp
        omega

/-- posCount over valid distinct positions is a countP over the chosen
positions themselves. -/
theorem posCount_eq_countP (P : Note → Bool) :
    ∀ (g : List Note) (j : ℕ) (chosen : List ℕ), chosen.Nodup →
      (∀ i ∈ chosen, j ≤ i ∧ i - j < g.length) →
      posCount chosen P j g = chosen.countP (fun i => P (noteAt g (i - j))) := by
  intro g
  induction g with
  | nil =>
    intro j chosen _ hmem
    have hc : chosen = [] := by
      cases chosen with
      | nil => rfl
      | cons c cs =>
        have h1 := hmem c (List.mem_cons_self _ _)
        simp at h1
    rw [hc]
    rfl
  | cons x g2 ih =>
    intro j chosen hnd hmem
    simp only [posCount]
    have hsplit := countP_split_guard
      (fun i => P (noteAt (x :: g2) (i - j))) j chosen
    have hguard := countP_guard_mem
      (fun i => P (noteAt (x :: g2) (i - j))) j chosen hnd
    have hguardval : (fun i => P (noteAt (x :: g2) (i - j))) j = P x := by
      simp only [Nat.sub_self]
      rfl
    have hrest : chosen.countP
        (fun i => P (noteAt (x :: g2) (i - j)) && !decide (i = j))
        = (chosen.filter (fun i => !decide (i = j))).countP
          (fun i => P (noteAt (x :: g2) (i - j))) := by
      rw [List.countP_filter]
    have hbridge : (chosen.filter (fun i => !decide (i = j))).countP
        (fun i => P (noteAt (x :: g2) (i - j)))
        = (chosen.filter (fun i => !decide (i = j))).countP
          (fun i => P (noteAt g2 (i - (j + 1)))) := by
      apply List.countP_congr
      intro i hi
      have h1 := List.mem_filter.1 hi
      have h2 : i ≠ j := by
        have := h1.2
        simp at this
        exact this
      have h3 : j ≤ i := (hmem i h1.1).1
      have hidx : i - j = (i - (j + 1)) + 1 := by omega
      rw [hidx, noteAt_cons_succ]
    have hback : (chosen.filter (fun i => !decide (i = j))).countP
        (fun i => P (noteAt g2 (i - (j + 1))))
        = posCount (chosen.filter (fun i => !decide (i = j))) P (j + 1) g2 := by
      rw [ih (j + 1) (chosen.filter (fun i => !decide (i = j)))
        (hnd.filter _) ?hbounds]
      case hbounds =>
        intro i hi
        have h1 := List.mem_filter.1 hi
        have h2 : i ≠ j := by
          have := h1.2
          simp at this
          exact this
        have h3 := hmem i h1.1
        simp only [List.length_cons] at h3
        omega
    have hsame : posCount (chosen.filter (fun i => !decide (i = j))) P (j + 1) g2
        = posCount chosen P (j + 1) g2 := by
      apply posCount_congr_mem
      intro i hi
      rw [List.mem_filter]
      constructor
      · intro h1
        exact h1.1
      · intro h1
        refine ⟨h1, ?_⟩
        simp
        omega
    rw [hsplit, hguard]
    rw [hguardval] at hguard ⊢
    rw [hrest, hbridge, hback, hsame]

theorem set_false_getD_true (a : List Bool) :
    ∀ (i k : ℕ), (a.set i false).getD k false = true → a.getD k false = true := by
  induction a with
  | nil => intro i k h; simp at h
  | cons x rest ih =>
    intro i k h
    cases i with
    | zero =>
      cases k with
      | zero => simp [List.set] at h
      | succ k => exact h
    | succ i =>
      cases k with
      | zero => exact h
      | succ k => exact ih i k h

theorem clearChosen_getD_true (g : List Note) (k : ℕ) :
    ∀ (chosen : List ℕ) (a : List Bool),
      (clearChosen g chosen a).getD k false = true →
      a.getD k false = true := by
  intro chosen
  induction chosen with
  | nil => intro a h; exact h
  | cons c cs ih =>
    intro a h
    unfold clearChosen at h ih
    rw [List.foldl_cons] at h
    have h2 := ih _ h
    dsimp only at h2
    split at h2
    · exact set_false_getD_true a _ k h2
    · exact h2

theorem clearChosen_getD_eq (g : List Note) (k : ℕ) :
    ∀ (chosen : List ℕ) (a : List Bool),
      (∀ i ∈ chosen, (noteAt g i).isHead = true → (noteAt g i).key.toNat ≠ k) →
      (clearChosen g chosen a).getD k false = a.getD k false := by
  intro chosen
  induction chosen with
  | nil => intro a _; rfl
  | cons c cs ih =>
    intro a hno
    unfold clearChosen at ih ⊢
    rw [List.foldl_cons]
    rw [ih _ (fun i hi => hno i (List.mem_cons_of_mem _ hi))]
    dsimp only
    split
    · rename_i hH
      exact getD_set_ne a _ k false false (hno c (List.mem_cons_self _ _) hH)
    · rfl

theorem clearChosen_getD_cleared (g : List Note) (k : ℕ) :
    ∀ (chosen : List ℕ) (a : List Bool),
      (∃ i ∈ chosen, (noteAt g i).isHead = true ∧ (noteAt g i).key.toNat = k) →
      k < a.length →
      (clearChosen g chosen a).getD k false = false := by
  intro chosen
  induction chosen with
  | nil =>
    intro a h _
    obtain ⟨i, hi, _⟩ := h
    simp at hi
  | cons c cs ih =>
    intro a hex hk
    obtain ⟨i, hi, hH, hkey⟩ := hex
    rcases List.mem_cons.1 hi with rfl | hics
    · unfold clearChosen
      rw [List.foldl_cons]
      cases hres : (List.foldl
          (fun acc i =>
            let nt := noteAt g i
            if nt.isHead then acc.set nt.key.toNat false else acc)
          ((fun acc i =>
            let nt := noteAt g i
            if nt.isHead then acc.set nt.key.toNat false else acc) a i) cs).getD
          k false with
      | false => rfl
      | true =>
        exfalso
        have h2 := clearChosen_getD_true g k cs _ hres
        dsimp only at h2
        rw [if_pos hH, hkey] at h2
        rw [getD_set_self a k false false hk] at h2
        exact Bool.false_ne_true h2
    · unfold clearChosen
      rw [List.foldl_cons]
      apply ih
      · exact ⟨i, hics, hH, hkey⟩
      · dsimp only
        split <;> simpa using hk

theorem clearChosen_count_le (g : List Note) :
    ∀ (chosen : List ℕ) (a : List Bool),
      (clearChosen g chosen a).count true ≤ a.count true := by
  intro chosen
  induction chosen with
  | nil => intro a; exact le_refl _
  | cons c cs ih =>
    intro a
    unfold clearChosen at ih ⊢
    rw [List.foldl_cons]
    refine le_trans (ih _) ?_
    dsimp only
    split
    · exact count_true_set_false_le a _
    · exact le_refl _

theorem clearChosen_count (g : List Note) :
    ∀ (chosen : List ℕ) (a : List Bool),
      chosen.Nodup →
      (∀ i ∈ chosen, (noteAt g i).isHead = true →
        a.getD (noteAt g i).key.toNat false = true) →
      (∀ i ∈ chosen, ∀ i2 ∈ chosen, i ≠ i2 → (noteAt g i).isHead = true →
        (noteAt g i2).isHead = true →
        (noteAt g i).key.toNat ≠ (noteAt g i2).key.toNat) →
      (∀ i ∈ chosen, (noteAt g i).isHead = true →
        (noteAt g i).key.toNat < a.length) →
      (clearChosen g chosen a).count true
        + chosen.countP (fun i => (noteAt g i).isHead) = a.count true := by
  intro chosen
  induction chosen with
  | nil => intro a _ _ _ _; simp [clearChosen]
  | cons c cs ih =>
    intro a hnd htrue hdk hklt
    rw [List.nodup_cons] at hnd
    unfold clearChosen at ih ⊢
    rw [List.foldl_cons, List.countP_cons]
    by_cases hH : (noteAt g c).isHead = true
    · have hkc : (noteAt g c).key.toNat < a.length :=
        hklt c (List.mem_cons_self _ _) hH
      have hac : a.getD (noteAt g c).key.toNat false = true :=
        htrue c (List.mem_cons_self _ _) hH
      have hexact := count_true_set_false_exact a (noteAt g c).key.toNat hkc hac
      have hrec := ih (a.set (noteAt g c).key.toNat false) hnd.2 ?htrue2 ?hdk2 ?hklt2
      case htrue2 =>
        intro i hi hHi
        have hne : i ≠ c := fun he => hnd.1 (he ▸ hi)
        rw [getD_set_ne a _ _ false false
          (hdk c (List.mem_cons_self _ _) i (List.mem_cons_of_mem _ hi)
            (fun he => hne he.symm) hH hHi)]
        exact htrue i (List.mem_cons_of_mem _ hi) hHi
      case hdk2 =>
        intro i h1 i2 h2 h3 h4 h5
        exact hdk i (List.mem_cons_of_mem _ h1) i2 (List.mem_cons_of_mem _ h2)
          h3 h4 h5
      case hklt2 =>
        intro i hi hHi
        have := hklt i (List.mem_cons_of_mem _ hi) hHi
        simpa using this
      have hstep : List.foldl
          (fun acc i =>
            let nt := noteAt g i
            if nt.isHead then acc.set nt.key.toNat false else acc)
          ((fun acc i =>
            let nt := noteAt g i
            if nt.isHead then acc.set nt.key.toNat false else acc) a c) cs
          = List.foldl
            (fun acc i =>
              let nt := noteAt g i
              if nt.isHead then acc.set nt.key.toNat false else acc)
            (a.set (noteAt g c).key.toNat false) cs := by
        congr 1
        dsimp only
        rw [if_pos hH]
      rw [hstep]
      have hif : (if (noteAt g c).isHead = true then 1 else 0) = 1 := if_pos hH
      rw [hif]
      omega
    · have hid : List.foldl
          (fun acc i =>
            let nt := noteAt g i
            if nt.isHead then acc.set nt.key.toNat false else acc)
          ((fun acc i =>
            let nt := noteAt g i
            if nt.isHead then acc.set nt.key.toNat false else acc) a c) cs
          = List.foldl
            (fun acc i =>
              let nt := noteAt g i
              if nt.isHead then acc.set nt.key.toNat false else acc) a cs := by
        congr 1
        dsimp only
        rw [if_neg hH]
      have hrec := ih a hnd.2
        (fun i hi => htrue i (List.mem_cons_of_mem _ hi))
        (fun i h1 i2 h2 => hdk i (List.mem_cons_of_mem _ h1) i2
          (List.mem_cons_of_mem _ h2))
        (fun i hi => hklt i (List.mem_cons_of_mem _ hi))
      have hif : (if (noteAt g c).isHead = true then 1 else 0) = 0 := if_neg hH
      rw [hid, hif]
      omega

theorem scanActive_count_le (g : List Note) :
    ∀ a : List Bool, (scanActive a g).count true ≤
      a.count true + g.countP (fun nt => nt.isHead) := by
  induction g with
  | nil => intro a; simp [scanActive]
  | cons x rest ih =>
    intro a
    simp only [scanActive, List.countP_cons]
    refine le_trans (ih _) ?_
    by_cases hT : x.isTail = true
    · rw [if_pos hT]
      have h1 := count_true_set_false_le a x.key.toNat
      have hH : x.isHead = false := tail_not_head x hT
      have hif : (if x.isHead = true then 1 else 0) = 0 := by rw [hH]; simp
      omega
    · rw [if_neg hT]
      by_cases hH : x.isHead = true
      · rw [if_pos hH]
        have h1 := count_true_set_true_le a x.key.toNat
        have hif : (if x.isHead = true then 1 else 0) = 1 := if_pos hH
        omega
      · have hif : (if x.isHead = true then 1 else 0) = 0 := if_neg hH
        rw [if_neg hH]
        omega

theorem noteAt_append_mid2 (u : List Note) (x : Note) (v : List Note) :
    noteAt (u ++ x :: v) u.length = x := by
  have h := noteAt_append_right u (x :: v) 0
  simpa [noteAt_cons_zero] using h

theorem nontailsDistinct_unique_pos (g : List Note) (hnd : NontailsDistinct g)
    (hbeats : ∀ x ∈ g, ∀ y ∈ g, x.beat = y.beat) (i j : ℕ)
    (hi : i < g.length) (hj : j < g.length)
    (hti : (noteAt g i).isTail = false) (htj : (noteAt g j).isTail = false)
    (hkey : (noteAt g i).key = (noteAt g j).key) : i = j := by
  by_contra hne
  rcases Nat.lt_or_ge i j with h | h
  · have h2 := hnd j (List.mem_range.2 hj) i (List.mem_range.2 h)
      (hbeats _ (noteAt_mem g j hj) _ (noteAt_mem g i hi)) htj hti
    exact h2 hkey.symm
  · have h3 : j < i := by
      rcases Nat.lt_or_ge j i with h4 | h4
      · exact h4
      · exact absurd (by omega : i = j) hne
    have h2 := hnd i (List.mem_range.2 hi) j (List.mem_range.2 h3)
      (hbeats _ (noteAt_mem g i hi) _ (noteAt_mem g j hj)) hti htj
    exact h2 hkey

theorem kht_survivor_self (chosen : List ℕ) (g : List Note) (j k : ℕ) (y : Note)
    (hy : y ∈ filterOut (markChosen chosen j g)) (hk : isKHT k y = true) :
    y ∈ g := by
  unfold filterOut at hy
  have h1 := List.mem_filter.1 hy
  obtain ⟨z, hz, _, _, hor⟩ := mem_markChosen chosen g j y h1.1
  rcases hor with rfl | hkey
  · exact hz
  · exfalso
    have h3 := of_decide_eq_true h1.2
    omega

theorem mem_markChosen_of_unmarked (chosen : List ℕ) :
    ∀ (g : List Note) (j idx : ℕ), idx < g.length → (j + idx) ∉ chosen →
      noteAt g idx ∈ markChosen chosen j g := by
  intro g
  induction g with
  | nil => intro j idx h _; simp at h
  | cons x g2 ih =>
    intro j idx hlt hnm
    simp only [markChosen]
    cases idx with
    | zero =>
      rw [noteAt_cons_zero]
      have hj : j ∉ chosen := by simpa using hnm
      rw [if_neg hj]
      exact List.mem_cons_self _ _
    | succ idx =>
      rw [noteAt_cons_succ]
      refine List.mem_cons_of_mem _ (ih (j + 1) idx (by simpa using hlt) ?_)
      intro hc
      apply hnm
      have harith : j + 1 + idx = j + (idx + 1) := by omega
      rw [harith] at hc
      exact hc

/-- Central per-group correspondence: the active_notes bit of key k after
scanning a beat group and clearing the removed heads equals the verdict of
the last surviving key-k head-or-tail of the group (entry bit if none). -/
theorem groupCorrespond (g : List Note) (chosen : List ℕ) (a : List Bool)
    (k : ℕ) (hk : k < a.length)
    (hkeys : ∀ x ∈ g, 0 ≤ x.key)
    (hnd : NontailsDistinct g)
    (hbeats : ∀ x ∈ g, ∀ y ∈ g, x.beat = y.beat)
    (hpool : ∀ i ∈ chosen, i < g.length ∧ (noteAt g i).isTail = false)
    (hJ : a.getD k false = true →
      ∀ u x v, g = u ++ x :: v → isKHT k x = true →
        (∀ y ∈ u, isKHT k y = false) → x.isTail = true) :
    (clearChosen g chosen (scanActive a g)).getD k false =
      (match lastK (filterOut (markChosen chosen 0 g)) k with
       | some nt => nt.isHead
       | none => a.getD k false) := by
  have hlen1 : k < (scanActive a g).length := by
    rw [scanActive_length]; exact hk
  have ha1 := scanActive_getD k g a hkeys hk
  cases hlk : lastK g k with
  | none =>
    have hnog : ∀ y ∈ g, isKHT k y = false := (lastK_none_iff g k).1 hlk
    have hSnone : lastK (filterOut (markChosen chosen 0 g)) k = none := by
      rw [lastK_none_iff]
      intro y hy
      cases hres : isKHT k y with
      | false => rfl
      | true =>
        exfalso
        obtain ⟨z, hz, hzk⟩ := kht_survivor_orig chosen g 0 k y hy hres
        rw [hnog z hz] at hzk
        exact Bool.false_ne_true hzk
    rw [hSnone]
    dsimp only
    have hnoclear : ∀ i ∈ chosen, (noteAt g i).isHead = true →
        (noteAt g i).key.toNat ≠ k := by
      intro i hi hH hkt
      have hilt := (hpool i hi).1
      have hmemi := noteAt_mem g i hilt
      have hkht : isKHT k (noteAt g i) = true := by
        have hnn : 0 ≤ (noteAt g i).key := hkeys _ hmemi
        have hke : (noteAt g i).key = (k : Int) := by
          rw [← hkt, Int.toNat_of_nonneg hnn]
        simp [isKHT, hke, hH]
      rw [hnog _ hmemi] at hkht
      exact Bool.false_ne_true hkht
    rw [clearChosen_getD_eq g k chosen _ hnoclear, ha1, hlk]
  | some nt =>
    obtain ⟨u, v, hguv, hkht, hvno⟩ := lastK_decomp_exists g k nt hlk
    have hntg : nt ∈ g := by
      rw [hguv]
      exact List.mem_append_right _ (List.mem_cons_self _ _)
    have hkeyk : nt.key = (k : Int) := by
      have h1 := hkht
      simp only [isKHT, Bool.and_eq_true, decide_eq_true_eq] at h1
      exact h1.1
    have hnnnt : 0 ≤ nt.key := hkeys nt hntg
    have ha1k : (scanActive a g).getD k false = nt.isHead := by
      rw [ha1, hlk]
    have hpos : noteAt g u.length = nt := by
      rw [hguv]
      exact noteAt_append_mid2 u nt v
    have hulen : u.length < g.length := by
      rw [hguv]
      simp only [List.length_append, List.length_cons]
      omega
    have hvS : ∀ y ∈ filterOut (markChosen chosen (u.length + 1) v),
        isKHT k y = false :=
      filterOut_markChosen_nokht chosen v (u.length + 1) k hvno
    cases hT : nt.isTail with
    | true =>
      have hHn : nt.isHead = false := tail_not_head nt hT
      have hnotch : u.length ∉ chosen := by
        intro hchm
        have h2 := (hpool _ hchm).2
        rw [hpos] at h2
        rw [hT] at h2
        exact absurd h2 (by simp)
      have hmc : markChosen chosen 0 g =
          markChosen chosen 0 u ++ nt :: markChosen chosen (u.length + 1) v := by
        rw [hguv, markChosen_append]
        congr 1
        simp only [Nat.zero_add, markChosen]
        rw [if_neg hnotch]
      have hS : filterOut (markChosen chosen 0 g) =
          filterOut (markChosen chosen 0 u) ++ nt ::
            filterOut (markChosen chosen (u.length + 1) v) := by
        rw [hmc]
        unfold filterOut
        rw [List.filter_append, List.filter_cons, if_pos (decide_eq_true hnnnt)]
      have hSlast : lastK (filterOut (markChosen chosen 0 g)) k = some nt := by
        rw [hS]
        exact lastK_of_decomp _ nt _ k hkht hvS
      rw [hSlast]
      dsimp only
      rw [hHn]
      cases hres : (clearChosen g chosen (scanActive a g)).getD k false with
      | false => rfl
      | true =>
        exfalso
        have h2 := clearChosen_getD_true g k chosen _ hres
        rw [ha1k, hHn] at h2
        exact Bool.false_ne_true h2
    | false =>
      have hH : nt.isHead = true := by
        have h1 := hkht
        simp only [isKHT, Bool.and_eq_true] at h1
        have h2 := h1.2
        rw [hT] at h2
        simpa using h2
      by_cases hch : u.length ∈ chosen
      · have ha2 : (clearChosen g chosen (scanActive a g)).getD k false = false := by
          apply clearChosen_getD_cleared g k chosen _ ?_ hlen1
          refine ⟨u.length, hch, ?_, ?_⟩
          · rw [hpos]; exact hH
          · rw [hpos, hkeyk]; rfl
        have hmc2 : markChosen chosen 0 g =
            markChosen chosen 0 u ++ { nt with key := -1 } ::
              markChosen chosen (u.length + 1) v := by
          rw [hguv, markChosen_append]
          congr 1
          simp only [Nat.zero_add, markChosen]
          rw [if_pos hch]
        have hS2 : filterOut (markChosen chosen 0 g) =
            filterOut (markChosen chosen 0 u) ++
              filterOut (markChosen chosen (u.length + 1) v) := by
          rw [hmc2]
          unfold filterOut
          rw [List.filter_append, List.filter_cons, if_neg (by simp)]
        have hSlast2 : lastK (filterOut (markChosen chosen 0 g)) k =
            lastK (filterOut (markChosen chosen 0 u)) k := by
          rw [hS2]
          exact lastK_append_nopred _ _ k hvS
        rw [hSlast2]
        cases hsu : lastK (filterOut (markChosen chosen 0 u)) k with
        | some e =>
          obtain ⟨hekht, hemem⟩ := lastK_mem _ k e hsu
          have heu : e ∈ u := kht_survivor_self chosen u 0 k e hemem hekht
          have hekey : e.key = (k : Int) := by
            have h1 := hekht
            simp only [isKHT, Bool.and_eq_true, decide_eq_true_eq] at h1
            exact h1.1
          have het : e.isTail = true := by
            cases hcon : e.isTail with
            | true => rfl
            | false =>
              exfalso
              obtain ⟨idx, hidxlt, hidxat⟩ := mem_noteAt u e heu
              have hgidx : noteAt g idx = e := by
                rw [hguv, noteAt_append_left u (nt :: v) idx hidxlt, hidxat]
              have hkeyeq : (noteAt g idx).key = (noteAt g u.length).key := by
                rw [hgidx, hpos, hekey, hkeyk]
              have heq := nontailsDistinct_unique_pos g hnd hbeats idx u.length
                (by omega) hulen (by rw [hgidx]; exact hcon)
                (by rw [hpos]; exact hT) hkeyeq
              omega
          dsimp only
          rw [ha2, tail_not_head e het]
        | none =>
          dsimp only
          rw [ha2]
          cases hak : a.getD k false with
          | false => rfl
          | true =>
            exfalso
            have huno : ∀ y ∈ u, isKHT k y = false := by
              intro y hyu
              cases hyk : isKHT k y with
              | false => rfl
              | true =>
                exfalso
                have hykey : y.key = (k : Int) := by
                  have h1 := hyk
                  simp only [isKHT, Bool.and_eq_true, decide_eq_true_eq] at h1
                  exact h1.1
                obtain ⟨idx, hidxlt, hidxat⟩ := mem_noteAt u y hyu
                have hgidx : noteAt g idx = y := by
                  rw [hguv, noteAt_append_left u (nt :: v) idx hidxlt, hidxat]
                by_cases hyt : y.isTail = true
                · have hidxnm : idx ∉ chosen := by
                    intro hcm
                    have h2 := (hpool _ hcm).2
                    rw [hgidx, hyt] at h2
                    exact absurd h2 (by simp)
                  have hsurv : y ∈ filterOut (markChosen chosen 0 u) := by
                    unfold filterOut
                    refine List.mem_filter.2 ⟨?_, ?_⟩
                    · have h3 := mem_markChosen_of_unmarked chosen u 0 idx
                        hidxlt (by simpa using hidxnm)
                      rw [hidxat] at h3
                      exact h3
                    · have : 0 ≤ y.key := by rw [hykey]; positivity
                      exact decide_eq_true this
                  have h4 := (lastK_none_iff _ k).1 hsu y hsurv
                  rw [hyk] at h4
                  exact Bool.false_ne_true h4.symm
                · have hytf : y.isTail = false := Bool.eq_false_iff.2 hyt
                  have hkeyeq : (noteAt g idx).key = (noteAt g u.length).key := by
                    rw [hgidx, hpos, hykey, hkeyk]
                  have heq := nontailsDistinct_unique_pos g hnd hbeats idx
                    u.length (by omega) hulen (by rw [hgidx]; exact hytf)
                    (by rw [hpos]; exact hT) hkeyeq
                  omega
            have hcontra := hJ hak u nt v hguv hkht huno
            rw [hT] at hcontra
            exact Bool.false_ne_true hcontra
      · have hnoclear2 : ∀ i ∈ chosen, (noteAt g i).isHead = true →
            (noteAt g i).key.toNat ≠ k := by
          intro i hi hHi hkt
          have hilt := (hpool i hi).1
          have htin : (noteAt g i).isTail = false := (hpool i hi).2
          have hkeyi : (noteAt g i).key = (k : Int) := by
            rw [← hkt, Int.toNat_of_nonneg (hkeys _ (noteAt_mem g i hilt))]
          have hkeyeq : (noteAt g i).key = (noteAt g u.length).key := by
            rw [hkeyi, hpos, hkeyk]
          have heq := nontailsDistinct_unique_pos g hnd hbeats i u.length hilt
            hulen htin (by rw [hpos]; exact hT) hkeyeq
          rw [heq] at hi
          exact hch hi
        have ha2t : (clearChosen g chosen (scanActive a g)).getD k false = true := by
          rw [clearChosen_getD_eq g k chosen _ hnoclear2, ha1k, hH]
        have hmc : markChosen chosen 0 g =
            markChosen chosen 0 u ++ nt :: markChosen chosen (u.length + 1) v := by
          rw [hguv, markChosen_append]
          congr 1
          simp only [Nat.zero_add, markChosen]
          rw [if_neg hch]
        have hS : filterOut (markChosen chosen 0 g) =
            filterOut (markChosen chosen 0 u) ++ nt ::
              filterOut (markChosen chosen (u.length + 1) v) := by
          rw [hmc]
          unfold filterOut
          rw [List.filter_append, List.filter_cons, if_pos (decide_eq_true hnnnt)]
        have hSlast : lastK (filterOut (markChosen chosen 0 g)) k = some nt := by
          rw [hS]
          exact lastK_of_decomp _ nt _ k hkht hvS
        rw [hSlast]
        dsimp only
        rw [ha2t, hH]

/-- After a head inside a constant-beat group, the group holds no other
note on the same key (the matching tail lies at a strictly later beat and
nothing intervenes). -/
theorem no_key_after_head (g frest : List Note)
    (hbeats : ∀ x ∈ g, ∀ y ∈ g, x.beat = y.beat)
    (hpair : ∀ s h t, g ++ frest = s ++ h :: t → h.isHead = true →
      ∃ p m q, t = p ++ m :: q ∧ (∀ y ∈ p, y.key ≠ h.key) ∧
        m.key = h.key ∧ m.isTail = true ∧ h.beat < m.beat)
    (i : ℕ) (hi : i < g.length) (hH : (noteAt g i).isHead = true) :
    ∀ y ∈ g.drop (i + 1), y.key ≠ (noteAt g i).key := by
  intro y hy
  have hdec := noteAt_cons_drop g i hi
  have hfull : g ++ frest = g.take i ++ noteAt g i :: (g.drop (i + 1) ++ frest) := by
    conv_lhs => rw [hdec]
    rw [List.append_assoc, List.cons_append]
  obtain ⟨p, m, q, hpmq, hpk, hmk, hmt, hmb⟩ := hpair _ _ _ hfull hH
  obtain ⟨idx, hidxlt, hidxat⟩ := mem_noteAt (g.drop (i + 1)) y hy
  rcases Nat.lt_or_ge idx p.length with hcase | hcase
  · have h1 : noteAt (g.drop (i + 1) ++ frest) idx = noteAt p idx := by
      rw [hpmq, noteAt_append_left _ _ _ hcase]
    have h2 : noteAt (g.drop (i + 1) ++ frest) idx = y := by
      rw [noteAt_append_left _ _ _ hidxlt, hidxat]
    have h3 : y = noteAt p idx := by rw [← h2, h1]
    rw [h3]
    exact hpk _ (noteAt_mem p idx hcase)
  · exfalso
    have hplt : p.length < (g.drop (i + 1)).length := by omega
    have h1 : noteAt (g.drop (i + 1) ++ frest) p.length = m := by
      rw [hpmq]
      exact noteAt_append_mid2 p m q
    have h2 : noteAt (g.drop (i + 1) ++ frest) p.length
        = noteAt (g.drop (i + 1)) p.length := noteAt_append_left _ _ _ hplt
    have hmm : m ∈ g.drop (i + 1) := by
      rw [h2] at h1
      rw [← h1]
      exact noteAt_mem _ _ hplt
    have hmg : m ∈ g := List.mem_of_mem_drop hmm
    have hbm : (noteAt g i).beat = m.beat :=
      hbeats _ (noteAt_mem g i hi) m hmg
    rw [hbm, BeatPos.lt_def] at hmb
    omega

/-- Invariant restoration: a bit that is still set after a group points at
a suffix whose first key-k head-or-tail is a tail. -/
theorem J_restore (g frest : List Note) (chosen : List ℕ) (a : List Bool)
    (kc : ℕ)
    (hlen : a.length = kc)
    (hkeys : ∀ x ∈ g, 0 ≤ x.key)
    (hbeatsg : ∀ x ∈ g, ∀ y ∈ g, x.beat = y.beat)
    (hpair : ∀ s h t, g ++ frest = s ++ h :: t → h.isHead = true →
      ∃ p m q, t = p ++ m :: q ∧ (∀ y ∈ p, y.key ≠ h.key) ∧
        m.key = h.key ∧ m.isTail = true ∧ h.beat < m.beat)
    (hJ : ∀ k, k < kc → a.getD k false = true →
      ∀ s x t, g ++ frest = s ++ x :: t → isKHT k x = true →
        (∀ y ∈ s, isKHT k y = false) → x.isTail = true) :
    ∀ k, k < kc → (clearChosen g chosen (scanActive a g)).getD k false = true →
      ∀ s x t, frest = s ++ x :: t → isKHT k x = true →
        (∀ y ∈ s, isKHT k y = false) → x.isTail = true := by
  intro k hkc ha2 s x t hdec hxk hsno
  have hk : k < a.length := by omega
  have ha1 : (scanActive a g).getD k false = true :=
    clearChosen_getD_true g k chosen _ ha2
  rw [scanActive_getD k g a hkeys hk] at ha1
  cases hlk : lastK g k with
  | none =>
    rw [hlk] at ha1
    dsimp only at ha1
    have hfull : g ++ frest = (g ++ s) ++ x :: t := by
      rw [hdec, List.append_assoc]
    apply hJ k hkc ha1 (g ++ s) x t hfull hxk
    intro y hy
    rcases List.mem_append.1 hy with h1 | h1
    · exact (lastK_none_iff g k).1 hlk y h1
    · exact hsno y h1
  | some nt =>
    rw [hlk] at ha1
    dsimp only at ha1
    obtain ⟨u, v, hguv, hkht, hvno⟩ := lastK_decomp_exists g k nt hlk
    have hfull : g ++ frest = u ++ nt :: (v ++ frest) := by
      rw [hguv, List.append_assoc, List.cons_append]
    obtain ⟨p, m, q, hpmq, hpk, hmk, hmt, hmb⟩ := hpair u nt (v ++ frest) hfull ha1
    have hkeyk : nt.key = (k : Int) := by
      have h1 := hkht
      simp only [isKHT, Bool.and_eq_true, decide_eq_true_eq] at h1
      exact h1.1
    have hntg : nt ∈ g := by
      rw [hguv]
      exact List.mem_append_right _ (List.mem_cons_self _ _)
    have hvlp : v.length ≤ p.length := by
      by_contra hcon
      push_neg at hcon
      have h1 : noteAt (v ++ frest) p.length = m := by
        rw [hpmq]
        exact noteAt_append_mid2 p m q
      have h2 : noteAt (v ++ frest) p.length = noteAt v p.length :=
        noteAt_append_left _ _ _ hcon
      have hmv : m ∈ v := by
        rw [h2] at h1
        rw [← h1]
        exact noteAt_mem v _ hcon
      have hvmg : m ∈ g := by
        rw [hguv]
        exact List.mem_append_right _ (List.mem_cons_of_mem _ hmv)
      have hb1 : nt.beat = m.beat := hbeatsg nt hntg m hvmg
      rw [hb1, BeatPos.lt_def] at hmb
      omega
    obtain ⟨p2, hp2, hfr⟩ := append_cancel_decomp v p frest (m :: q) hpmq hvlp
    have hmkht : isKHT k m = true := by
      simp [isKHT, hmk, hkeyk, hmt]
    have hp2no : ∀ y ∈ p2, isKHT k y = false := by
      intro y hy
      have hyp : y ∈ p := by
        rw [hp2]
        exact List.mem_append_right _ hy
      have := hpk y hyp
      rw [hkeyk] at this
      simp [isKHT, this]
    have hxm : x = m :=
      firstP_unique (isKHT k) p2 m q s x t (by rw [← hfr, hdec]) hp2no hmkht
        hxk hsno
    rw [hxm]
    exact hmt

theorem limitGo_beats (select : ℕ → List ℕ → ℕ → List ℕ) (maxSim : ℕ) :
    ∀ (gs : List (List Note)) (n : ℕ) (a : List Bool) (y : Note),
      y ∈ (limitGo select maxSim n a gs).flatten →
      ∃ gr ∈ gs, ∃ x ∈ gr, y.beat = x.beat := by
  intro gs
  induction gs with
  | nil => intro n a y h; simp [limitGo] at h
  | cons g rest ih =>
    intro n a y h
    simp only [limitGo, List.flatten_cons] at h
    rcases List.mem_append.1 h with h1 | h1
    · unfold limitGroupStep at h1
      dsimp only at h1
      obtain ⟨z, hz, hb, _, _⟩ := mem_markChosen _ g 0 y h1
      exact ⟨g, List.mem_cons_self _ _, z, hz, hb⟩
    · obtain ⟨gr, hgr, x, hx, hb⟩ := ih (n + 1) _ y h1
      exact ⟨gr, List.mem_cons_of_mem _ hgr, x, hx, hb⟩

theorem chunkBeatsGo_flatten :
    ∀ (N : ℕ) (l : List Note), l.length ≤ N →
      (chunkBeatsGo N l).flatten = l := by
  intro N
  induction N with
  | zero =>
    intro l h
    cases l with
    | nil => rfl
    | cons x rest => simp at h
  | succ N ih =>
    intro l h
    cases l with
    | nil => rfl
    | cons n rest =>
      rw [chunkBeatsGo, List.flatten_cons]
      rw [ih (rest.dropWhile (fun x => decide (x.beat = n.beat))) ?hlen]
      · rw [List.cons_append, List.takeWhile_append_dropWhile]
      case hlen =>
        have h2 := (List.dropWhile_suffix
          (fun x => decide (x.beat = n.beat)) (l := rest)).length_le
        simp only [List.length_cons] at h
        omega

theorem chunkBeats_flatten (l : List Note) : (chunkBeats l).flatten = l :=
  chunkBeatsGo_flatten l.length l (le_refl _)

theorem chunkBeatsGo_const :
    ∀ (N : ℕ) (l : List Note), l.length ≤ N →
      ∀ g ∈ chunkBeatsGo N l, ∀ x ∈ g, ∀ y ∈ g, x.beat = y.beat := by
  intro N
  induction N with
  | zero =>
    intro l h g hg
    cases l with
    | nil => simp [chunkBeatsGo] at hg
    | cons x rest => simp at h
  | succ N ih =>
    intro l h g hg
    cases l with
    | nil => simp [chunkBeatsGo] at hg
    | cons n rest =>
      rw [chunkBeatsGo] at hg
      rcases List.mem_cons.1 hg with rfl | h2
      · intro x hx y hy
        have hbx : x.beat = n.beat := by
          rcases List.mem_cons.1 hx with rfl | h3
          · rfl
          · have h4 := List.mem_takeWhile_imp h3
            exact of_decide_eq_true h4
        have hby : y.beat = n.beat := by
          rcases List.mem_cons.1 hy with rfl | h3
          · rfl
          · have h4 := List.mem_takeWhile_imp h3
            exact of_decide_eq_true h4
        rw [hbx, hby]
      · refine ih (rest.dropWhile (fun x => decide (x.beat = n.beat))) ?_ g h2
        have h3 := (List.dropWhile_suffix
          (fun x => decide (x.beat = n.beat)) (l := rest)).length_le
        simp only [List.length_cons] at h
        omega

theorem chunkBeats_const (l : List Note) :
    ∀ g ∈ chunkBeats l, ∀ x ∈ g, ∀ y ∈ g, x.beat = y.beat :=
  chunkBeatsGo_const l.length l (le_refl _)

theorem dropWhile_beats_gt :
    ∀ (rest : List Note) (n : Note), SortedBeats (n :: rest) →
      ∀ y ∈ rest.dropWhile (fun x => decide (x.beat = n.beat)),
        n.beat < y.beat := by
  intro rest
  induction rest with
  | nil => intro n _ y h; simp at h
  | cons r rest2 ih =>
    intro n hs y hy
    rw [List.dropWhile_cons] at hy
    by_cases hp : r.beat = n.beat
    · rw [if_pos (decide_eq_true hp)] at hy
      have hs2 : SortedBeats (n :: rest2) := by
        have hsub : List.Sublist (n :: rest2) (n :: r :: rest2) :=
          List.Sublist.cons₂ n (List.sublist_cons_self r rest2)
        exact List.Pairwise.sublist hsub hs
      exact ih n hs2 y hy
    · rw [if_neg (by simp [hp])] at hy
      have hn_le : ∀ z ∈ r :: rest2, n.beat ≤ z.beat := (List.pairwise_cons.1 hs).1
      rcases List.mem_cons.1 hy with rfl | h2
      · have hle := hn_le y (List.mem_cons_self _ _)
        rw [BeatPos.lt_def]
        rw [BeatPos.le_def] at hle
        have hne : y.beat.frac ≠ n.beat.frac :=
          fun he => hp (BeatPos.eq_of_frac _ _ he)
        omega
      · have hsr : SortedBeats (r :: rest2) := (List.pairwise_cons.1 hs).2
        have hry := (List.pairwise_cons.1 hsr).1 y h2
        have hnr : n.beat ≤ r.beat := hn_le r (List.mem_cons_self _ _)
        rw [BeatPos.lt_def]
        rw [BeatPos.le_def] at hry hnr
        have hne : r.beat.frac ≠ n.beat.frac :=
          fun he => hp (BeatPos.eq_of_frac _ _ he)
        omega

theorem chunkBeatsGo_pairwise :
    ∀ (N : ℕ) (l : List Note), l.length ≤ N → SortedBeats l →
      List.Pairwise (fun g1 g2 => ∀ x ∈ g1, ∀ y ∈ g2, x.beat < y.beat)
        (chunkBeatsGo N l) := by
  intro N
  induction N with
  | zero =>
    intro l h _
    cases l with
    | nil => simp [chunkBeatsGo]
    | cons x rest => simp at h
  | succ N ih =>
    intro l h hs
    cases l with
    | nil => simp [chunkBeatsGo]
    | cons n rest =>
      rw [chunkBeatsGo]
      have hlen2 : (rest.dropWhile (fun x => decide (x.beat = n.beat))).length
          ≤ N := by
        have h3 := (List.dropWhile_suffix
          (fun x => decide (x.beat = n.beat)) (l := rest)).length_le
        simp only [List.length_cons] at h
        omega
      have hsort2 : SortedBeats
          (rest.dropWhile (fun x => decide (x.beat = n.beat))) := by
        have hsub := (List.dropWhile_suffix
          (fun x => decide (x.beat = n.beat)) (l := rest)).sublist
        have hsr : SortedBeats rest := (List.pairwise_cons.1 hs).2
        exact List.Pairwise.sublist hsub hsr
      refine List.Pairwise.cons ?_ (ih _ hlen2 hsort2)
      intro g2 hg2 x hx y hy
      have hyrest : y ∈ rest.dropWhile (fun x => decide (x.beat = n.beat)) := by
        have h4 : y ∈ (chunkBeatsGo N
            (rest.dropWhile (fun x => decide (x.beat = n.beat)))).flatten :=
          List.mem_flatten.2 ⟨g2, hg2, hy⟩
        rwa [chunkBeatsGo_flatten N _ hlen2] at h4
      have hygt : n.beat < y.beat := dropWhile_beats_gt rest n hs y hyrest
      have hbx : x.beat = n.beat := by
        rcases List.mem_cons.1 hx with rfl | h3
        · rfl
        · have h4 := List.mem_takeWhile_imp h3
          exact of_decide_eq_true h4
      rw [hbx]
      exact hygt

theorem chunkBeats_pairwise (l : List Note) (hs : SortedBeats l) :
    List.Pairwise (fun g1 g2 => ∀ x ∈ g1, ∀ y ∈ g2, x.beat < y.beat)
      (chunkBeats l) :=
  chunkBeatsGo_pairwise l.length l (le_refl _) hs

theorem mem_flatten_decomp {α : Type} :
    ∀ (gs : List (List α)) (g : List α), g ∈ gs →
      ∃ A Bb, gs.flatten = A ++ g ++ Bb := by
  intro gs
  induction gs with
  | nil => intro g h; simp at h
  | cons g0 rest ih =>
    intro g h
    rcases List.mem_cons.1 h with rfl | h2
    · exact ⟨[], rest.flatten, by simp⟩
    · obtain ⟨A, Bb, hAB⟩ := ih g h2
      refine ⟨g0 ++ A, Bb, ?_⟩
      rw [List.flatten_cons, hAB]
      simp [List.append_assoc]

theorem nontailsDistinct_infix (A g Bb : List Note)
    (hnd : NontailsDistinct (A ++ g ++ Bb)) : NontailsDistinct g := by
  intro i hir j hjr hbeat hti htj
  rw [List.mem_range] at hir hjr
  have hAi : noteAt (A ++ g ++ Bb) (A.length + i) = noteAt g i := by
    rw [List.append_assoc, noteAt_append_right]
    exact noteAt_append_left _ _ _ hir
  have hAj : noteAt (A ++ g ++ Bb) (A.length + j) = noteAt g j := by
    rw [List.append_assoc, noteAt_append_right]
    exact noteAt_append_left _ _ _ (by omega)
  have hlen : A.length + i < (A ++ g ++ Bb).length := by
    simp only [List.length_append]
    omega
  have h2 := hnd (A.length + i) (List.mem_range.2 hlen) (A.length + j)
    (List.mem_range.2 (by omega)) (by rw [hAi, hAj]; exact hbeat)
    (by rw [hAi]; exact hti) (by rw [hAj]; exact htj)
  rw [hAi, hAj] at h2
  exact h2

/-- The index form of HeadsPaired yields the decomposition form including
the strict beat increase of the matching tail. -/
theorem headsPaired_decompBeat (l : List Note) (hhp : HeadsPaired l) :
    ∀ s h t, l = s ++ h :: t → h.isHead = true →
      ∃ p m q, t = p ++ m :: q ∧ (∀ y ∈ p, y.key ≠ h.key) ∧
        m.key = h.key ∧ m.isTail = true ∧ h.beat < m.beat := by
  intro s h t hdec hh
  have hlens : l.length = s.length + (t.length + 1) := by
    rw [hdec]
    simp [List.length_append]
  have hi : s.length < l.length := by omega
  have hAts : noteAt l s.length = h := by
    rw [hdec]
    have h0 := noteAt_append_right s (h :: t) 0
    simpa [noteAt_cons_zero] using h0
  obtain ⟨j, hjr, hij, hjk, hjt, hjb, hint⟩ :=
    hhp s.length (List.mem_range.2 hi) (by rw [hAts]; exact hh)
  rw [List.mem_range] at hjr
  have hjeq : j = s.length + (1 + (j - s.length - 1)) := by omega
  have hdjlt : j - s.length - 1 < t.length := by omega
  have hAtj : noteAt l j = noteAt t (j - s.length - 1) := by
    rw [hdec, hjeq, noteAt_append_right, Nat.add_comm 1 (j - s.length - 1),
      noteAt_cons_succ]
    congr 1
    omega
  refine ⟨t.take (j - s.length - 1), noteAt t (j - s.length - 1),
    t.drop (j - s.length - 1 + 1), noteAt_cons_drop t _ hdjlt, ?_, ?_, ?_, ?_⟩
  · intro y hy
    obtain ⟨k, hk1, hk2, hk3⟩ := mem_take_noteAt t (j - s.length - 1) y hy
    have hm := hint (s.length + (1 + k))
      (List.mem_range.2 (by omega)) (by omega)
    rw [hdec, noteAt_append_right, Nat.add_comm 1 k, noteAt_cons_succ] at hm
    rw [hdec] at hAts
    rw [hk3, hAts] at hm
    intro hcontra
    exact hm hcontra
  · rw [← hAtj, hjk, hAts]
  · rw [← hAtj]
    exact hjt
  · rw [← hAts, ← hAtj]
    exact hjb

theorem filterOut_append (l1 l2 : List Note) :
    filterOut (l1 ++ l2) = filterOut l1 ++ filterOut l2 := by
  unfold filterOut
  exact List.filter_append l1 l2

/-- Main invariant induction for limit_simultaneous_keys: walking the beat
groups with entry bits of count at most max keeps every group beat of the
surviving output within the bound (held keys judged from the survivors
plus the entry bits, plus the new plain hits). -/
theorem limitGo_bound (select : ℕ → List ℕ → ℕ → List ℕ)
    (hsel : SelectValid select) (maxSim kc : ℕ) :
    ∀ (gs : List (List Note)) (n : ℕ) (a : List Bool),
      a.length = kc →
      a.count true ≤ maxSim →
      (∀ g ∈ gs, ∀ x ∈ g, ∀ y ∈ g, x.beat = y.beat) →
      List.Pairwise (fun g1 g2 => ∀ x ∈ g1, ∀ y ∈ g2, x.beat < y.beat) gs →
      (∀ x ∈ gs.flatten, 0 ≤ x.key) →
      (∀ x ∈ gs.flatten, x.key < (kc : Int)) →
      (∀ g ∈ gs, NontailsDistinct g) →
      (∀ s h t, gs.flatten = s ++ h :: t → h.isHead = true →
        ∃ p m q, t = p ++ m :: q ∧ (∀ y ∈ p, y.key ≠ h.key) ∧
          m.key = h.key ∧ m.isTail = true ∧ h.beat < m.beat) →
      (∀ k, k < kc → a.getD k false = true →
        ∀ s x t, gs.flatten = s ++ x :: t → isKHT k x = true →
          (∀ y ∈ s, isKHT k y = false) → x.isTail = true) →
      ∀ B, (∃ g ∈ gs, ∃ x ∈ g, x.beat = B) →
        heldCountFrom a (filterOut (limitGo select maxSim n a gs).flatten) B kc
          + newHits (filterOut (limitGo select maxSim n a gs).flatten) B
          ≤ maxSim := by
  intro gs
  induction gs with
  | nil =>
    intro n a _ _ _ _ _ _ _ _ _ B hB
    obtain ⟨g, hg, _⟩ := hB
    simp at hg
  | cons g rest ihl =>
    intro n a hlen hcard hconst hpw hknn hkb hnds hpair hJ B hB
    simp only [List.flatten_cons] at hpair hJ hknn hkb
    simp only [limitGo]
    unfold limitGroupStep
    dsimp only
    set a1 := scanActive a g with ha1def
    set pool := nonTailIdxs 0 g with hpooldef
    set tmp := g.countP (fun nt => !nt.isTail && !nt.isHead) with htmpdef
    set CH0 := select n pool (a1.count true + tmp - maxSim) with hchdef
    set a2 := clearChosen g CH0 a1 with ha2def
    rw [List.flatten_cons, filterOut_append]
    set S := filterOut (markChosen CH0 0 g) with hSdef
    set Frest := filterOut (limitGo select maxSim (n + 1) a2 rest).flatten
      with hFrestdef
    have hkeysg : ∀ x ∈ g, 0 ≤ x.key :=
      fun x hx => hknn x (List.mem_append_left _ hx)
    have hkbg : ∀ x ∈ g, x.key < (kc : Int) :=
      fun x hx => hkb x (List.mem_append_left _ hx)
    have hbeatsg := hconst g (List.mem_cons_self _ _)
    have hndg := hnds g (List.mem_cons_self _ _)
    have hlen1 : a1.length = kc := by
      rw [ha1def, scanActive_length g a]
      exact hlen
    have hlen2 : a2.length = kc := by
      rw [ha2def, clearChosen_length g CH0 a1]
      exact hlen1
    have hpnd : pool.Nodup := by
      rw [hpooldef]
      exact nonTailIdxs_nodup g 0
    have hsl := hsel n pool (a1.count true + tmp - maxSim) hpnd
    rw [← hchdef] at hsl
    obtain ⟨hchnd, hchsub, hchlen⟩ := hsl
    have hpool2 : ∀ i ∈ CH0, i < g.length ∧ (noteAt g i).isTail = false := by
      intro i hi
      have h2 := hchsub i hi
      rw [hpooldef] at h2
      obtain ⟨_, hb, hc⟩ := (mem_nonTailIdxs g 0 i).1 h2
      rw [Nat.sub_zero] at hb hc
      exact ⟨hb, hc⟩
    have hJg : ∀ k, k < kc → a.getD k false = true →
        ∀ u x v, g = u ++ x :: v → isKHT k x = true →
          (∀ y ∈ u, isKHT k y = false) → x.isTail = true := by
      intro k hk hak u x v hdec hkx huno
      apply hJ k hk hak u x (v ++ rest.flatten) ?_ hkx huno
      rw [hdec, List.append_assoc, List.cons_append]
    have hcorr : ∀ k, k < kc →
        a2.getD k false =
          (match lastK S k with
           | some nt => nt.isHead
           | none => a.getD k false) := by
      intro k hk
      rw [ha2def, ha1def, hSdef]
      exact groupCorrespond g CH0 a k (by rw [hlen]; exact hk) hkeysg hndg
        hbeatsg hpool2 (hJg k hk)
    have hbits : ∀ i ∈ CH0, (noteAt g i).isHead = true →
        a1.getD (noteAt g i).key.toNat false = true := by
      intro i hi hH
      have hilt := (hpool2 i hi).1
      have hnn : 0 ≤ (noteAt g i).key := hkeysg _ (noteAt_mem g i hilt)
      have hkblt : (noteAt g i).key < (kc : Int) := hkbg _ (noteAt_mem g i hilt)
      have hkk : (noteAt g i).key.toNat < kc := by omega
      have hafter := no_key_after_head g rest.flatten hbeatsg hpair i hilt hH
      have hdec := noteAt_cons_drop g i hilt
      have hkht : isKHT (noteAt g i).key.toNat (noteAt g i) = true := by
        simp [isKHT, Int.toNat_of_nonneg hnn, hH]
      have hnokht : ∀ y ∈ g.drop (i + 1),
          isKHT (noteAt g i).key.toNat y = false := by
        intro y hy
        have hne := hafter y hy
        cases hc : decide (y.key = (((noteAt g i).key.toNat : ℕ) : Int)) with
        | false =>
          unfold isKHT
          rw [hc]
          rfl
        | true =>
          exfalso
          have h5 := of_decide_eq_true hc
          rw [Int.toNat_of_nonneg hnn] at h5
          exact hne h5
      have hlast : lastK (g.take i ++ noteAt g i :: g.drop (i + 1))
          (noteAt g i).key.toNat = some (noteAt g i) :=
        lastK_of_decomp _ _ _ _ hkht hnokht
      have hlast2 : lastK g (noteAt g i).key.toNat = some (noteAt g i) :=
        (congrArg (fun l => lastK l (noteAt g i).key.toNat) hdec).trans hlast
      rw [ha1def, scanActive_getD _ g a hkeysg (by rw [hlen]; exact hkk), hlast2]
      dsimp only
      exact hH
    have hdks : ∀ i ∈ CH0, ∀ i2 ∈ CH0, i ≠ i2 → (noteAt g i).isHead = true →
        (noteAt g i2).isHead = true →
        (noteAt g i).key.toNat ≠ (noteAt g i2).key.toNat := by
      intro i h1 i2 h2 hne _ _ heq
      apply hne
      apply nontailsDistinct_unique_pos g hndg hbeatsg i i2 (hpool2 i h1).1
        (hpool2 i2 h2).1 (hpool2 i h1).2 (hpool2 i2 h2).2
      have hnn1 : 0 ≤ (noteAt g i).key :=
        hkeysg _ (noteAt_mem g i (hpool2 i h1).1)
      have hnn2 : 0 ≤ (noteAt g i2).key :=
        hkeysg _ (noteAt_mem g i2 (hpool2 i2 h2).1)
      omega
    have hklt : ∀ i ∈ CH0, (noteAt g i).isHead = true →
        (noteAt g i).key.toNat < a1.length := by
      intro i hi _
      have hilt := (hpool2 i hi).1
      have hnn : 0 ≤ (noteAt g i).key := hkeysg _ (noteAt_mem g i hilt)
      have hkb2 : (noteAt g i).key < (kc : Int) := hkbg _ (noteAt_mem g i hilt)
      rw [hlen1]
      omega
    have hF1 : a2.count true + CH0.countP (fun i => (noteAt g i).isHead)
        = a1.count true := by
      rw [ha2def]
      exact clearChosen_count g CH0 a1 hchnd hbits hdks hklt
    have hpoollen : pool.length = g.countP (fun nt => nt.isHead) + tmp := by
      rw [hpooldef, nonTailIdxs_length g 0, htmpdef]
      exact countP_nontail_split g
    have hgrow : a1.count true ≤ a.count true + g.countP (fun nt => nt.isHead) := by
      rw [ha1def]
      exact scanActive_count_le g a
    have htr : a1.count true + tmp - maxSim ≤ pool.length := by omega
    have hchlen2 : CH0.length = a1.count true + tmp - maxSim := by
      rw [hchlen]
      omega
    have hsplitC : CH0.length = CH0.countP (fun i => (noteAt g i).isHead)
        + CH0.countP (fun i => !(noteAt g i).isHead) :=
      countP_split_neg CH0 (fun i => (noteAt g i).isHead)
    have hctb : CH0.countP (fun i => !(noteAt g i).isHead)
        = CH0.countP (fun i =>
          (fun nt => !nt.isTail && !nt.isHead) (noteAt g i)) := by
      apply List.countP_congr
      intro i hi
      have ht := (hpool2 i hi).2
      simp [ht]
    have hposb : posCount CH0 (fun nt => !nt.isTail && !nt.isHead) 0 g
        = CH0.countP (fun i =>
          (fun nt => !nt.isTail && !nt.isHead) (noteAt g i)) := by
      rw [posCount_eq_countP _ g 0 CH0 hchnd ?bounds]
      · apply List.countP_congr
        intro i hi
        rw [Nat.sub_zero]
      case bounds =>
        intro i hi
        exact ⟨Nat.zero_le i, by rw [Nat.sub_zero]; exact (hpool2 i hi).1⟩
    have hF4 : S.countP (fun nt => !nt.isTail && !nt.isHead)
        + posCount CH0 (fun nt => !nt.isTail && !nt.isHead) 0 g
        = g.countP (fun nt => !nt.isTail && !nt.isHead) := by
      rw [hSdef]
      exact filterOut_markChosen_countP CH0 _ g 0 hkeysg
    have hchmax : CH0.countP (fun i => (noteAt g i).isHead) ≤ CH0.length :=
      List.countP_le_length _
    have hcard2 : a2.count true ≤ maxSim := by omega
    obtain ⟨g0, hg0, x0, hx0, hx0b⟩ := hB
    rcases List.mem_cons.1 hg0 with hg0eq | hg0r
    · -- B is the beat of the first group
      rw [hg0eq] at hx0
      have hBg : ∀ x ∈ g, x.beat = B := by
        intro x hx
        have h1 := hbeatsg x hx x0 hx0
        rw [h1, hx0b]
      have hSB : ∀ y ∈ S, y.beat = B := by
        intro y hy
        rw [hSdef] at hy
        unfold filterOut at hy
        obtain ⟨z, hz, hb, _, _⟩ :=
          mem_markChosen CH0 g 0 y (List.mem_filter.1 hy).1
        rw [hb]
        exact hBg z hz
      have hFrestGt : ∀ y ∈ Frest, B < y.beat := by
        intro y hy
        rw [hFrestdef] at hy
        unfold filterOut at hy
        have hy2 := (List.mem_filter.1 hy).1
        obtain ⟨gr, hgr, z, hz, hb⟩ :=
          limitGo_beats select maxSim rest (n + 1) a2 y hy2
        have hlt := (List.pairwise_cons.1 hpw).1 gr hgr x0 hx0 z hz
        rw [hb, ← hx0b]
        exact hlt
      have hnhF : newHits Frest B = 0 := by
        apply newHits_zero_of_ne
        intro x hx
        have h2 := hFrestGt x hx
        intro he
        rw [he, BeatPos.lt_def] at h2
        omega
      have hnhS : newHits S B
          = S.countP (fun nt => !nt.isTail && !nt.isHead) := by
        unfold newHits
        apply List.countP_congr
        intro x hx
        have hb := hSB x hx
        simp [hb]
      have hhc : heldCountFrom a (S ++ Frest) B kc = a2.count true := by
        unfold heldCountFrom
        have hcongr : ∀ k ∈ List.range kc,
            (heldNowFrom a (S ++ Frest) B k = true)
              ↔ (a2.getD k false = true) := by
          intro k hk
          rw [List.mem_range] at hk
          have h1 : lastHT Frest (k : Int) B = none :=
            lastHT_none_of_gt Frest _ B hFrestGt
          have h2 : lastHT (S ++ Frest) (k : Int) B = lastHT S (k : Int) B :=
            lastHT_append_right_none S Frest _ B h1
          have h3 : lastHT S (k : Int) B = lastK S k :=
            lastHT_eq_lastK S k B (fun x hx => by
              rw [hSB x hx, BeatPos.le_def])
          unfold heldNowFrom
          rw [h2, h3]
          cases hsk : lastK S k with
          | some nt =>
            have h4 := hcorr k hk
            rw [hsk] at h4
            dsimp only at h4
            dsimp only
            rw [h4]
          | none =>
            have h4 := hcorr k hk
            rw [hsk] at h4
            dsimp only at h4
            dsimp only
            rw [h4]
        rw [List.countP_congr hcongr, ← hlen2]
        exact countP_range_getD a2
      rw [hhc, newHits_append, hnhS, hnhF]
      omega
    · -- B lies in a later group
      have hgLt : ∀ x ∈ g, x.beat < B := by
        intro x hx
        have h1 := (List.pairwise_cons.1 hpw).1 g0 hg0r x hx x0 hx0
        rw [← hx0b]
        exact h1
      have hSB2 : ∀ y ∈ S, y.beat < B := by
        intro y hy
        rw [hSdef] at hy
        unfold filterOut at hy
        obtain ⟨z, hz, hb, _, _⟩ :=
          mem_markChosen CH0 g 0 y (List.mem_filter.1 hy).1
        rw [hb]
        exact hgLt z hz
      have hheld : ∀ k ∈ List.range kc,
          (heldNowFrom a (S ++ Frest) B k = true)
            ↔ (heldNowFrom a2 Frest B k = true) := by
        intro k hk
        rw [List.mem_range] at hk
        unfold heldNowFrom
        cases hfr : lastHT Frest (k : Int) B with
        | some e =>
          rw [lastHT_append_right_some S Frest _ B e hfr]
        | none =>
          rw [lastHT_append_right_none S Frest _ B hfr]
          have h3 : lastHT S (k : Int) B = lastK S k :=
            lastHT_eq_lastK S k B (fun x hx => by
              have h5 := hSB2 x hx
              rw [BeatPos.lt_def] at h5
              rw [BeatPos.le_def]
              omega)
          rw [h3]
          cases hsk : lastK S k with
          | some nt =>
            have h4 := hcorr k hk
            rw [hsk] at h4
            dsimp only at h4
            dsimp only
            rw [h4]
          | none =>
            have h4 := hcorr k hk
            rw [hsk] at h4
            dsimp only at h4
            dsimp only
            rw [h4]
      have hnhS2 : newHits S B = 0 := by
        apply newHits_zero_of_ne
        intro x hx
        have h2 := hSB2 x hx
        intro he
        rw [he, BeatPos.lt_def] at h2
        omega
      have hconst2 : ∀ g' ∈ rest, ∀ x ∈ g', ∀ y ∈ g', x.beat = y.beat :=
        fun g' hg' => hconst g' (List.mem_cons_of_mem _ hg')
      have hpw2 := (List.pairwise_cons.1 hpw).2
      have hknn2 : ∀ x ∈ rest.flatten, 0 ≤ x.key :=
        fun x hx => hknn x (List.mem_append_right _ hx)
      have hkb2 : ∀ x ∈ rest.flatten, x.key < (kc : Int) :=
        fun x hx => hkb x (List.mem_append_right _ hx)
      have hnds2 : ∀ g' ∈ rest, NontailsDistinct g' :=
        fun g' hg' => hnds g' (List.mem_cons_of_mem _ hg')
      have hpair2 : ∀ s h t, rest.flatten = s ++ h :: t → h.isHead = true →
          ∃ p m q, t = p ++ m :: q ∧ (∀ y ∈ p, y.key ≠ h.key) ∧
            m.key = h.key ∧ m.isTail = true ∧ h.beat < m.beat := by
        intro s h t hdec hh
        apply hpair (g ++ s) h t ?_ hh
        rw [hdec, List.append_assoc]
      have hJ2 := J_restore g rest.flatten CH0 a kc hlen hkeysg hbeatsg
        hpair hJ
      rw [← ha1def, ← ha2def] at hJ2
      have hIH := ihl (n + 1) a2 hlen2 hcard2 hconst2 hpw2 hknn2 hkb2 hnds2
        hpair2 hJ2 B ⟨g0, hg0r, x0, hx0, hx0b⟩
      rw [← hFrestdef] at hIH
      rw [newHits_append, hnhS2]
      unfold heldCountFrom at hIH ⊢
      rw [List.countP_congr hheld]
      have hee : List.countP (fun k => heldNowFrom a2 Frest B k)
          (List.range kc)
          = List.countP (heldNowFrom a2 Frest B) (List.range kc) := rfl
      omega

theorem count_true_replicate_false (kc : ℕ) :
    (List.replicate kc false).count true = 0 := by
  induction kc with
  | zero => rfl
  | succ kc ih => simp [List.replicate, List.count_cons, ih]

theorem takeSel_valid : SelectValid takeSel := by
  intro n pool amt hnd
  refine ⟨?_, ?_, ?_⟩
  · exact List.Nodup.sublist (List.take_sublist _ _) hnd
  · intro x hx
    exact List.mem_of_mem_take hx
  · exact List.length_take _ _

/-- C2: after limit_simultaneous(max), every beat of the surviving chart
carries at most max concurrently-active keys: keys still held by an
unfinished hold plus the new plain (non-head non-tail) notes of the beat.
Valid for every chart passing the Simfile::check invariants and every
valid choose_multiple oracle. -/
theorem c2_simultaneous_bound (select : ℕ → List ℕ → ℕ → List ℕ)
    (hsel : SelectValid select) (maxSim : ℕ) (sm : Simfile)
    (hs : SortedBeats sm.notes) (hnn : KeysNonneg sm.notes)
    (hkb : KeysBelow sm.gamemode.keyCount sm.notes)
    (hhp : HeadsPaired sm.notes) (hnd : NontailsDistinct sm.notes) :
    ∀ B, (∃ nt ∈ (limitSimultaneousKeys select maxSim sm).notes, nt.beat = B) →
      heldCount (limitSimultaneousKeys select maxSim sm).notes B
          sm.gamemode.keyCount
        + newHits (limitSimultaneousKeys select maxSim sm).notes B
        ≤ maxSim := by
  intro B hB
  unfold limitSimultaneousKeys at hB ⊢
  dsimp only at hB ⊢
  obtain ⟨nt0, hnt0, hb0⟩ := hB
  have hnt1 : nt0 ∈ (limitGo select maxSim 0
      (List.replicate sm.gamemode.keyCount false)
      (chunkBeats sm.notes)).flatten := by
    unfold filterOut at hnt0
    exact (List.mem_filter.1 hnt0).1
  obtain ⟨gr, hgr, z, hz, hbz⟩ := limitGo_beats select maxSim
    (chunkBeats sm.notes) 0 (List.replicate sm.gamemode.keyCount false)
    nt0 hnt1
  have hBW : ∃ g ∈ chunkBeats sm.notes, ∃ x ∈ g, x.beat = B :=
    ⟨gr, hgr, z, hz, by rw [← hbz, hb0]⟩
  have hbridge : ∀ (l : List Note) (B2 : BeatPos),
      heldCount l B2 sm.gamemode.keyCount =
        heldCountFrom (List.replicate sm.gamemode.keyCount false) l B2
          sm.gamemode.keyCount := by
    intro l B2
    unfold heldCount heldCountFrom
    apply List.countP_congr
    intro k _
    unfold heldNow heldNowFrom
    cases h : lastHT l (k : Int) B2 with
    | none =>
      dsimp only
      rw [getD_replicate_false]
    | some e =>
      dsimp only
      exact Iff.rfl
  rw [hbridge]
  apply limitGo_bound select hsel maxSim sm.gamemode.keyCount
    (chunkBeats sm.notes) 0 (List.replicate sm.gamemode.keyCount false)
    (by simp) (by rw [count_true_replicate_false]; exact Nat.zero_le _)
    (chunkBeats_const sm.notes)
    (chunkBeats_pairwise sm.notes hs)
    (by rw [chunkBeats_flatten]; exact hnn)
    (by rw [chunkBeats_flatten]; exact hkb)
    ?nds ?pair ?hJ B hBW
  case nds =>
    intro g hg
    obtain ⟨A, Bb, hab⟩ := mem_flatten_decomp (chunkBeats sm.notes) g hg
    rw [chunkBeats_flatten] at hab
    have hnd2 := hnd
    rw [hab] at hnd2
    exact nontailsDistinct_infix A g Bb hnd2
  case pair =>
    intro s h t hdec hh
    rw [chunkBeats_flatten] at hdec
    exact headsPaired_decompBeat sm.notes hhp s h t hdec hh
  case hJ =>
    intro k _ habs
    rw [getD_replicate_false] at habs
    exact absurd habs (by simp)

/-- Witness for C2: five simultaneous hits limited to 3 with the
take-first oracle; the surviving chart has 3 active keys at beat 0. -/
theorem c2_witness :
    SelectValid takeSel ∧ SortedBeats smEx3.notes ∧ KeysNonneg smEx3.notes ∧
    KeysBelow smEx3.gamemode.keyCount smEx3.notes ∧ HeadsPaired smEx3.notes ∧
    NontailsDistinct smEx3.notes ∧
    (∃ nt ∈ (limitSimultaneousKeys takeSel 3 smEx3).notes,
      nt.beat = (⟨0⟩ : BeatPos)) ∧
    heldCount (limitSimultaneousKeys takeSel 3 smEx3).notes (⟨0⟩ : BeatPos)
        smEx3.gamemode.keyCount
      + newHits (limitSimultaneousKeys takeSel 3 smEx3).notes (⟨0⟩ : BeatPos)
      ≤ 3 :=
  ⟨takeSel_valid, by decide, by decide, by decide, by decide, by decide,
    by decide,
    c2_simultaneous_bound takeSel takeSel_valid 3 smEx3 (by decide)
      (by decide) (by decide) (by decide) (by decide) (⟨0⟩ : BeatPos)
      (by decide)⟩
